import Mathlib

/-!
# `huffman.cpp`: a model of the Huffman coder and its verification

The definitions below transcribe `src/huffman.cpp` function by function.

Conventions of the transcription (x86-64 Linux, the platform the program is built for):

* a file is a list of bytes; a `char` object is represented by the byte it holds, its
  numeric value (`char` is signed) is `charVal`;
* `int` is 32 bit two's complement, stored little endian; every `int` result is reduced with
  `wrapInt`;
* `unsigned char` and `unsigned short` arithmetic is reduced modulo `2^8` and `2^16`;
* `long long fileSize` counts the bytes of one file and is kept as a natural number;
* a run whose behaviour the C++ standard leaves undefined (reading `top()` of an empty
  queue, returning an uninitialised pointer, using an object that a failed `read` left
  uninitialised) has result `none`;
* `std::priority_queue` is the container adaptor of the standard library: a vector together
  with `push_heap` and `pop_heap`.  The standard fixes these two algorithms only up to the heap
  property, so they are a parameter (`HeapAlgorithms`) constrained by `HeapAlgorithms.Lawful`.
-/

namespace Huffman

/-! ## Machine types -/

/-- One byte of a file, and the representation of a `char` object. -/
abbrev Byte := Fin 256

/-- Build a byte from an `unsigned char` value. -/
def toByte (n : Nat) : Byte := ⟨n % 256, Nat.mod_lt n (by decide)⟩

/-- Numeric value of the `char` holding byte `b` (`char` is a signed 8 bit type). -/
def charVal (b : Byte) : Int := if b.val < 128 then (b.val : Int) else (b.val : Int) - 256

/-- Reduction of an integer result to the 32 bit two's complement range of `int`. -/
def wrapInt (x : Int) : Int := (x + 2147483648) % 4294967296 - 2147483648

/-- The four bytes of an `int` object in memory order (little endian). -/
def intBytes (x : Int) : List Byte :=
  let u := (x % 4294967296).toNat
  [toByte u, toByte (u / 256), toByte (u / 65536), toByte (u / 16777216)]

/-- The `int` whose object representation is the four given bytes. -/
def readInt (b0 b1 b2 b3 : Byte) : Int :=
  wrapInt ((b0.val : Int) + 256 * b1.val + 65536 * b2.val + 16777216 * b3.val)

/-- Line 18: `const char EOD = 13`. -/
def EOD : Byte := 13

/-- The value of `string::npos`, the largest `size_t`. -/
def npos : Int := 18446744073709551615

/-- Line 19: `const int MAGIC_NUMBER = string::npos`, converted to `int`. -/
def MAGIC_NUMBER : Int := wrapInt npos

/-! ## `struct node` -/

/-- A value of type `node*`: the null pointer, or a pointer to a node that owns the nodes its
`left` and `right` fields point to. -/
inductive node where
  | null : node
  | mk (count : Int) (c : Byte) (left right : node) : node
  deriving DecidableEq

namespace node

/-- Whether the pointer is `nullptr`. -/
def isNull : node → Bool
  | null => true
  | mk _ _ _ _ => false

/-- Field `count` of the node pointed to (never read through a null pointer). -/
def count : node → Int
  | null => 0
  | mk k _ _ _ => k

/-- Field `c` of the node pointed to (never read through a null pointer). -/
def c : node → Byte
  | null => 0
  | mk _ s _ _ => s

/-- Lines 343-351: the constructor `node::node(node *lptr, node *rptr)`. -/
def new (lptr rptr : node) : node :=
  mk (if !lptr.isNull && !rptr.isNull then wrapInt (lptr.count + rptr.count) else 0) 0 lptr rptr

end node

/-- Lines 364-366: `cmp_node::operator()`. -/
def cmp_node (a b : node) : Bool := decide (a.count > b.count)

/-! ## `std::priority_queue<node*, vector<node*>, cmp_node>` -/

/-- The two heap algorithms of `<algorithm>` used by `std::priority_queue`, instantiated with
`cmp_node`.  Each takes the whole vector and returns it rearranged. -/
structure HeapAlgorithms where
  push_heap : List node → List node
  pop_heap : List node → List node

namespace priority_queue

/-- The member `push(x)`: `c.push_back(x); push_heap(c.begin(), c.end(), comp)`. -/
def push (H : HeapAlgorithms) (q : List node) (x : node) : List node :=
  H.push_heap (q ++ [x])

/-- The member `top()`: `c.front()`; undefined on an empty queue. -/
def top (q : List node) : Option node := q.head?

/-- The member `pop()`: `pop_heap(c.begin(), c.end(), comp); c.pop_back()`; undefined on an
empty queue. -/
def pop (H : HeapAlgorithms) (q : List node) : Option (List node) :=
  if q.isEmpty then none else some (H.pop_heap q).dropLast

/-- The states a queue can be in: empty at construction, then changed by `push` and `pop`. -/
inductive Reachable (H : HeapAlgorithms) : List node → Prop where
  | empty : Reachable H []
  | push {q : List node} (x : node) : Reachable H q → Reachable H (push H q x)
  | pop {q q1 : List node} : Reachable H q → pop H q = some q1 → Reachable H q1

end priority_queue

/-- What the C++ standard promises about the heap algorithms on the vector of a priority
queue: `push_heap` and `pop_heap` rearrange the vector, `pop_heap` moves the first element to
the end, and no element is ordered before the first one by the comparator. -/
def HeapAlgorithms.Lawful (H : HeapAlgorithms) : Prop :=
  ∀ q, priority_queue.Reachable H q →
    (∀ x, (H.push_heap (q ++ [x])).Perm (q ++ [x])) ∧
    (q ≠ [] → (H.pop_heap q).Perm q ∧ (H.pop_heap q).getLast? = q.head?) ∧
    (∀ n ∈ q.head?, ∀ x ∈ q, cmp_node n x = false)

/-! ## `std::map` -/

/-- The statement `frequency[c]++` on a `map<char, int>`, kept in ascending key order. -/
def mapIncr (c : Byte) : List (Byte × Int) → List (Byte × Int)
  | [] => [(c, wrapInt (0 + 1))]
  | (k, v) :: m =>
    if charVal c < charVal k then (c, wrapInt (0 + 1)) :: (k, v) :: m
    else if charVal k < charVal c then (k, v) :: mapIncr c m
    else (k, wrapInt (v + 1)) :: m

/-- The statement `frequency[c] = f` on a `map<char, int>`, kept in ascending key order. -/
def mapAssign (c : Byte) (f : Int) : List (Byte × Int) → List (Byte × Int)
  | [] => [(c, f)]
  | (k, v) :: m =>
    if charVal c < charVal k then (c, f) :: (k, v) :: m
    else if charVal k < charVal c then (k, v) :: mapAssign c f m
    else (k, f) :: m

/-- The statement `(*m)[k] = v` on a map that is only read by key afterwards (the two maps of
paths): iteration order is not represented. -/
def pathAssign {K V : Type} [DecidableEq K] (k : K) (v : V) : List (K × V) → List (K × V)
  | [] => [(k, v)]
  | (k1, v1) :: m => if k1 = k then (k, v) :: m else (k1, v1) :: pathAssign k v m

/-- The expression `paths[c]` on a `map<char, string>`: the empty string when `c` is absent. -/
def pathOf (paths : List (Byte × List Char)) (c : Byte) : List Char :=
  (paths.lookup c).getD []

/-! ## `createPath` -/

/-- Lines 416-429: `createPath(node*, map<char, string>*, string)`. -/
def createPath : node → List (Byte × List Char) → List Char → List (Byte × List Char)
  | .null, m, _ => m
  | .mk _ c left right, m, path =>
    let m1 := if c ≠ 0 then pathAssign c path m else m
    let m2 := if left.isNull then m1 else createPath left m1 (path ++ ['0'])
    if right.isNull then m2 else createPath right m2 (path ++ ['1'])

/-- Lines 431-444: the overload `createPath(node*, map<string, char>*, string)`. -/
def createPathInv : node → List (List Char × Byte) → List Char → List (List Char × Byte)
  | .null, m, _ => m
  | .mk _ c left right, m, path =>
    let m1 := if c ≠ 0 then pathAssign path c m else m
    let m2 := if left.isNull then m1 else createPathInv left m1 (path ++ ['0'])
    if right.isNull then m2 else createPathInv right m2 (path ++ ['1'])

/-! ## `createHuffmanTree` -/

/-- Lines 449-458: the loop that creates one leaf per table entry and pushes it.  The state
is the queue and the variable `p` (`none` while uninitialised). -/
def createHuffmanTree.leaves (H : HeapAlgorithms) (frequency : List (Byte × Int)) :
    List node × Option node :=
  frequency.foldl
    (fun st it =>
      let p := node.mk it.2 it.1 .null .null
      (priority_queue.push H st.1 p, some p))
    ([], none)

/-- Lines 460-474: the merge loop and the `return p`.  The first argument bounds the number
of iterations; `none` is undefined behaviour (or an exhausted bound). -/
def createHuffmanTree.merge (H : HeapAlgorithms) : Nat → List node → Option node → Option node
  | 0, _, _ => none
  | fuel + 1, nodeQueue, p =>
    if nodeQueue.isEmpty then p
    else do
      let n1 ← priority_queue.top nodeQueue
      let q1 ← priority_queue.pop H nodeQueue
      let n2 ← priority_queue.top q1
      let q2 ← priority_queue.pop H q1
      let p := node.new n1 n2
      if !q2.isEmpty then createHuffmanTree.merge H fuel (priority_queue.push H q2 p) (some p)
      else createHuffmanTree.merge H fuel q2 (some p)

/-- Lines 446-475: `createHuffmanTree(map<char, int> frequency)`. -/
def createHuffmanTree (H : HeapAlgorithms) (frequency : List (Byte × Int)) : Option node :=
  let st := createHuffmanTree.leaves H frequency
  createHuffmanTree.merge H (frequency.length + 1) st.1 st.2

/-! ## `class writeToBinary` -/

/-- The data members of `writeToBinary`; `out` is the content written to the file so far. -/
structure writeToBinary where
  buffer : Nat
  bufferLength : Nat
  out : List Byte
  deriving DecidableEq

namespace writeToBinary

/-- Lines 368-385: the constructor, which writes the header. -/
def new (frequency : List (Byte × Int)) : writeToBinary :=
  let size := wrapInt frequency.length
  { buffer := 0
    bufferLength := 0
    out := intBytes MAGIC_NUMBER ++ intBytes size ++
      frequency.foldl (fun out it => out ++ ([it.1] ++ intBytes it.2)) [] }

/-- Lines 401-412: the body of the `for` loop of `write`, for the character `ch = s[i]`. -/
def writeChar (w : writeToBinary) (ch : Char) : writeToBinary :=
  let buffer := if ch = '1' then (w.buffer + 1) % 256 else w.buffer
  let bufferLength := (w.bufferLength + 1) % 65536
  if bufferLength ≥ 8 then
    { buffer := 0, bufferLength := 0, out := w.out ++ [toByte buffer] }
  else
    { buffer := (buffer * 2) % 256, bufferLength := bufferLength, out := w.out }

/-- Lines 399-414: `writeToBinary::write(string s)`. -/
def write (w : writeToBinary) (s : List Char) : writeToBinary :=
  s.foldl writeChar w

/-- Lines 389-392: the padding loop `while (bufferLength < 7)`; the first argument bounds the
number of iterations (seven always suffice). -/
def padLoop : Nat → Nat → Nat → Nat
  | 0, buffer, _ => buffer
  | fuel + 1, buffer, bufferLength =>
    if bufferLength < 7 then padLoop fuel ((buffer * 2) % 256) ((bufferLength + 1) % 65536)
    else buffer

/-- Lines 387-397: the destructor; the result is the final content of the file. -/
def close (w : writeToBinary) : List Byte :=
  if w.bufferLength ≠ 0 then w.out ++ [toByte (padLoop 7 w.buffer w.bufferLength)]
  else w.out

end writeToBinary

/-! ## `main` -/

/-- What a run of the program leaves behind: the lines printed on `cout`, the content of the
output file `argv[3]` (`none` when the run never opened it), and the value returned by
`main`. -/
structure Outcome where
  console : List String
  file : Option (List Byte)
  status : Int
  deriving DecidableEq

/-- Lines 201-211: the frequency table of the input, with the entry of `EOD` incremented. -/
def countFrequency (input : List Byte) : List (Byte × Int) :=
  mapIncr EOD (input.foldl (fun frequency c => mapIncr c frequency) [])

/-- Lines 216-219: `compressedHeader`. -/
def compressedHeader (frequency : List (Byte × Int)) : Nat :=
  4 + 4 + frequency.length * (1 + 4)

/-- Lines 201-249: the `-huff` branch of `main` on an input file that opened, with content
`input`. -/
def huff (H : HeapAlgorithms) (input : List Byte) : Option Outcome :=
  let frequency := countFrequency input
  let fileSize := input.length * 1
  if compressedHeader frequency < fileSize then do
    let root ← createHuffmanTree H frequency
    let paths := createPath root [] []
    let w := writeToBinary.new frequency
    let w := input.foldl (fun w c => w.write (pathOf paths c)) w
    let w := w.write (pathOf paths EOD)
    some { console := [], file := some w.close, status := 0 }
  else
    some { console := ["File will not compress"], file := none, status := 0 }

/-- The variables of the decoding loop (lines 297-299) and the content of the output file. -/
structure DecodeState where
  currPath : List Char
  isEOD : Bool
  out : List Byte
  deriving DecidableEq

/-- Lines 303-323: one iteration of the `for` loop over the bits of `currChar`, for index
`i`; the loop condition `!isEOD` is tested first. -/
def decodeBit (paths : List (List Char × Byte)) (currChar : Byte) (st : DecodeState)
    (i : Nat) : DecodeState :=
  if st.isEOD then st
  else
    let temp := (charVal currChar / 2 ^ i) % 2
    let currPath := if temp = 1 then st.currPath ++ ['1'] else st.currPath ++ ['0']
    match paths.lookup currPath with
    | some s =>
      if s = EOD then { currPath := [], isEOD := true, out := st.out }
      else { currPath := [], isEOD := false, out := st.out ++ [s] }
    | none => { currPath := currPath, isEOD := st.isEOD, out := st.out }

/-- Lines 301-324: the `while` loop over the remaining bytes of the input. -/
def decodeLoop (paths : List (List Char × Byte)) : List Byte → DecodeState → DecodeState
  | [], st => st
  | currChar :: rest, st =>
    if st.isEOD then st
    else decodeLoop paths rest ([7, 6, 5, 4, 3, 2, 1, 0].foldl (decodeBit paths currChar) st)

/-- One iteration of the decoding loop, seen as a function of the character appended to
`currPath` (`'1'` or `'0'`, according to the bit read). -/
def decodeStep (paths : List (List Char × Byte)) (st : DecodeState) (ch : Char) :
    DecodeState :=
  if st.isEOD then st
  else
    match paths.lookup (st.currPath ++ [ch]) with
    | some s =>
      if s = EOD then { currPath := [], isEOD := true, out := st.out }
      else { currPath := [], isEOD := false, out := st.out ++ [s] }
    | none => { currPath := st.currPath ++ [ch], isEOD := st.isEOD, out := st.out }

/-- Lines 274-282: the loop that reads `numChar` pairs.  A `read` that finds the stream
exhausted leaves its target uninitialised, which the loop body then uses: `none`. -/
def readPairs : Nat → List Byte → List (Byte × Int) → Option (List (Byte × Int) × List Byte)
  | 0, rest, frequency => some (frequency, rest)
  | n + 1, c :: b0 :: b1 :: b2 :: b3 :: rest, frequency =>
    readPairs n rest (mapAssign c (readInt b0 b1 b2 b3) frequency)
  | _ + 1, _, _ => none

/-- Lines 263-331: the `-unhuff` branch of `main` on an input file that opened, with content
`file`. -/
def unhuff (H : HeapAlgorithms) (file : List Byte) : Option Outcome :=
  match file with
  | m0 :: m1 :: m2 :: m3 :: afterMagic =>
    if readInt m0 m1 m2 m3 = MAGIC_NUMBER then
      match afterMagic with
      | n0 :: n1 :: n2 :: n3 :: afterCount => do
        let numChar := readInt n0 n1 n2 n3
        let (frequency, payload) ← readPairs numChar.toNat afterCount []
        let root ← createHuffmanTree H frequency
        let paths := createPathInv root [] []
        let st := decodeLoop paths payload { currPath := [], isEOD := false, out := [] }
        some { console := [], file := some st.out, status := 0 }
      | _ => none
    else
      some { console := ["Input file was not Huffman Endoded."], file := none, status := 0 }
  | _ => none

/-- Lines 189-340: `main`, given `argv[1]` and the content of the file named by `argv[2]`
(`none` when it cannot be opened). -/
def main (H : HeapAlgorithms) (flag : String) (input : Option (List Byte)) : Option Outcome :=
  if flag = "-huff" then
    match input with
    | none => some { console := ["File failed to open!"], file := none, status := -1 }
    | some content => huff H content
  else if flag = "-unhuff" then
    match input with
    | none => some { console := ["ERROR"], file := none, status := -1 }
    | some content => unhuff H content
  else
    some { console := ["INVALID ARGUMENT"], file := none, status := 0 }

/-! ## A concrete priority queue

An instance of the heap algorithms that keeps the vector sorted by `count`; it is used to run
the model on concrete inputs. -/

/-- Insert `x` behind every element whose count is not larger. -/
def sortedInsert (x : node) : List node → List node
  | [] => [x]
  | y :: q => if cmp_node y x then x :: y :: q else y :: sortedInsert x q

/-- Heap algorithms on a vector kept in ascending order of `count`. -/
def sortedHeap : HeapAlgorithms where
  push_heap := fun v =>
    match v.getLast? with
    | none => []
    | some x => sortedInsert x v.dropLast
  pop_heap := fun v =>
    match v with
    | [] => []
    | x :: q => q ++ [x]

/-! ## Notions used to state the properties -/

namespace node

/-- The leaves of a tree from left to right, each as the pair of its symbol and count.  A
leaf is a node whose two child pointers are null. -/
def entries : node → List (Byte × Int)
  | null => []
  | mk k s l r => if l.isNull && r.isNull then [(s, k)] else entries l ++ entries r

/-- Weighted path length of a tree whose root sits at depth `d`: the sum over the leaves of
count times depth. -/
def wplAt : Nat → node → Int
  | _, null => 0
  | d, mk k _ l r => if l.isNull && r.isNull then k * d else wplAt (d + 1) l + wplAt (d + 1) r

/-- Weighted path length of a tree. -/
def wpl (t : node) : Int := wplAt 0 t

/-- Sum of the counts of the leaves. -/
def weight (t : node) : Int := (t.entries.map Prod.snd).sum

/-- Shape of the trees of the data model: a non-null node is either a leaf or an internal node
with symbol `0`, two non-null children of that shape, and the `int` sum of their counts as
count. -/
def wellShaped : node → Bool
  | null => false
  | mk k s l r =>
    (l.isNull && r.isNull) ||
      (wellShaped l && wellShaped r && decide (s = 0) && decide (k = wrapInt (l.count + r.count)))

/-- Every node that `createPath` records, in the order it visits them: the nodes whose symbol
is not `0`, each with the path leading to it from a root reached by `path`. -/
def labels : node → List Char → List (Byte × List Char)
  | null, _ => []
  | mk _ s l r, path =>
    (if s ≠ 0 then [(s, path)] else []) ++ labels l (path ++ ['0']) ++ labels r (path ++ ['1'])

/-- Every leaf with the path leading to it (left step `'0'`, right step `'1'`). -/
def leafPaths : node → List Char → List (Byte × List Char)
  | null, _ => []
  | mk _ s l r, path =>
    if l.isNull && r.isNull then [(s, path)]
    else leafPaths l (path ++ ['0']) ++ leafPaths r (path ++ ['1'])

end node

/-- The table is a well-formed `map<char, int>`: keys strictly ascending, counts in the range
of `int`. -/
def IsFrequencyMap (frequency : List (Byte × Int)) : Prop :=
  frequency.Pairwise (fun a b => charVal a.1 < charVal b.1) ∧
    ∀ it ∈ frequency, -2147483648 ≤ it.2 ∧ it.2 < 2147483648

/-- The bit a character of a path stands for in `writeToBinary::write`. -/
def bitOf (ch : Char) : Bool := decide (ch = '1')

/-- Value of a group of bits read most significant bit first. -/
def bitsValue (g : List Bool) : Nat := g.foldl (fun acc b => 2 * acc + b.toNat) 0

/-- The byte that stores a group of at most eight bits most significant bit first, the
missing low-order bits being zero. -/
def groupByte (g : List Bool) : Byte := toByte (bitsValue g * 2 ^ (8 - g.length))

/-- The bit stream split into groups of eight, each group stored in one byte most
significant bit first, the last group padded with zero bits on the low-order side. -/
def packBits : List Bool → List Byte
  | [] => []
  | b :: bs => groupByte ((b :: bs).take 8) :: packBits ((b :: bs).drop 8)
termination_by s => s.length
decreasing_by simp; omega

/-- The eight characters the decoder derives from one byte, from bit 7 down to bit 0. -/
def byteChars (b : Byte) : List Char :=
  [7, 6, 5, 4, 3, 2, 1, 0].map (fun i => if (charVal b / 2 ^ i) % 2 = 1 then '1' else '0')

/-- Encoding followed by decoding: the content of the file `unhuff` writes when it is given
the file `huff` wrote for `input`. -/
def roundTrip (H : HeapAlgorithms) (input : List Byte) : Option (List Byte) := do
  let o1 ← huff H input
  let container ← o1.file
  let o2 ← unhuff H container
  o2.file

/-- The leaf that `createHuffmanTree` creates for one entry of the table. -/
def leafNode (it : Byte × Int) : node := node.mk it.2 it.1 .null .null

/-- The merge loop as a relation between the content of the queue and the returned root:
two nodes of least count are taken out and joined, and the joined node is put back unless the
queue has become empty. -/
inductive Builds : List node → node → Prop where
  | last {q : List node} {n1 n2 : node} :
      q.Perm [n1, n2] → n1.count ≤ n2.count → Builds q (node.new n1 n2)
  | step {q q2 q' : List node} {n1 n2 root : node} :
      q.Perm (n1 :: n2 :: q2) → q2 ≠ [] → n1.count ≤ n2.count →
      (∀ x ∈ q2, n2.count ≤ x.count) →
      q'.Perm (node.new n1 n2 :: q2) → Builds q' root → Builds q root

/-- Whether a non-null node is a leaf: both child pointers are null. -/
def node.isLeaf : node → Bool
  | .null => false
  | .mk _ _ l r => l.isNull && r.isNull

/-- Two paths of which neither is an initial segment of the other. -/
def Unrelated (p q : List Char) : Prop := ¬ p <+: q ∧ ¬ q <+: p

/-- The character that stands for a bit in a path. -/
def bitChar (b : Bool) : Char := if b then '1' else '0'

/-- The writer whose buffer holds the bits `r` (fewer than eight) that are not yet written,
after it has written `out`. -/
def pendingState (r : List Bool) (out : List Byte) : writeToBinary :=
  { buffer := 2 * bitsValue r, bufferLength := r.length, out := out }

/-! ## Sample data for the worked instances -/

/-- The text `aaab` repeated six times. -/
def sampleInput : List Byte :=
  [97, 97, 97, 98, 97, 97, 97, 98, 97, 97, 97, 98, 97, 97, 97, 98, 97, 97, 97, 98, 97, 97, 97, 98]

/-- The container that encodes `sampleInput`: magic number, three pairs, four payload
bytes. -/
def sampleContainer : List Byte :=
  [255, 255, 255, 255, 3, 0, 0, 0, 13, 1, 0, 0, 0, 97, 18, 0, 0, 0, 98, 6, 0, 0, 0,
    239, 123, 222, 244]

/-- The frequency table of the text `aaab`. -/
def sampleTable : List (Byte × Int) := [(13, 1), (97, 3), (98, 1)]

/-! ## Notions used to state optimality -/

/-- The shape of a binary tree in which every internal node has two children. -/
inductive Shape where
  | leaf : Shape
  | node (l r : Shape) : Shape

namespace Shape

/-- The depths of the leaves from left to right, for a root at depth `k`. -/
def depths : Shape → Nat → List Nat
  | leaf, k => [k]
  | node l r, k => depths l (k + 1) ++ depths r (k + 1)

/-- The height of a shape. -/
def height : Shape → Nat
  | leaf => 0
  | node l r => 1 + max (height l) (height r)

end Shape

/-- Cost of an assignment of weights to depths: the sum of weight times depth. -/
def pairCost (L : List (Int × Nat)) : Int := (L.map (fun e => e.1 * (e.2 : Int))).sum

/-- The cost of the greedy strategy on a collection of weights: two least weights are
replaced by their sum, at the price of that sum, until one weight is left. -/
inductive Greedy : List Int → Int → Prop where
  | single (w : Int) : Greedy [w] 0
  | step {W W' R : List Int} {a b c : Int} :
      W.Perm (a :: b :: R) → a ≤ b → (∀ r ∈ R, b ≤ r) → W'.Perm ((a + b) :: R) →
      Greedy W' c → Greedy W (c + a + b)

/-- Four symbols that each occur `2^30` times. -/
def overflowTable : List (Byte × Int) :=
  [(97, 1073741824), (98, 1073741824), (99, 1073741824), (100, 1073741824)]

/-- The balanced tree over the four entries of `overflowTable`. -/
def balancedTree : node :=
  .mk 0 0
    (.mk 0 0 (.mk 1073741824 97 .null .null) (.mk 1073741824 98 .null .null))
    (.mk 0 0 (.mk 1073741824 99 .null .null) (.mk 1073741824 100 .null .null))

/-! ## Further notions about the tree -/

namespace node

/-- Every internal node carries exactly the sum of the counts of its two children. -/
def exactSums : node → Bool
  | null => true
  | mk k _ l r =>
    (l.isNull && r.isNull) || (decide (k = l.count + r.count) && exactSums l && exactSums r)

/-- The number of internal nodes, that is, of nodes with a child. -/
def internalCount : node → Nat
  | null => 0
  | mk _ _ l r => if l.isNull && r.isNull then 0 else 1 + internalCount l + internalCount r

/-- The leaves from left to right, each as its entry (symbol and count) with its depth, for
a root at depth `d`. -/
def leafDepths : node → Nat → List ((Byte × Int) × Nat)
  | null, _ => []
  | mk k s l r, d =>
    if l.isNull && r.isNull then [((s, k), d)]
    else leafDepths l (d + 1) ++ leafDepths r (d + 1)

end node

/-- A table in which the byte `0` occurs. -/
def zeroTable : List (Byte × Int) := [(0, 5), (13, 1)]

/-- Five symbols whose counts lie around `2^30`. -/
def skewTable : List (Byte × Int) :=
  [(97, 1073741823), (98, 1073741823), (99, 1073741824), (100, 1073741824), (101, 1073741825)]

/-- An input with the bytes `0` and `13` among thirty-three bytes. -/
def mixedInput : List Byte :=
  [97, 0, 97, 97, 13, 97, 97, 0, 98, 98, 98, 98, 98, 98, 98, 98, 98, 98, 98, 98, 98, 98, 98,
    98, 98, 98, 98, 98, 98, 98, 98, 98, 98]

/-! ## Consequences of the heap laws -/

namespace priority_queue

theorem push_perm {H : HeapAlgorithms} (hH : H.Lawful) {q : List node}
    (hq : Reachable H q) (x : node) : (push H q x).Perm (x :: q) := by
  have h := (hH q hq).1 x
  exact h.trans (List.perm_append_singleton x q)

theorem pop_cons {H : HeapAlgorithms} (hH : H.Lawful) {n : node} {t : List node}
    (hq : Reachable H (n :: t)) :
    ∃ q1, pop H (n :: t) = some q1 ∧ q1.Perm t ∧ Reachable H q1 := by
  have hne : (n :: t) ≠ [] := by simp
  obtain ⟨hperm, hlast⟩ := (hH _ hq).2.1 hne
  have hpop : pop H (n :: t) = some (H.pop_heap (n :: t)).dropLast := by
    simp [pop]
  refine ⟨_, hpop, ?_, Reachable.pop hq hpop⟩
  have hsplit : (H.pop_heap (n :: t)).dropLast ++ [n] = H.pop_heap (n :: t) :=
    List.dropLast_append_getLast? n (by simpa using hlast)
  have h1 : (n :: (H.pop_heap (n :: t)).dropLast).Perm (n :: t) := by
    have := (List.perm_append_singleton n (H.pop_heap (n :: t)).dropLast).symm
    rw [hsplit] at this
    exact this.trans hperm
  exact h1.cons_inv

theorem top_le {H : HeapAlgorithms} (hH : H.Lawful) {n : node} {t : List node}
    (hq : Reachable H (n :: t)) : ∀ x ∈ t, n.count ≤ x.count := by
  intro x hx
  have h := (hH _ hq).2.2 n (by simp) x (List.mem_cons_of_mem _ hx)
  simpa [cmp_node] using h

end priority_queue

/-! ### The sorted vector obeys the heap laws -/

theorem sortedInsert_perm (x : node) (q : List node) : (sortedInsert x q).Perm (x :: q) := by
  induction q with
  | nil => simp [sortedInsert]
  | cons y q ih =>
    unfold sortedInsert
    split
    · exact List.Perm.refl _
    · exact (ih.cons y).trans (List.Perm.swap x y q)

theorem sortedInsert_sorted (x : node) (q : List node)
    (hq : q.Pairwise (fun a b => a.count ≤ b.count)) :
    (sortedInsert x q).Pairwise (fun a b => a.count ≤ b.count) := by
  induction q with
  | nil => simp [sortedInsert]
  | cons y q ih =>
    unfold sortedInsert
    rw [List.pairwise_cons] at hq
    split
    · rename_i hc
      have hc1 : x.count < y.count := by simpa [cmp_node] using hc
      refine List.pairwise_cons.2 ⟨?_, List.pairwise_cons.2 hq⟩
      intro z hz
      rcases List.mem_cons.1 hz with rfl | hz
      · exact le_of_lt hc1
      · exact le_trans (le_of_lt hc1) (hq.1 z hz)
    · rename_i hc
      have hc1 : y.count ≤ x.count := by simpa [cmp_node] using hc
      refine List.pairwise_cons.2 ⟨?_, ih hq.2⟩
      intro z hz
      rcases List.mem_cons.1 ((sortedInsert_perm x q).subset hz) with rfl | hz
      · exact hc1
      · exact hq.1 z hz

theorem sortedHeap_push (q : List node) (x : node) :
    sortedHeap.push_heap (q ++ [x]) = sortedInsert x q := by
  simp [sortedHeap]

theorem sortedHeap_reachable_sorted {q : List node}
    (hq : priority_queue.Reachable sortedHeap q) :
    q.Pairwise (fun a b => a.count ≤ b.count) := by
  induction hq with
  | empty => exact List.Pairwise.nil
  | push x _ ih =>
    unfold priority_queue.push
    rw [sortedHeap_push]
    exact sortedInsert_sorted x _ ih
  | @pop q q1 _ hpop ih =>
    cases q with
    | nil => simp [priority_queue.pop] at hpop
    | cons y t =>
      have : q1 = t := by
        simp [priority_queue.pop, sortedHeap] at hpop
        exact hpop.symm
      subst this
      exact (List.pairwise_cons.1 ih).2

theorem sortedHeap_lawful : sortedHeap.Lawful := by
  intro q hq
  have hs := sortedHeap_reachable_sorted hq
  refine ⟨?_, ?_, ?_⟩
  · intro x
    rw [sortedHeap_push]
    exact (sortedInsert_perm x q).trans (List.perm_append_singleton x q).symm
  · intro hne
    cases q with
    | nil => exact absurd rfl hne
    | cons y t =>
      constructor
      · simp [sortedHeap]
      · simp [sortedHeap]
  · intro n hn x hx
    cases q with
    | nil => simp at hn
    | cons y t =>
      have : n = y := by simpa using hn.symm
      subst this
      rcases List.mem_cons.1 hx with rfl | hx
      · simp [cmp_node]
      · have := (List.pairwise_cons.1 hs).1 x hx
        simpa [cmp_node] using this

/-! ## The tree builder -/

theorem leaves_fold_spec {H : HeapAlgorithms} (hH : H.Lawful) (F : List (Byte × Int)) :
    ∀ (q : List node) (p : Option node), priority_queue.Reachable H q →
      priority_queue.Reachable H
        (F.foldl (fun st it =>
          let p := node.mk it.2 it.1 .null .null
          (priority_queue.push H st.1 p, some p)) (q, p)).1 ∧
      (F.foldl (fun st it =>
          let p := node.mk it.2 it.1 .null .null
          (priority_queue.push H st.1 p, some p)) (q, p)).1.Perm (q ++ F.map leafNode) := by
  induction F with
  | nil => intro q p hq; simpa using hq
  | cons it F ih =>
    intro q p hq
    simp only [List.foldl_cons, List.map_cons]
    have hr := priority_queue.Reachable.push (node.mk it.2 it.1 .null .null) hq
    obtain ⟨h1, h2⟩ := ih _ (some (node.mk it.2 it.1 .null .null)) hr
    refine ⟨h1, h2.trans ?_⟩
    have hp := priority_queue.push_perm hH hq (node.mk it.2 it.1 .null .null)
    have : (priority_queue.push H q (node.mk it.2 it.1 .null .null)).Perm (q ++ [leafNode it]) :=
      hp.trans (List.perm_append_singleton _ q).symm
    have h3 := this.append_right (F.map leafNode)
    simpa [List.append_assoc] using h3

theorem leaves_spec {H : HeapAlgorithms} (hH : H.Lawful) (F : List (Byte × Int)) :
    priority_queue.Reachable H (createHuffmanTree.leaves H F).1 ∧
      (createHuffmanTree.leaves H F).1.Perm (F.map leafNode) := by
  have h := leaves_fold_spec hH F [] none priority_queue.Reachable.empty
  simpa [createHuffmanTree.leaves] using h

theorem merge_builds {H : HeapAlgorithms} (hH : H.Lawful) :
    ∀ (fuel : Nat) (q : List node) (p : Option node), priority_queue.Reachable H q →
      2 ≤ q.length → q.length ≤ fuel →
      ∃ root, createHuffmanTree.merge H fuel q p = some root ∧ Builds q root := by
  intro fuel
  induction fuel with
  | zero => intro q p _ h2 h0; omega
  | succ fuel ih =>
    intro q p hq h2 hf
    match q, hq, h2, hf with
    | [], _, h2, _ => simp at h2
    | n1 :: t, hq, h2, hf =>
      obtain ⟨q1, hpop1, hperm1, hr1⟩ := priority_queue.pop_cons hH hq
      have hmin1 := priority_queue.top_le hH hq
      match q1, hpop1, hperm1, hr1 with
      | [], _, hperm1, _ =>
        have := hperm1.length_eq
        simp at this h2
        omega
      | n2 :: t2, hpop1, hperm1, hr1 =>
        obtain ⟨q2, hpop2, hperm2, hr2⟩ := priority_queue.pop_cons hH hr1
        have hmin2 := priority_queue.top_le hH hr1
        have hn2 : n2 ∈ t := hperm1.subset (by simp)
        have hle : n1.count ≤ n2.count := hmin1 n2 hn2
        have hq2 : ∀ x ∈ q2, n2.count ≤ x.count := fun x hx => hmin2 x (hperm2.subset hx)
        have hperm : (n1 :: t).Perm (n1 :: n2 :: q2) :=
          (hperm1.symm.trans (hperm2.symm.cons n2)).cons n1
        have hlen : (n1 :: t).length = q2.length + 2 := by
          simpa using hperm.length_eq
        by_cases he : q2 = []
        · subst he
          refine ⟨node.new n1 n2, ?_, Builds.last hperm hle⟩
          have hfuel : ∃ k, fuel = k + 1 := ⟨fuel - 1, by simp at hlen hf; omega⟩
          obtain ⟨k, rfl⟩ := hfuel
          simp [createHuffmanTree.merge, priority_queue.top, hpop1, hpop2]
        · have hpush := priority_queue.push_perm hH hr2 (node.new n1 n2)
          have hr3 := priority_queue.Reachable.push (node.new n1 n2) hr2
          have hlen3 : (priority_queue.push H q2 (node.new n1 n2)).length = q2.length + 1 := by
            simpa using hpush.length_eq
          have hq2len : 1 ≤ q2.length := by
            cases q2 with
            | nil => exact absurd rfl he
            | cons _ _ => simp
          obtain ⟨root, hroot, hb⟩ := ih (priority_queue.push H q2 (node.new n1 n2))
            (some (node.new n1 n2)) hr3 (by omega) (by simp at hf hlen; omega)
          refine ⟨root, ?_, Builds.step hperm he hle hq2 hpush hb⟩
          simp [createHuffmanTree.merge, priority_queue.top, hpop1, hpop2, he, hroot]

theorem createHuffmanTree_builds {H : HeapAlgorithms} (hH : H.Lawful)
    (F : List (Byte × Int)) (hF : 2 ≤ F.length) :
    ∃ q root, q.Perm (F.map leafNode) ∧ createHuffmanTree H F = some root ∧ Builds q root := by
  obtain ⟨hr, hperm⟩ := leaves_spec hH F
  have hlen : (createHuffmanTree.leaves H F).1.length = F.length := by
    simpa using hperm.length_eq
  obtain ⟨root, h1, h2⟩ := merge_builds hH (F.length + 1) _ (createHuffmanTree.leaves H F).2 hr
    (by omega) (by omega)
  exact ⟨_, root, hperm, by simpa [createHuffmanTree] using h1, h2⟩

/-! ## Shape and leaves of the tree that is built -/

theorem node.wellShaped_not_null {t : node} (h : t.wellShaped = true) : t.isNull = false := by
  cases t with
  | null => simp [node.wellShaped] at h
  | mk _ _ _ _ => rfl

theorem node.new_eq {n1 n2 : node} (h1 : n1.isNull = false) (h2 : n2.isNull = false) :
    node.new n1 n2 = node.mk (wrapInt (n1.count + n2.count)) 0 n1 n2 := by
  simp [node.new, h1, h2]

theorem node.wellShaped_new {n1 n2 : node} (h1 : n1.wellShaped = true)
    (h2 : n2.wellShaped = true) : (node.new n1 n2).wellShaped = true := by
  rw [node.new_eq (node.wellShaped_not_null h1) (node.wellShaped_not_null h2)]
  simp [node.wellShaped, h1, h2]

theorem node.isLeaf_new {n1 n2 : node} (h1 : n1.isNull = false) :
    (node.new n1 n2).isLeaf = false := by
  simp [node.new, node.isLeaf, h1]

theorem node.entries_new {n1 n2 : node} (h1 : n1.isNull = false) :
    (node.new n1 n2).entries = n1.entries ++ n2.entries := by
  simp [node.new, node.entries, h1]

theorem Builds.all_wellShaped {q : List node} {root : node} (hb : Builds q root)
    (hq : ∀ t ∈ q, t.wellShaped = true) : root.wellShaped = true ∧ root.isLeaf = false := by
  induction hb with
  | @last q n1 n2 hperm _ =>
    have h1 : n1.wellShaped = true := hq n1 (hperm.symm.subset (by simp))
    have h2 : n2.wellShaped = true := hq n2 (hperm.symm.subset (by simp))
    exact ⟨node.wellShaped_new h1 h2, node.isLeaf_new (node.wellShaped_not_null h1)⟩
  | @step q q2 q' n1 n2 root hperm _ _ _ hperm' _ ih =>
    apply ih
    intro t ht
    have h1 : n1.wellShaped = true := hq n1 (hperm.symm.subset (by simp))
    have h2 : n2.wellShaped = true := hq n2 (hperm.symm.subset (by simp))
    rcases List.mem_cons.1 (hperm'.subset ht) with rfl | h
    · exact node.wellShaped_new h1 h2
    · exact hq t (hperm.symm.subset (by simp [h]))

theorem Builds.entries_perm {q : List node} {root : node} (hb : Builds q root)
    (hq : ∀ t ∈ q, t.isNull = false) :
    root.entries.Perm (q.flatMap node.entries) ∧ root.isNull = false := by
  induction hb with
  | @last q n1 n2 hperm _ =>
    have h1 : n1.isNull = false := hq n1 (hperm.symm.subset (by simp))
    refine ⟨?_, by simp [node.new, node.isNull]⟩
    rw [node.entries_new h1]
    have := (List.Perm.flatMap_right node.entries hperm).symm
    simpa using this
  | @step q q2 q' n1 n2 root hperm _ _ _ hperm' _ ih =>
    have h1 : n1.isNull = false := hq n1 (hperm.symm.subset (by simp))
    have hq' : ∀ t ∈ q', t.isNull = false := by
      intro t ht
      rcases List.mem_cons.1 (hperm'.subset ht) with rfl | h
      · simp [node.new, node.isNull]
      · exact hq t (hperm.symm.subset (by simp [h]))
    obtain ⟨ih1, ih2⟩ := ih hq'
    refine ⟨ih1.trans ?_, ih2⟩
    have e1 := List.Perm.flatMap_right node.entries hperm'
    have e2 := (List.Perm.flatMap_right node.entries hperm).symm
    refine e1.trans (List.Perm.trans ?_ e2)
    simp [node.entries_new h1, List.append_assoc]

theorem flatMap_entries_leafNode (F : List (Byte × Int)) :
    (F.map leafNode).flatMap node.entries = F := by
  induction F with
  | nil => rfl
  | cons it F ih =>
    simp only [List.map_cons, List.flatMap_cons, ih]
    simp [leafNode, node.entries, node.isNull]

/-- The tree builder returns a tree for every table with at least two entries: the root is an
internal node, the tree has the shape of the data model, and its leaves are the entries. -/
theorem createHuffmanTree_spec {H : HeapAlgorithms} (hH : H.Lawful)
    (F : List (Byte × Int)) (hF : 2 ≤ F.length) :
    ∃ root, createHuffmanTree H F = some root ∧ root.wellShaped = true ∧
      root.isLeaf = false ∧ root.entries.Perm F := by
  obtain ⟨q, root, hperm, hroot, hb⟩ := createHuffmanTree_builds hH F hF
  have hws : ∀ t ∈ q, t.wellShaped = true := by
    intro t ht
    obtain ⟨it, _, rfl⟩ := List.mem_map.1 (hperm.subset ht)
    simp [leafNode, node.wellShaped, node.isNull]
  obtain ⟨h1, h2⟩ := hb.all_wellShaped hws
  obtain ⟨h3, _⟩ := hb.entries_perm (fun t ht => node.wellShaped_not_null (hws t ht))
  refine ⟨root, hroot, h1, h2, h3.trans ?_⟩
  have := List.Perm.flatMap_right node.entries hperm
  rw [flatMap_entries_leafNode] at this
  exact this

/-! ## The two tables of paths -/

theorem createPath_eq_foldl (t : node) :
    ∀ (m : List (Byte × List Char)) (path : List Char),
      createPath t m path = (t.labels path).foldl (fun m e => pathAssign e.1 e.2 m) m := by
  induction t with
  | null => intro m path; rfl
  | mk k s l r ihl ihr =>
    intro m path
    simp only [createPath, node.labels, List.foldl_append]
    have hl : ∀ m1, (if l.isNull = true then m1 else createPath l m1 (path ++ ['0'])) =
        (l.labels (path ++ ['0'])).foldl (fun m e => pathAssign e.1 e.2 m) m1 := by
      intro m1
      cases l with
      | null => rfl
      | mk _ _ _ _ => simpa [node.isNull] using ihl m1 (path ++ ['0'])
    have hr : ∀ m1, (if r.isNull = true then m1 else createPath r m1 (path ++ ['1'])) =
        (r.labels (path ++ ['1'])).foldl (fun m e => pathAssign e.1 e.2 m) m1 := by
      intro m1
      cases r with
      | null => rfl
      | mk _ _ _ _ => simpa [node.isNull] using ihr m1 (path ++ ['1'])
    rw [hr, hl]
    by_cases hs : s = 0 <;> simp [hs]

theorem createPathInv_eq_foldl (t : node) :
    ∀ (m : List (List Char × Byte)) (path : List Char),
      createPathInv t m path = (t.labels path).foldl (fun m e => pathAssign e.2 e.1 m) m := by
  induction t with
  | null => intro m path; rfl
  | mk k s l r ihl ihr =>
    intro m path
    simp only [createPathInv, node.labels, List.foldl_append]
    have hl : ∀ m1, (if l.isNull = true then m1 else createPathInv l m1 (path ++ ['0'])) =
        (l.labels (path ++ ['0'])).foldl (fun m e => pathAssign e.2 e.1 m) m1 := by
      intro m1
      cases l with
      | null => rfl
      | mk _ _ _ _ => simpa [node.isNull] using ihl m1 (path ++ ['0'])
    have hr : ∀ m1, (if r.isNull = true then m1 else createPathInv r m1 (path ++ ['1'])) =
        (r.labels (path ++ ['1'])).foldl (fun m e => pathAssign e.2 e.1 m) m1 := by
      intro m1
      cases r with
      | null => rfl
      | mk _ _ _ _ => simpa [node.isNull] using ihr m1 (path ++ ['1'])
    rw [hr, hl]
    by_cases hs : s = 0 <;> simp [hs]

/-! ### Reading a map after assignments -/

theorem lookup_cons_ite {K V : Type} [BEq K] [LawfulBEq K] [DecidableEq K] (k1 : K) (v1 : V) (m : List (K × V))
    (k' : K) : List.lookup k' ((k1, v1) :: m) = if k' = k1 then some v1 else m.lookup k' := by
  by_cases h : k' = k1
  · subst h
    simp [List.lookup]
  · have hb : (k' == k1) = false := beq_false_of_ne h
    rw [List.lookup_cons, hb, if_neg h]

theorem lookup_pathAssign {K V : Type} [BEq K] [LawfulBEq K] [DecidableEq K] (k : K) (v : V) (m : List (K × V))
    (k' : K) : (pathAssign k v m).lookup k' = if k' = k then some v else m.lookup k' := by
  induction m with
  | nil =>
    unfold pathAssign
    rw [lookup_cons_ite]
  | cons e m ih =>
    obtain ⟨k1, v1⟩ := e
    unfold pathAssign
    by_cases h1 : k1 = k
    · subst h1
      rw [if_pos rfl, lookup_cons_ite, lookup_cons_ite]
      by_cases h : k' = k1 <;> simp [h]
    · rw [if_neg h1, lookup_cons_ite, lookup_cons_ite, ih]
      by_cases h2 : k' = k1
      · have : k' ≠ k := fun h => h1 (h2.symm.trans h)
        simp [h2, h1]
      · simp [h2]

theorem mem_pathAssign {K V : Type} [DecidableEq K] (k : K) (v : V) (m : List (K × V))
    (e : K × V) (he : e ∈ pathAssign k v m) : e = (k, v) ∨ e ∈ m := by
  induction m with
  | nil => simpa [pathAssign] using he
  | cons e1 m ih =>
    obtain ⟨k1, v1⟩ := e1
    unfold pathAssign at he
    by_cases h1 : k1 = k
    · simp only [h1, if_true] at he
      rcases List.mem_cons.1 he with h | h
      · exact Or.inl h
      · exact Or.inr (List.mem_cons_of_mem _ h)
    · simp only [h1, if_false] at he
      rcases List.mem_cons.1 he with h | h
      · exact Or.inr (by simp [h])
      · rcases ih h with h | h
        · exact Or.inl h
        · exact Or.inr (List.mem_cons_of_mem _ h)

theorem mem_foldl_pathAssign {K V : Type} [DecidableEq K] (L : List (K × V)) :
    ∀ (m : List (K × V)) (e : K × V),
      e ∈ L.foldl (fun m e => pathAssign e.1 e.2 m) m → e ∈ m ∨ e ∈ L := by
  induction L with
  | nil => intro m e he; exact Or.inl he
  | cons a L ih =>
    intro m e he
    rcases ih _ e he with h | h
    · rcases mem_pathAssign _ _ _ _ h with h | h
      · exact Or.inr (by simp [h])
      · exact Or.inl h
    · exact Or.inr (List.mem_cons_of_mem _ h)

theorem lookup_foldl_of_not_mem {K V : Type} [BEq K] [LawfulBEq K] [DecidableEq K] (L : List (K × V)) (k : K) :
    ∀ (m : List (K × V)), k ∉ L.map Prod.fst →
      (L.foldl (fun m e => pathAssign e.1 e.2 m) m).lookup k = m.lookup k := by
  induction L with
  | nil => intro m _; rfl
  | cons a L ih =>
    intro m hk
    simp only [List.map_cons, List.mem_cons, not_or] at hk
    simp only [List.foldl_cons]
    rw [ih _ hk.2, lookup_pathAssign, if_neg hk.1]

theorem lookup_foldl_of_mem {K V : Type} [BEq K] [LawfulBEq K] [DecidableEq K] (L : List (K × V)) (k : K) (v : V) :
    ∀ (m : List (K × V)), (L.map Prod.fst).Nodup → (k, v) ∈ L →
      (L.foldl (fun m e => pathAssign e.1 e.2 m) m).lookup k = some v := by
  induction L with
  | nil => intro m _ h; simp at h
  | cons a L ih =>
    intro m hnd hmem
    simp only [List.map_cons, List.nodup_cons] at hnd
    simp only [List.foldl_cons]
    rcases List.mem_cons.1 hmem with h | h
    · subst h
      rw [lookup_foldl_of_not_mem L k _ hnd.1, lookup_pathAssign, if_pos rfl]
    · exact ih _ hnd.2 h

theorem lookup_foldl_some {K V : Type} [BEq K] [LawfulBEq K] [DecidableEq K] (L : List (K × V)) (k : K) (v : V)
    (h : (L.foldl (fun m e => pathAssign e.1 e.2 m) []).lookup k = some v) :
    ∃ v', (k, v') ∈ L := by
  by_contra hn
  have : k ∉ L.map Prod.fst := by
    intro hk
    obtain ⟨e, he, rfl⟩ := List.mem_map.1 hk
    exact hn ⟨e.2, he⟩
  rw [lookup_foldl_of_not_mem L k [] this] at h
  simp [List.lookup] at h

/-! ## The paths form a prefix code -/

theorem Unrelated.symm {p q : List Char} (h : Unrelated p q) : Unrelated q p := ⟨h.2, h.1⟩

theorem node.labels_eq_filter (t : node) (ht : t.wellShaped = true) :
    ∀ path, t.labels path = (t.leafPaths path).filter (fun e => decide (e.1 ≠ 0)) := by
  induction t with
  | null => intro path; rfl
  | mk k s l r ihl ihr =>
    intro path
    simp only [node.wellShaped, Bool.or_eq_true, Bool.and_eq_true, decide_eq_true_eq] at ht
    rcases ht with ⟨hl, hr⟩ | ⟨⟨⟨hl, hr⟩, hs⟩, _⟩
    · cases l with
      | mk _ _ _ _ => simp [node.isNull] at hl
      | null =>
        cases r with
        | mk _ _ _ _ => simp [node.isNull] at hr
        | null =>
          by_cases hs : s = 0 <;> simp [node.labels, node.leafPaths, node.isNull, hs]
    · have hln := node.wellShaped_not_null hl
      simp only [node.labels, node.leafPaths, hln, Bool.false_and, hs, ihl hl, ihr hr]
      simp

theorem node.leafPaths_fst (t : node) :
    ∀ path, (t.leafPaths path).map Prod.fst = t.entries.map Prod.fst := by
  induction t with
  | null => intro path; rfl
  | mk k s l r ihl ihr =>
    intro path
    simp only [node.leafPaths, node.entries]
    split
    · rfl
    · simp [ihl, ihr]

theorem node.leafPaths_extend (t : node) :
    ∀ path e, e ∈ t.leafPaths path →
      ∃ s, e.2 = path ++ s ∧ ∀ ch ∈ s, ch = '0' ∨ ch = '1' := by
  induction t with
  | null => intro path e he; simp [node.leafPaths] at he
  | mk k s l r ihl ihr =>
    intro path e he
    simp only [node.leafPaths] at he
    split at he
    · simp only [List.mem_singleton] at he
      subst he
      exact ⟨[], by simp, by simp⟩
    · rcases List.mem_append.1 he with h | h
      · obtain ⟨s1, h1, h2⟩ := ihl _ _ h
        refine ⟨'0' :: s1, by simp [h1], ?_⟩
        intro ch hch
        rcases List.mem_cons.1 hch with rfl | hch
        · exact Or.inl rfl
        · exact h2 ch hch
      · obtain ⟨s1, h1, h2⟩ := ihr _ _ h
        refine ⟨'1' :: s1, by simp [h1], ?_⟩
        intro ch hch
        rcases List.mem_cons.1 hch with rfl | hch
        · exact Or.inr rfl
        · exact h2 ch hch

theorem unrelated_of_branch (path s1 s2 : List Char) :
    Unrelated (path ++ '0' :: s1) (path ++ '1' :: s2) := by
  constructor
  · intro h
    rw [List.prefix_append_right_inj] at h
    obtain ⟨u, hu⟩ := h
    simp at hu
  · intro h
    rw [List.prefix_append_right_inj] at h
    obtain ⟨u, hu⟩ := h
    simp at hu

theorem node.leafPaths_pairwise (t : node) :
    ∀ path, (t.leafPaths path).Pairwise (fun a b => Unrelated a.2 b.2) := by
  induction t with
  | null => intro path; exact List.Pairwise.nil
  | mk k s l r ihl ihr =>
    intro path
    simp only [node.leafPaths]
    split
    · exact List.pairwise_singleton _ _
    · refine List.pairwise_append.2 ⟨ihl _, ihr _, ?_⟩
      intro a ha b hb
      obtain ⟨s1, h1, _⟩ := node.leafPaths_extend l _ a ha
      obtain ⟨s2, h2, _⟩ := node.leafPaths_extend r _ b hb
      rw [h1, h2]
      simpa [List.append_assoc] using unrelated_of_branch path s1 s2

theorem node.leafPaths_ne_nil (t : node) (ht : t.isLeaf = false) :
    ∀ e ∈ t.leafPaths [], e.2 ≠ [] := by
  intro e he
  cases t with
  | null => simp [node.leafPaths] at he
  | mk k s l r =>
    simp only [node.isLeaf] at ht
    simp only [node.leafPaths, ht] at he
    rcases List.mem_append.1 he with h | h
    · obtain ⟨s1, h1, _⟩ := node.leafPaths_extend l _ e h
      simp [h1]
    · obtain ⟨s1, h1, _⟩ := node.leafPaths_extend r _ e h
      simp [h1]

/-! ## The decoding loop, bit by bit -/

theorem decodeBit_eq_step (paths : List (List Char × Byte)) (currChar : Byte)
    (st : DecodeState) (i : Nat) :
    decodeBit paths currChar st i =
      decodeStep paths st (if (charVal currChar / 2 ^ i) % 2 = 1 then '1' else '0') := by
  unfold decodeBit decodeStep
  by_cases h : (charVal currChar / 2 ^ i) % 2 = 1 <;> simp only [h, if_true, if_false]

theorem decodeByte_eq (paths : List (List Char × Byte)) (currChar : Byte) (st : DecodeState) :
    [7, 6, 5, 4, 3, 2, 1, 0].foldl (decodeBit paths currChar) st =
      (byteChars currChar).foldl (decodeStep paths) st := by
  have h : decodeBit paths currChar = fun st i =>
      decodeStep paths st (if (charVal currChar / 2 ^ i) % 2 = 1 then '1' else '0') := by
    funext st i
    exact decodeBit_eq_step paths currChar st i
  rw [h, byteChars, List.foldl_map]

theorem foldl_decodeStep_stopped (paths : List (List Char × Byte)) (chars : List Char) :
    ∀ st : DecodeState, st.isEOD = true → chars.foldl (decodeStep paths) st = st := by
  induction chars with
  | nil => intro st _; rfl
  | cons ch chars ih =>
    intro st h
    have : decodeStep paths st ch = st := by simp [decodeStep, h]
    simp only [List.foldl_cons, this]
    exact ih st h

theorem decodeLoop_eq (paths : List (List Char × Byte)) (bytes : List Byte) :
    ∀ st : DecodeState,
      decodeLoop paths bytes st = (bytes.flatMap byteChars).foldl (decodeStep paths) st := by
  induction bytes with
  | nil => intro st; rfl
  | cons b bytes ih =>
    intro st
    simp only [decodeLoop, List.flatMap_cons, List.foldl_append]
    by_cases h : st.isEOD = true
    · rw [if_pos h, foldl_decodeStep_stopped _ _ st h, foldl_decodeStep_stopped _ _ st h]
    · rw [if_neg h, ih, decodeByte_eq]

/-- A prefix code together with its decoding table: every code word is found, and only
code words are found. -/
theorem decode_word (L : List (Byte × List Char)) (paths : List (List Char × Byte))
    (hfree : L.Pairwise (fun a b => Unrelated a.2 b.2))
    (hdec : ∀ q s, paths.lookup q = some s ↔ (s, q) ∈ L)
    (s : Byte) (p : List Char) (hp : (s, p) ∈ L) (out : List Byte) :
    ∀ (r q : List Char), p = q ++ r → r ≠ [] →
      r.foldl (decodeStep paths) { currPath := q, isEOD := false, out := out } =
        if s = EOD then { currPath := [], isEOD := true, out := out }
        else { currPath := [], isEOD := false, out := out ++ [s] } := by
  intro r
  induction r with
  | nil => intro q _ h; exact absurd rfl h
  | cons ch r ih =>
    intro q hpq _
    cases r with
    | nil =>
      have hl : paths.lookup (q ++ [ch]) = some s := (hdec _ _).2 (by rw [← hpq]; exact hp)
      simp [decodeStep, hl]
    | cons ch2 r =>
      have hl : paths.lookup (q ++ [ch]) = none := by
        cases hlk : paths.lookup (q ++ [ch]) with
        | none => rfl
        | some s' =>
          exfalso
          have hmem : (s', q ++ [ch]) ∈ L := (hdec _ _).1 hlk
          have hpre : (q ++ [ch]) <+: p := ⟨ch2 :: r, by simp [hpq]⟩
          by_cases heq : (s', q ++ [ch]) = (s, p)
          · have h2 : q ++ [ch] = p := (Prod.mk.inj heq).2
            rw [hpq] at h2
            have := congrArg List.length h2
            simp at this
          · have hsym : Symmetric (fun a b : Byte × List Char => Unrelated a.2 b.2) :=
              fun _ _ h => h.symm
            exact (hfree.forall hsym hmem hp heq).1 hpre
      have hstep : decodeStep paths { currPath := q, isEOD := false, out := out } ch =
          { currPath := q ++ [ch], isEOD := false, out := out } := by
        simp [decodeStep, hl]
      simp only [List.foldl_cons, hstep]
      exact ih (q ++ [ch]) (by simp [hpq]) (by simp)

/-- Decoding the concatenated code words of a message that does not contain `EOD`, followed
by the code word of `EOD` and anything else, yields the message. -/
theorem decode_message (L : List (Byte × List Char)) (paths : List (List Char × Byte))
    (enc : Byte → List Char)
    (hfree : L.Pairwise (fun a b => Unrelated a.2 b.2))
    (hdec : ∀ q s, paths.lookup q = some s ↔ (s, q) ∈ L)
    (hne : ∀ e ∈ L, e.2 ≠ [])
    (hEOD : (EOD, enc EOD) ∈ L) (tail : List Char) :
    ∀ (B : List Byte) (out : List Byte), (∀ b ∈ B, b ≠ EOD ∧ (b, enc b) ∈ L) →
      (B.flatMap enc ++ enc EOD ++ tail).foldl (decodeStep paths)
          { currPath := [], isEOD := false, out := out } =
        { currPath := [], isEOD := true, out := out ++ B } := by
  intro B
  induction B with
  | nil =>
    intro out _
    simp only [List.flatMap_nil, List.nil_append, List.foldl_append, List.append_nil]
    rw [decode_word L paths hfree hdec EOD _ hEOD out _ [] (by simp) (hne _ hEOD)]
    simp only [if_true]
    exact foldl_decodeStep_stopped _ _ _ rfl
  | cons b B ih =>
    intro out hB
    obtain ⟨hb1, hb2⟩ := hB b (by simp)
    simp only [List.flatMap_cons, List.append_assoc, List.foldl_append]
    rw [decode_word L paths hfree hdec b _ hb2 out _ [] (by simp) (hne _ hb2)]
    simp only [if_neg hb1]
    have := ih (out ++ [b]) (fun x hx => hB x (List.mem_cons_of_mem _ hx))
    simp only [List.append_assoc, List.foldl_append] at this
    simpa using this

/-! ## The bit writer -/

theorem byteChars_groupByte_eight :
    ∀ b7 b6 b5 b4 b3 b2 b1 b0 : Bool,
      byteChars (groupByte [b7, b6, b5, b4, b3, b2, b1, b0]) =
        [b7, b6, b5, b4, b3, b2, b1, b0].map bitChar := by
  decide

theorem bitsValue_append (r : List Bool) (b : Bool) :
    bitsValue (r ++ [b]) = 2 * bitsValue r + b.toNat := by
  simp [bitsValue, List.foldl_append]

theorem bitsValue_lt (r : List Bool) : bitsValue r < 2 ^ r.length := by
  induction r using List.reverseRecOn with
  | nil => simp [bitsValue]
  | append_singleton r b ih =>
    rw [bitsValue_append, List.length_append, List.length_singleton, pow_succ]
    have : b.toNat ≤ 1 := by cases b <;> simp
    omega

theorem bitsValue_append_zeros (r : List Bool) (k : Nat) :
    bitsValue (r ++ List.replicate k false) = bitsValue r * 2 ^ k := by
  induction k with
  | zero => simp
  | succ k ih =>
    rw [List.replicate_succ', ← List.append_assoc, bitsValue_append, ih, pow_succ]
    simp
    ring

theorem groupByte_pad (g : List Bool) (hg : g.length ≤ 8) :
    groupByte g = groupByte (g ++ List.replicate (8 - g.length) false) := by
  unfold groupByte
  rw [bitsValue_append_zeros]
  have : (g ++ List.replicate (8 - g.length) false).length = 8 := by
    simp
    omega
  rw [this]
  simp

theorem bitChar_false : bitChar false = '0' := rfl

theorem byteChars_groupByte (g : List Bool) (hg : g.length ≤ 8) :
    byteChars (groupByte g) = g.map bitChar ++ List.replicate (8 - g.length) '0' := by
  rw [groupByte_pad g hg]
  have hlen : (g ++ List.replicate (8 - g.length) false).length = 8 := by
    simp
    omega
  have hmap : (g ++ List.replicate (8 - g.length) false).map bitChar =
      g.map bitChar ++ List.replicate (8 - g.length) '0' := by
    simp [bitChar_false]
  rw [← hmap]
  generalize g ++ List.replicate (8 - g.length) false = l at hlen
  match l, hlen with
  | [b7, b6, b5, b4, b3, b2, b1, b0], _ => exact byteChars_groupByte_eight b7 b6 b5 b4 b3 b2 b1 b0

theorem packBits_nil : packBits [] = [] := by
  rw [packBits]

theorem packBits_cons (b : Bool) (bs : List Bool) :
    packBits (b :: bs) = groupByte ((b :: bs).take 8) :: packBits ((b :: bs).drop 8) := by
  rw [packBits]

theorem packBits_of_ne_nil (s : List Bool) (hs : s ≠ []) :
    packBits s = groupByte (s.take 8) :: packBits (s.drop 8) := by
  cases s with
  | nil => exact absurd rfl hs
  | cons b bs => exact packBits_cons b bs

theorem packBits_short (r : List Bool) (h1 : r ≠ []) (h7 : r.length ≤ 8) :
    packBits r = [groupByte r] := by
  rw [packBits_of_ne_nil r h1, List.take_of_length_le h7, List.drop_of_length_le h7,
    packBits_nil]

theorem packBits_group (g rest : List Bool) (hg : g.length = 8) :
    packBits (g ++ rest) = groupByte g :: packBits rest := by
  have hne : g ++ rest ≠ [] := by
    intro h
    have h0 : g = [] := (List.append_eq_nil.1 h).1
    rw [h0] at hg
    simp at hg
  rw [packBits_of_ne_nil _ hne, List.take_left' hg, List.drop_left' hg]

theorem packBits_length_aux : ∀ (n : Nat) (s : List Bool), s.length ≤ n →
    (packBits s).length = (s.length + 7) / 8 := by
  intro n
  induction n with
  | zero =>
    intro s hs
    have : s = [] := List.length_eq_zero.1 (by omega)
    subst this
    simp [packBits_nil]
  | succ n ih =>
    intro s hs
    cases s with
    | nil => simp [packBits_nil]
    | cons b bs =>
      rw [packBits_cons, List.length_cons]
      have hd : ((b :: bs).drop 8).length = (b :: bs).length - 8 := List.length_drop _ _
      rw [ih ((b :: bs).drop 8) (by rw [hd]; simp at hs ⊢; omega), hd]
      simp only [List.length_cons]
      omega

theorem packBits_length (s : List Bool) : (packBits s).length = (s.length + 7) / 8 :=
  packBits_length_aux s.length s (le_refl _)

theorem padLoop_eq : ∀ (fuel buffer len : Nat), len ≤ 7 → 7 - len ≤ fuel →
    buffer * 2 ^ (7 - len) < 256 →
    writeToBinary.padLoop fuel buffer len = buffer * 2 ^ (7 - len) := by
  intro fuel
  induction fuel with
  | zero =>
    intro buffer len h1 h2 _
    have : len = 7 := by omega
    subst this
    simp [writeToBinary.padLoop]
  | succ fuel ih =>
    intro buffer len h1 h2 h3
    by_cases h : len < 7
    · have hpow : 2 ^ (7 - len) = 2 * 2 ^ (7 - (len + 1)) := by
        rw [← pow_succ']
        congr 1
        omega
      have hb : buffer * 2 < 256 := by
        have : 1 ≤ 2 ^ (7 - (len + 1)) := Nat.one_le_two_pow
        rw [hpow] at h3
        nlinarith
      simp only [writeToBinary.padLoop, h, if_true]
      rw [Nat.mod_eq_of_lt hb, Nat.mod_eq_of_lt (by omega : len + 1 < 65536)]
      rw [ih (buffer * 2) (len + 1) (by omega) (by omega) (by rw [hpow] at h3; linarith)]
      rw [hpow]
      ring
    · have : len = 7 := by omega
      subst this
      simp [writeToBinary.padLoop]

theorem close_pendingState (r : List Bool) (out : List Byte) (hr : r.length ≤ 7) :
    (pendingState r out).close = out ++ packBits r := by
  unfold writeToBinary.close pendingState
  by_cases h : r = []
  · subst h
    simp [packBits_nil]
  · have hlen : r.length ≠ 0 := by
      intro h0
      exact h (List.length_eq_zero.1 h0)
    have hv := bitsValue_lt r
    have hpow : 2 ^ (8 - r.length) = 2 * 2 ^ (7 - r.length) := by
      rw [← pow_succ']
      congr 1
      omega
    have hbound : bitsValue r * 2 ^ (8 - r.length) < 256 := by
      have h1 : bitsValue r * 2 ^ (8 - r.length) < 2 ^ r.length * 2 ^ (8 - r.length) :=
        Nat.mul_lt_mul_of_pos_right hv (by positivity)
      rw [← pow_add] at h1
      have : r.length + (8 - r.length) = 8 := by omega
      rw [this] at h1
      simpa using h1
    simp only [ne_eq, hlen, not_false_eq_true, if_true]
    rw [padLoop_eq 7 _ _ hr (by omega) (by rw [hpow] at hbound; linarith),
      packBits_short r h (by omega)]
    congr 2
    unfold groupByte
    rw [hpow]
    congr 1
    ring

theorem writeChar_pendingState (r : List Bool) (out : List Byte) (ch : Char)
    (hr : r.length ≤ 7) :
    (pendingState r out).writeChar ch =
      if r.length = 7 then pendingState [] (out ++ [groupByte (r ++ [bitOf ch])])
      else pendingState (r ++ [bitOf ch]) out := by
  have hv := bitsValue_lt r
  have hpow : 2 ^ r.length ≤ 2 ^ 7 := Nat.pow_le_pow_right (by decide) hr
  have hbuf : (if ch = '1' then (2 * bitsValue r + 1) % 256 else 2 * bitsValue r) =
      bitsValue (r ++ [bitOf ch]) := by
    rw [bitsValue_append]
    by_cases hc : ch = '1'
    · simp only [hc, if_true, bitOf, decide_True, Bool.toNat_true]
      exact Nat.mod_eq_of_lt (by omega)
    · simp [hc, bitOf]
  unfold writeToBinary.writeChar pendingState
  simp only [hbuf]
  rw [Nat.mod_eq_of_lt (by omega : r.length + 1 < 65536)]
  by_cases h7 : r.length = 7
  · simp only [h7, ge_iff_le, le_refl, if_true]
    simp only [groupByte, List.length_append, List.length_singleton, h7, bitsValue,
      List.foldl_nil, List.length_nil]
    simp
  · have hlt : ¬ (r.length + 1 ≥ 8) := by omega
    simp only [hlt, if_false, h7]
    have hv2 := bitsValue_lt (r ++ [bitOf ch])
    have hpow2 : 2 ^ (r ++ [bitOf ch]).length ≤ 2 ^ 7 :=
      Nat.pow_le_pow_right (by decide) (by simp; omega)
    rw [Nat.mod_eq_of_lt (by omega)]
    simp [Nat.mul_comm]

theorem write_pendingState (s : List Char) :
    ∀ (r : List Bool) (out : List Byte), r.length ≤ 7 →
      ((pendingState r out).write s).close = out ++ packBits (r ++ s.map bitOf) := by
  induction s with
  | nil =>
    intro r out hr
    simpa [writeToBinary.write] using close_pendingState r out hr
  | cons ch s ih =>
    intro r out hr
    have hstep : (pendingState r out).write (ch :: s) =
        ((pendingState r out).writeChar ch).write s := by
      simp [writeToBinary.write]
    rw [hstep, writeChar_pendingState r out ch hr]
    by_cases h7 : r.length = 7
    · rw [if_pos h7, ih [] _ (by simp)]
      have : r ++ List.map bitOf (ch :: s) = (r ++ [bitOf ch]) ++ s.map bitOf := by simp
      rw [this, packBits_group (r ++ [bitOf ch]) (s.map bitOf) (by simp [h7])]
      simp
    · rw [if_neg h7, ih (r ++ [bitOf ch]) out (by simp; omega)]
      simp

theorem write_write (w : writeToBinary) (s t : List Char) :
    (w.write s).write t = w.write (s ++ t) := by
  simp [writeToBinary.write, List.foldl_append]

theorem foldl_write (paths : List (List Char)) :
    ∀ w : writeToBinary, paths.foldl writeToBinary.write w = w.write paths.flatten := by
  induction paths with
  | nil => intro w; rfl
  | cons p paths ih =>
    intro w
    simp only [List.foldl_cons, List.flatten_cons, ih, write_write]

theorem new_eq_pendingState (F : List (Byte × Int)) :
    writeToBinary.new F = pendingState [] (writeToBinary.new F).out := by
  simp [writeToBinary.new, pendingState, bitsValue]

theorem unpack_pack_aux : ∀ (n : Nat) (bits : List Bool), bits.length ≤ n →
    ∃ k, (packBits bits).flatMap byteChars = bits.map bitChar ++ List.replicate k '0' := by
  intro n
  induction n with
  | zero =>
    intro bits hb
    have : bits = [] := List.length_eq_zero.1 (by omega)
    subst this
    exact ⟨0, by simp [packBits_nil]⟩
  | succ n ih =>
    intro bits hb
    by_cases hne : bits = []
    · subst hne
      exact ⟨0, by simp [packBits_nil]⟩
    · rw [packBits_of_ne_nil bits hne, List.flatMap_cons]
      by_cases h8 : 8 ≤ bits.length
      · have hlen : (bits.take 8).length = 8 := by simp [List.length_take]; omega
        have hd : (bits.drop 8).length ≤ n := by rw [List.length_drop]; omega
        obtain ⟨k, hk⟩ := ih (bits.drop 8) hd
        refine ⟨k, ?_⟩
        rw [hk, byteChars_groupByte _ (by omega), hlen]
        simp only [Nat.sub_self, List.replicate_zero, List.append_nil]
        rw [← List.append_assoc, ← List.map_append, List.take_append_drop]
      · have h7 : bits.length ≤ 8 := by omega
        refine ⟨8 - bits.length, ?_⟩
        rw [List.take_of_length_le h7, List.drop_of_length_le h7, packBits_nil,
          byteChars_groupByte _ h7]
        simp

/-- Reading back the bytes that hold a packed bit stream gives the stream followed by the
padding. -/
theorem unpack_pack (bits : List Bool) :
    ∃ k, (packBits bits).flatMap byteChars = bits.map bitChar ++ List.replicate k '0' :=
  unpack_pack_aux bits.length bits (le_refl _)

theorem bitChar_bitOf (chars : List Char) (h : ∀ ch ∈ chars, ch = '0' ∨ ch = '1') :
    (chars.map bitOf).map bitChar = chars := by
  induction chars with
  | nil => rfl
  | cons ch chars ih =>
    simp only [List.map_cons]
    rw [ih (fun x hx => h x (List.mem_cons_of_mem _ hx))]
    rcases h ch (by simp) with rfl | rfl <;> rfl

theorem new_write_close (F : List (Byte × Int)) (s : List Char) :
    ((writeToBinary.new F).write s).close =
      (writeToBinary.new F).out ++ packBits (s.map bitOf) := by
  have h := write_pendingState s [] (writeToBinary.new F).out (by simp)
  rw [← new_eq_pendingState] at h
  simpa using h

/-! ## The header -/

theorem toByte_val (n : Nat) : (toByte n).val = n % 256 := rfl

theorem wrapInt_of_range (x : Int) (h1 : -2147483648 ≤ x) (h2 : x < 2147483648) :
    wrapInt x = x := by
  unfold wrapInt
  omega

theorem wrapInt_range (x : Int) : -2147483648 ≤ wrapInt x ∧ wrapInt x < 2147483648 := by
  unfold wrapInt
  omega

theorem wrapInt_succ (x : Int) : wrapInt (wrapInt x + 1) = wrapInt (x + 1) := by
  unfold wrapInt
  omega

theorem intBytes_length (x : Int) : (intBytes x).length = 4 := rfl

theorem readInt_intBytes (x : Int) (h1 : -2147483648 ≤ x) (h2 : x < 2147483648) :
    readInt (toByte (x % 4294967296).toNat) (toByte ((x % 4294967296).toNat / 256))
      (toByte ((x % 4294967296).toNat / 65536))
      (toByte ((x % 4294967296).toNat / 16777216)) = x := by
  unfold readInt wrapInt
  simp only [toByte_val]
  omega

theorem MAGIC_NUMBER_eq : MAGIC_NUMBER = -1 := by decide

theorem intBytes_MAGIC_NUMBER : intBytes MAGIC_NUMBER = [255, 255, 255, 255] := by decide

theorem readInt_eq_magic (b0 b1 b2 b3 : Byte) :
    readInt b0 b1 b2 b3 = MAGIC_NUMBER ↔ [b0, b1, b2, b3] = intBytes MAGIC_NUMBER := by
  rw [intBytes_MAGIC_NUMBER, MAGIC_NUMBER_eq]
  have h0 := b0.isLt
  have h1 := b1.isLt
  have h2 := b2.isLt
  have h3 := b3.isLt
  constructor
  · intro h
    unfold readInt wrapInt at h
    have e0 : b0.val = 255 := by omega
    have e1 : b1.val = 255 := by omega
    have e2 : b2.val = 255 := by omega
    have e3 : b3.val = 255 := by omega
    have f0 : b0 = 255 := Fin.ext e0
    have f1 : b1 = 255 := Fin.ext e1
    have f2 : b2 = 255 := Fin.ext e2
    have f3 : b3 = 255 := Fin.ext e3
    rw [f0, f1, f2, f3]
  · intro h
    simp only [List.cons.injEq, and_true] at h
    obtain ⟨rfl, rfl, rfl, rfl⟩ := h
    decide

theorem foldl_append_eq_flatMap {α β : Type} (f : α → List β) (F : List α) :
    ∀ acc : List β, F.foldl (fun out it => out ++ f it) acc = acc ++ F.flatMap f := by
  induction F with
  | nil => intro acc; simp
  | cons it F ih =>
    intro acc
    simp only [List.foldl_cons, ih, List.flatMap_cons, List.append_assoc]

theorem new_out (F : List (Byte × Int)) :
    (writeToBinary.new F).out =
      intBytes MAGIC_NUMBER ++ intBytes (wrapInt F.length) ++
        F.flatMap (fun it => it.1 :: intBytes it.2) := by
  unfold writeToBinary.new
  simp only
  rw [foldl_append_eq_flatMap (fun it : Byte × Int => [it.1] ++ intBytes it.2)]
  simp

theorem new_out_length (F : List (Byte × Int)) :
    (writeToBinary.new F).out.length = 8 + 5 * F.length := by
  rw [new_out]
  simp only [List.length_append, intBytes_length]
  have : ∀ G : List (Byte × Int),
      (G.flatMap (fun it => it.1 :: intBytes it.2)).length = 5 * G.length := by
    intro G
    induction G with
    | nil => rfl
    | cons it G ih =>
      simp only [List.flatMap_cons, List.length_append, List.length_cons, intBytes_length, ih]
      omega
  rw [this]

/-! ### `mapAssign` on an ascending table -/

theorem mapAssign_append (c : Byte) (f : Int) (m : List (Byte × Int))
    (h : ∀ it ∈ m, charVal it.1 < charVal c) : mapAssign c f m = m ++ [(c, f)] := by
  induction m with
  | nil => rfl
  | cons it m ih =>
    obtain ⟨k, v⟩ := it
    have hk : charVal k < charVal c := h (k, v) (by simp)
    unfold mapAssign
    rw [if_neg (by omega), if_pos hk, ih (fun it hit => h it (List.mem_cons_of_mem _ hit))]
    rfl

theorem foldl_mapAssign_sorted (F : List (Byte × Int)) :
    ∀ m : List (Byte × Int), (m ++ F).Pairwise (fun a b => charVal a.1 < charVal b.1) →
      F.foldl (fun m it => mapAssign it.1 it.2 m) m = m ++ F := by
  induction F with
  | nil => intro m _; simp
  | cons it F ih =>
    intro m h
    simp only [List.foldl_cons]
    have hlt : ∀ x ∈ m, charVal x.1 < charVal it.1 := by
      intro x hx
      exact (List.pairwise_append.1 h).2.2 x hx it (by simp)
    rw [mapAssign_append _ _ _ hlt]
    have : m ++ [(it.1, it.2)] ++ F = m ++ it :: F := by simp
    rw [ih _ (by rw [this]; exact h), this]

theorem readPairs_flatMap (F : List (Byte × Int))
    (hr : ∀ it ∈ F, -2147483648 ≤ it.2 ∧ it.2 < 2147483648) (payload : List Byte) :
    ∀ m : List (Byte × Int),
      readPairs F.length (F.flatMap (fun it => it.1 :: intBytes it.2) ++ payload) m =
        some (F.foldl (fun m it => mapAssign it.1 it.2 m) m, payload) := by
  induction F with
  | nil => intro m; rfl
  | cons it F ih =>
    intro m
    obtain ⟨h1, h2⟩ := hr it (by simp)
    simp only [List.flatMap_cons, List.length_cons, List.foldl_cons]
    have : (it.1 :: intBytes it.2 ++ F.flatMap (fun it => it.1 :: intBytes it.2) ++ payload) =
        it.1 :: toByte (it.2 % 4294967296).toNat :: toByte ((it.2 % 4294967296).toNat / 256) ::
          toByte ((it.2 % 4294967296).toNat / 65536) ::
          toByte ((it.2 % 4294967296).toNat / 16777216) ::
          (F.flatMap (fun it => it.1 :: intBytes it.2) ++ payload) := by
      simp [intBytes]
    rw [this, readPairs, readInt_intBytes _ h1 h2]
    exact ih (fun x hx => hr x (List.mem_cons_of_mem _ hx)) _

theorem charVal_injective {a b : Byte} (h : charVal a = charVal b) : a = b := by
  unfold charVal at h
  have ha := a.isLt
  have hb := b.isLt
  apply Fin.ext
  split at h <;> split at h <;> omega

theorem IsFrequencyMap.nodup_keys {F : List (Byte × Int)} (hF : IsFrequencyMap F) :
    (F.map Prod.fst).Nodup := by
  have h := hF.1
  rw [List.Nodup, List.pairwise_map]
  exact h.imp (fun {a b} hab heq => by rw [heq] at hab; exact lt_irrefl _ hab)

theorem IsFrequencyMap.length_le {F : List (Byte × Int)} (hF : IsFrequencyMap F) :
    F.length ≤ 256 := by
  have h := hF.nodup_keys.length_le_card
  rw [List.length_map, Fintype.card_fin] at h
  exact h

theorem unhuff_magic {H : HeapAlgorithms} (m0 m1 m2 m3 n0 n1 n2 n3 : Byte) (rest : List Byte)
    (hm : readInt m0 m1 m2 m3 = MAGIC_NUMBER) :
    unhuff H (m0 :: m1 :: m2 :: m3 :: n0 :: n1 :: n2 :: n3 :: rest) =
      (readPairs (readInt n0 n1 n2 n3).toNat rest []).bind (fun r =>
        (createHuffmanTree H r.1).bind (fun root =>
          some { console := [],
                 file := some (decodeLoop (createPathInv root [] []) r.2
                   { currPath := [], isEOD := false, out := [] }).out,
                 status := 0 })) := by
  unfold unhuff
  simp only [hm, if_true]
  rfl

/-- What the header parser of `unhuff` makes of the header of a well-formed table: the
table itself. -/
theorem unhuff_header {H : HeapAlgorithms} (F : List (Byte × Int)) (hF : IsFrequencyMap F)
    (payload : List Byte) :
    unhuff H ((writeToBinary.new F).out ++ payload) =
      (createHuffmanTree H F).bind (fun root =>
        some { console := [],
               file := some (decodeLoop (createPathInv root [] []) payload
                 { currPath := [], isEOD := false, out := [] }).out,
               status := 0 }) := by
  have hlen := hF.length_le
  have hw : wrapInt (F.length : Int) = F.length := wrapInt_of_range _ (by omega) (by omega)
  rw [new_out, intBytes_MAGIC_NUMBER, hw]
  have hcount : intBytes (F.length : Int) =
      [toByte ((F.length : Int) % 4294967296).toNat,
       toByte (((F.length : Int) % 4294967296).toNat / 256),
       toByte (((F.length : Int) % 4294967296).toNat / 65536),
       toByte (((F.length : Int) % 4294967296).toNat / 16777216)] := rfl
  rw [hcount]
  simp only [List.cons_append, List.nil_append]
  have hm : readInt 255 255 255 255 = MAGIC_NUMBER := by decide
  rw [unhuff_magic _ _ _ _ _ _ _ _ _ hm, readInt_intBytes _ (by omega) (by omega)]
  simp only [Int.toNat_ofNat]
  rw [readPairs_flatMap F hF.2 payload []]
  rw [foldl_mapAssign_sorted F [] (by simpa using hF.1)]
  rfl

/-! ## The frequency table -/

theorem mapIncr_keys (c : Byte) (m : List (Byte × Int)) (k : Byte) :
    k ∈ (mapIncr c m).map Prod.fst ↔ k = c ∨ k ∈ m.map Prod.fst := by
  induction m with
  | nil => simp [mapIncr]
  | cons it m ih =>
    obtain ⟨k1, v1⟩ := it
    unfold mapIncr
    by_cases h1 : charVal c < charVal k1
    · simp [h1]
    · by_cases h2 : charVal k1 < charVal c
      · simp only [h1, h2, if_false, if_true, List.map_cons, List.mem_cons, ih]
        tauto
      · have hc : c = k1 := charVal_injective (by omega)
        subst hc
        simp [h1]

theorem mapIncr_lower (c : Byte) (m : List (Byte × Int)) (x : Byte)
    (hx : charVal x < charVal c) (hm : ∀ it ∈ m, charVal x < charVal it.1) :
    ∀ it ∈ mapIncr c m, charVal x < charVal it.1 := by
  intro it hit
  have hk : it.1 ∈ (mapIncr c m).map Prod.fst := List.mem_map_of_mem _ hit
  rcases (mapIncr_keys c m it.1).1 hk with h | h
  · rw [h]; exact hx
  · obtain ⟨e, he, h2⟩ := List.mem_map.1 h
    rw [← h2]
    exact hm e he

theorem mapIncr_sorted (c : Byte) (m : List (Byte × Int))
    (hm : m.Pairwise (fun a b => charVal a.1 < charVal b.1)) :
    (mapIncr c m).Pairwise (fun a b => charVal a.1 < charVal b.1) := by
  induction m with
  | nil => simp [mapIncr]
  | cons it m ih =>
    obtain ⟨k1, v1⟩ := it
    rw [List.pairwise_cons] at hm
    unfold mapIncr
    by_cases h1 : charVal c < charVal k1
    · rw [if_pos h1]
      refine List.pairwise_cons.2 ⟨?_, List.pairwise_cons.2 hm⟩
      intro x hx
      rcases List.mem_cons.1 hx with rfl | hx
      · exact h1
      · exact lt_trans h1 (hm.1 x hx)
    · rw [if_neg h1]
      by_cases h2 : charVal k1 < charVal c
      · rw [if_pos h2]
        exact List.pairwise_cons.2 ⟨mapIncr_lower c m k1 h2 hm.1, ih hm.2⟩
      · rw [if_neg h2]
        exact List.pairwise_cons.2 ⟨hm.1, hm.2⟩

theorem mapIncr_range (c : Byte) (m : List (Byte × Int))
    (hm : ∀ it ∈ m, -2147483648 ≤ it.2 ∧ it.2 < 2147483648) :
    ∀ it ∈ mapIncr c m, -2147483648 ≤ it.2 ∧ it.2 < 2147483648 := by
  induction m with
  | nil =>
    intro it hit
    simp only [mapIncr, List.mem_singleton] at hit
    subst hit
    exact wrapInt_range _
  | cons e m ih =>
    obtain ⟨k1, v1⟩ := e
    intro it hit
    unfold mapIncr at hit
    by_cases h1 : charVal c < charVal k1
    · rw [if_pos h1] at hit
      rcases List.mem_cons.1 hit with rfl | hit
      · exact wrapInt_range _
      · exact hm it hit
    · rw [if_neg h1] at hit
      by_cases h2 : charVal k1 < charVal c
      · rw [if_pos h2] at hit
        rcases List.mem_cons.1 hit with rfl | hit
        · exact hm _ (by simp)
        · exact ih (fun x hx => hm x (List.mem_cons_of_mem _ hx)) it hit
      · rw [if_neg h2] at hit
        rcases List.mem_cons.1 hit with rfl | hit
        · exact wrapInt_range _
        · exact hm it (List.mem_cons_of_mem _ hit)

theorem mapIncr_isFrequencyMap (c : Byte) (m : List (Byte × Int)) (hm : IsFrequencyMap m) :
    IsFrequencyMap (mapIncr c m) :=
  ⟨mapIncr_sorted c m hm.1, mapIncr_range c m hm.2⟩

theorem foldl_mapIncr_isFrequencyMap (B : List Byte) :
    ∀ m : List (Byte × Int), IsFrequencyMap m →
      IsFrequencyMap (B.foldl (fun frequency c => mapIncr c frequency) m) := by
  induction B with
  | nil => intro m hm; exact hm
  | cons b B ih => intro m hm; exact ih _ (mapIncr_isFrequencyMap b m hm)

theorem foldl_mapIncr_keys (B : List Byte) (k : Byte) :
    ∀ m : List (Byte × Int),
      k ∈ (B.foldl (fun frequency c => mapIncr c frequency) m).map Prod.fst ↔
        k ∈ B ∨ k ∈ m.map Prod.fst := by
  induction B with
  | nil => intro m; simp
  | cons b B ih =>
    intro m
    simp only [List.foldl_cons, ih, mapIncr_keys, List.mem_cons]
    tauto

theorem countFrequency_isFrequencyMap (B : List Byte) : IsFrequencyMap (countFrequency B) :=
  mapIncr_isFrequencyMap _ _
    (foldl_mapIncr_isFrequencyMap B [] ⟨List.Pairwise.nil, by simp⟩)

theorem countFrequency_keys (B : List Byte) (k : Byte) :
    k ∈ (countFrequency B).map Prod.fst ↔ k = EOD ∨ k ∈ B := by
  unfold countFrequency
  rw [mapIncr_keys, foldl_mapIncr_keys]
  simp

theorem countFrequency_length_ge (B : List Byte) (b : Byte) (hb : b ∈ B) (hne : b ≠ EOD) :
    2 ≤ (countFrequency B).length := by
  have h1 : b ∈ (countFrequency B).map Prod.fst := (countFrequency_keys B b).2 (Or.inr hb)
  have h2 : EOD ∈ (countFrequency B).map Prod.fst := (countFrequency_keys B EOD).2 (Or.inl rfl)
  have hnd := (countFrequency_isFrequencyMap B).nodup_keys
  have hsub : [b, EOD] ⊆ (countFrequency B).map Prod.fst := by
    intro x hx
    rcases List.mem_cons.1 hx with rfl | hx
    · exact h1
    · rw [List.mem_singleton.1 hx]; exact h2
  have hnd2 : [b, EOD].Nodup := by simp [hne]
  have := (List.subperm_of_subset hnd2 hsub).length_le
  simpa using this

/-! ## Encoding followed by decoding -/

theorem foldl_write_map (f : Byte → List Char) (B : List Byte) :
    ∀ w : writeToBinary, B.foldl (fun w c => w.write (f c)) w = w.write (B.flatMap f) := by
  induction B with
  | nil => intro w; rfl
  | cons b B ih =>
    intro w
    simp only [List.foldl_cons, List.flatMap_cons, ih, write_write]

/-- What `huff` writes when it compresses: the header followed by the packed code words of
the input bytes and of `EOD`. -/
theorem huff_container (H : HeapAlgorithms) (B : List Byte) (root : node)
    (hsize : compressedHeader (countFrequency B) < B.length)
    (hroot : createHuffmanTree H (countFrequency B) = some root) :
    huff H B = some
      { console := []
        file := some ((writeToBinary.new (countFrequency B)).out ++
          packBits ((B.flatMap (pathOf (createPath root [] [])) ++
            pathOf (createPath root [] []) EOD).map bitOf))
        status := 0 } := by
  unfold huff
  simp only [Nat.mul_one, hsize, if_true, hroot, Option.bind_eq_bind, Option.some_bind]
  rw [foldl_write_map, write_write, new_write_close]

/-- The facts about the two tables of paths of a tree of the data model whose leaves carry
distinct symbols.  `L` lists the coded symbols with their paths. -/
theorem code_tables (root : node) (hws : root.wellShaped = true) (hleaf : root.isLeaf = false)
    (hnd : (root.entries.map Prod.fst).Nodup) :
    (root.labels []).Pairwise (fun a b => Unrelated a.2 b.2) ∧
    (∀ e ∈ root.labels [], e.2 ≠ [] ∧ ∀ ch ∈ e.2, ch = '0' ∨ ch = '1') ∧
    (∀ s, s ≠ 0 → s ∈ root.entries.map Prod.fst →
      (s, pathOf (createPath root [] []) s) ∈ root.labels []) ∧
    (∀ q s, (createPathInv root [] []).lookup q = some s ↔ (s, q) ∈ root.labels []) := by
  have hsub : (root.labels []).Sublist (root.leafPaths []) := by
    rw [node.labels_eq_filter root hws]
    exact List.filter_sublist _
  have hfree : (root.labels []).Pairwise (fun a b => Unrelated a.2 b.2) :=
    (node.leafPaths_pairwise root []).sublist hsub
  have hkeys : ((root.labels []).map Prod.fst).Nodup := by
    have h1 : ((root.labels []).map Prod.fst).Sublist ((root.leafPaths []).map Prod.fst) :=
      hsub.map _
    rw [node.leafPaths_fst] at h1
    exact hnd.sublist h1
  have hpaths : (((root.labels []).map Prod.swap).map Prod.fst).Nodup := by
    rw [List.map_map, List.Nodup, List.pairwise_map]
    refine hfree.imp ?_
    intro a b hab heq
    apply hab.1
    simp only [Function.comp_apply, Prod.fst_swap] at heq
    rw [heq]
  have hinv : createPathInv root [] [] =
      ((root.labels []).map Prod.swap).foldl (fun m e => pathAssign e.1 e.2 m) [] := by
    rw [createPathInv_eq_foldl, List.foldl_map]
    rfl
  refine ⟨hfree, ?_, ?_, ?_⟩
  · intro e he
    have he2 := hsub.subset he
    refine ⟨node.leafPaths_ne_nil root hleaf e he2, ?_⟩
    obtain ⟨s, h1, h2⟩ := node.leafPaths_extend root [] e he2
    intro ch hch
    rw [h1] at hch
    exact h2 ch (by simpa using hch)
  · intro s hs hmem
    rw [← node.leafPaths_fst root []] at hmem
    obtain ⟨e, he, rfl⟩ := List.mem_map.1 hmem
    have heL : e ∈ root.labels [] := by
      rw [node.labels_eq_filter root hws]
      exact List.mem_filter.2 ⟨he, by simpa using hs⟩
    have hl : (createPath root [] []).lookup e.1 = some e.2 := by
      rw [createPath_eq_foldl]
      exact lookup_foldl_of_mem _ e.1 e.2 [] hkeys heL
    have : pathOf (createPath root [] []) e.1 = e.2 := by
      simp [pathOf, hl]
    rw [this]
    exact heL
  · intro q s
    rw [hinv]
    constructor
    · intro h
      obtain ⟨s', hs'⟩ := lookup_foldl_some _ q s h
      have h2 := lookup_foldl_of_mem _ q s' [] hpaths hs'
      rw [h] at h2
      have : s = s' := Option.some.inj h2
      subst this
      obtain ⟨e, he, heq⟩ := List.mem_map.1 hs'
      have : e = (s, q) := by
        have := congrArg Prod.swap heq
        simpa using this
      rw [← this]
      exact he
    · intro h
      exact lookup_foldl_of_mem _ q s [] hpaths (List.mem_map.2 ⟨(s, q), h, rfl⟩)

/-- The payload that `huff` writes is decoded to the input, whenever the input contains
neither the byte `0` nor the byte `EOD`. -/
theorem decode_payload (root : node) (hws : root.wellShaped = true)
    (hleaf : root.isLeaf = false) (hnd : (root.entries.map Prod.fst).Nodup)
    (B : List Byte) (hB : ∀ b ∈ B, b ≠ 0 ∧ b ≠ EOD ∧ b ∈ root.entries.map Prod.fst)
    (hE : EOD ∈ root.entries.map Prod.fst) :
    (decodeLoop (createPathInv root [] [])
      (packBits ((B.flatMap (pathOf (createPath root [] [])) ++
        pathOf (createPath root [] []) EOD).map bitOf))
      { currPath := [], isEOD := false, out := [] }) =
      { currPath := [], isEOD := true, out := B } := by
  obtain ⟨hfree, hL, henc, hdec⟩ := code_tables root hws hleaf hnd
  have hEL := henc EOD (by decide) hE
  have hBL : ∀ b ∈ B, b ≠ EOD ∧ (b, pathOf (createPath root [] []) b) ∈ root.labels [] :=
    fun b hb => ⟨(hB b hb).2.1, henc b (hB b hb).1 (hB b hb).2.2⟩
  have hchars : ∀ ch ∈ B.flatMap (pathOf (createPath root [] [])) ++
      pathOf (createPath root [] []) EOD, ch = '0' ∨ ch = '1' := by
    intro ch hch
    rcases List.mem_append.1 hch with h | h
    · obtain ⟨b, hb, hch2⟩ := List.mem_flatMap.1 h
      exact (hL _ (hBL b hb).2).2 ch hch2
    · exact (hL _ hEL).2 ch h
  rw [decodeLoop_eq]
  obtain ⟨k, hk⟩ := unpack_pack ((B.flatMap (pathOf (createPath root [] [])) ++
    pathOf (createPath root [] []) EOD).map bitOf)
  rw [hk, bitChar_bitOf _ hchars]
  have := decode_message (root.labels []) (createPathInv root [] [])
    (pathOf (createPath root [] [])) hfree hdec (fun e he => (hL e he).1) hEL
    (List.replicate k '0') B [] hBL
  simpa using this

/-! ## The counts of the frequency table -/

theorem lookup_eq_none_of_not_mem (m : List (Byte × Int)) (c : Byte)
    (h : c ∉ m.map Prod.fst) : m.lookup c = none := by
  induction m with
  | nil => rfl
  | cons it m ih =>
    obtain ⟨k, v⟩ := it
    simp only [List.map_cons, List.mem_cons, not_or] at h
    rw [lookup_cons_ite, if_neg h.1]
    exact ih h.2

theorem wrapInt_add (x y : Int) : wrapInt (wrapInt x + y) = wrapInt (x + y) := by
  unfold wrapInt
  omega

theorem wrapInt_zero : wrapInt 0 = 0 := by decide

theorem lookup_mapIncr (c : Byte) (m : List (Byte × Int))
    (hm : m.Pairwise (fun a b => charVal a.1 < charVal b.1)) (b : Byte) :
    (mapIncr c m).lookup b =
      if b = c then some (wrapInt ((m.lookup c).getD 0 + 1)) else m.lookup b := by
  induction m with
  | nil =>
    unfold mapIncr
    rw [lookup_cons_ite]
    rfl
  | cons it m ih =>
    obtain ⟨k1, v1⟩ := it
    rw [List.pairwise_cons] at hm
    unfold mapIncr
    by_cases h1 : charVal c < charVal k1
    · rw [if_pos h1, lookup_cons_ite]
      have hc : c ∉ ((k1, v1) :: m).map Prod.fst := by
        intro hmem
        rcases List.mem_cons.1 hmem with h | h
        · rw [h] at h1
          exact lt_irrefl _ h1
        · obtain ⟨e, he, heq⟩ := List.mem_map.1 h
          have := hm.1 e he
          rw [heq] at this
          exact lt_irrefl _ (lt_trans h1 this)
      rw [lookup_eq_none_of_not_mem _ c hc]
      rfl
    · rw [if_neg h1]
      by_cases h2 : charVal k1 < charVal c
      · have hne : c ≠ k1 := by
          intro h
          rw [h] at h2
          exact lt_irrefl _ h2
        rw [if_pos h2, lookup_cons_ite, ih hm.2, lookup_cons_ite, lookup_cons_ite, if_neg hne]
        by_cases hb : b = k1
        · have : b ≠ c := fun h => hne (h.symm.trans hb)
          simp [hb, this, Ne.symm hne]
        · simp [hb]
      · have hc : c = k1 := charVal_injective (by omega)
        subst hc
        rw [if_neg h2, lookup_cons_ite, lookup_cons_ite, lookup_cons_ite, if_pos rfl]
        by_cases hb : b = c <;> simp [hb]

theorem lookup_foldl_mapIncr (B : List Byte) (b : Byte) :
    ∀ m : List (Byte × Int), m.Pairwise (fun a b => charVal a.1 < charVal b.1) →
      (B.foldl (fun frequency c => mapIncr c frequency) m).lookup b =
        if B.count b = 0 then m.lookup b
        else some (wrapInt ((m.lookup b).getD 0 + (B.count b : Int))) := by
  induction B with
  | nil => intro m _; simp
  | cons c B ih =>
    intro m hm
    simp only [List.foldl_cons]
    rw [ih _ (mapIncr_sorted c m hm), lookup_mapIncr c m hm, List.count_cons]
    by_cases hbc : b = c
    · subst hbc
      simp only [beq_self_eq_true, if_true, Option.getD_some]
      by_cases h0 : B.count b = 0
      · simp [h0]
      · rw [if_neg h0, if_neg (by omega), wrapInt_add]
        congr 2
        push_cast
        ring
    · have : (c == b) = false := beq_false_of_ne (Ne.symm hbc)
      simp only [this, if_neg hbc, Bool.false_eq_true, if_false, Nat.add_zero]

/-- The table of `huff`, entry by entry, with the 32 bit reduction of the counts. -/
theorem lookup_countFrequency (B : List Byte) (b : Byte) :
    (countFrequency B).lookup b =
      if b = EOD then some (wrapInt ((B.count EOD : Int) + 1))
      else if B.count b = 0 then none
      else some (wrapInt (B.count b : Int)) := by
  unfold countFrequency
  have hs := (foldl_mapIncr_isFrequencyMap B [] ⟨List.Pairwise.nil, by simp⟩).1
  rw [lookup_mapIncr _ _ hs, lookup_foldl_mapIncr B EOD [] List.Pairwise.nil,
    lookup_foldl_mapIncr B b [] List.Pairwise.nil]
  have e1 : ∀ x : Byte, List.lookup x ([] : List (Byte × Int)) = none := fun _ => rfl
  by_cases hb : b = EOD
  · rw [if_pos hb, if_pos hb]
    by_cases h0 : B.count EOD = 0
    · rw [if_pos h0, e1, Option.getD_none, h0, Nat.cast_zero]
    · rw [if_neg h0, Option.getD_some, e1, Option.getD_none, zero_add, wrapInt_add]
  · rw [if_neg hb, if_neg hb, e1, Option.getD_none, zero_add]

theorem sum_mapIncr (c : Byte) (m : List (Byte × Int)) :
    ∀ n : Int, (∀ it ∈ m, 0 ≤ it.2) → (m.map Prod.snd).sum ≤ n → n + 1 < 2147483648 →
      ((mapIncr c m).map Prod.snd).sum = (m.map Prod.snd).sum + 1 ∧
        ∀ it ∈ mapIncr c m, 0 ≤ it.2 := by
  induction m with
  | nil =>
    intro n _ _ _
    constructor
    · simp [mapIncr, wrapInt]
    · intro it hit
      simp only [mapIncr, List.mem_singleton] at hit
      subst hit
      exact (by decide : (0 : Int) ≤ wrapInt (0 + 1))
  | cons e m ih =>
    obtain ⟨k1, v1⟩ := e
    intro n hpos hsum hn
    have hv1 : 0 ≤ v1 := hpos (k1, v1) (by simp)
    have hpos' : ∀ it ∈ m, 0 ≤ it.2 := fun it hit => hpos it (List.mem_cons_of_mem _ hit)
    have hsum0 : 0 ≤ (m.map Prod.snd).sum :=
      List.sum_nonneg (by
        intro x hx
        obtain ⟨it, hit, rfl⟩ := List.mem_map.1 hx
        exact hpos' it hit)
    simp only [List.map_cons, List.sum_cons] at hsum
    unfold mapIncr
    by_cases h1 : charVal c < charVal k1
    · rw [if_pos h1]
      constructor
      · simp [wrapInt]
        ring
      · intro it hit
        rcases List.mem_cons.1 hit with rfl | hit
        · exact (by decide : (0 : Int) ≤ wrapInt (0 + 1))
        · exact hpos it hit
    · rw [if_neg h1]
      by_cases h2 : charVal k1 < charVal c
      · rw [if_pos h2]
        obtain ⟨ih1, ih2⟩ := ih n hpos' (by omega) hn
        constructor
        · simp only [List.map_cons, List.sum_cons, ih1]
          ring
        · intro it hit
          rcases List.mem_cons.1 hit with rfl | hit
          · exact hv1
          · exact ih2 it hit
      · rw [if_neg h2]
        have hw : wrapInt (v1 + 1) = v1 + 1 := wrapInt_of_range _ (by omega) (by omega)
        constructor
        · simp only [List.map_cons, List.sum_cons, hw]
          ring
        · intro it hit
          rcases List.mem_cons.1 hit with rfl | hit
          · simp only [hw]
            omega
          · exact hpos' it hit

theorem sum_foldl_mapIncr (B : List Byte) :
    ∀ m : List (Byte × Int), (∀ it ∈ m, 0 ≤ it.2) →
      (m.map Prod.snd).sum + B.length < 2147483648 →
      ((B.foldl (fun frequency c => mapIncr c frequency) m).map Prod.snd).sum =
          (m.map Prod.snd).sum + B.length ∧
        ∀ it ∈ B.foldl (fun frequency c => mapIncr c frequency) m, 0 ≤ it.2 := by
  induction B with
  | nil => intro m hpos _; exact ⟨by simp, hpos⟩
  | cons c B ih =>
    intro m hpos hlt
    simp only [List.length_cons, Nat.cast_add, Nat.cast_one] at hlt
    obtain ⟨h1, h2⟩ := sum_mapIncr c m _ hpos (le_refl _) (by omega)
    obtain ⟨h3, h4⟩ := ih (mapIncr c m) h2 (by rw [h1]; omega)
    refine ⟨?_, h4⟩
    simp only [List.foldl_cons, h3, h1, List.length_cons, Nat.cast_add, Nat.cast_one]
    ring

/-! ## Optimality of the greedy strategy -/

theorem pairCost_cons (e : Int × Nat) (L : List (Int × Nat)) :
    pairCost (e :: L) = e.1 * (e.2 : Int) + pairCost L := by
  simp [pairCost]

theorem pairCost_perm {L M : List (Int × Nat)} (h : L.Perm M) : pairCost L = pairCost M :=
  (h.map _).sum_eq

theorem Shape.depths_ne_nil (S : Shape) : ∀ k, S.depths k ≠ [] := by
  induction S with
  | leaf => intro k; simp [Shape.depths]
  | node l r ihl _ =>
    intro k h
    simp only [Shape.depths, List.append_eq_nil] at h
    exact ihl _ h.1

theorem Shape.depths_le (S : Shape) : ∀ k, ∀ e ∈ S.depths k, e ≤ k + S.height := by
  induction S with
  | leaf => intro k e he; simp [Shape.depths] at he; simp [Shape.height, he]
  | node l r ihl ihr =>
    intro k e he
    simp only [Shape.depths, List.mem_append] at he
    simp only [Shape.height]
    rcases he with h | h
    · have := ihl _ e h
      omega
    · have := ihr _ e h
      omega

theorem Shape.height_eq_zero {S : Shape} (h : S.height = 0) : S = Shape.leaf := by
  cases S with
  | leaf => rfl
  | node l r => simp [Shape.height] at h

/-- In a shape with more than one leaf two leaves of greatest depth can be joined into one
leaf, one level higher. -/
theorem Shape.join_deepest (S : Shape) : ∀ k, S ≠ Shape.leaf →
    ∃ (D : List Nat) (S' : Shape),
      (S.depths k).Perm ((k + S.height) :: (k + S.height) :: D) ∧
      (S'.depths k).Perm ((k + S.height - 1) :: D) := by
  induction S with
  | leaf => intro k h; exact absurd rfl h
  | node l r ihl ihr =>
    intro k _
    by_cases hl : l = Shape.leaf
    · by_cases hr : r = Shape.leaf
      · subst hl hr
        exact ⟨[], Shape.leaf, by simp [Shape.depths, Shape.height],
          by simp [Shape.depths, Shape.height]⟩
      · obtain ⟨D, S', h1, h2⟩ := ihr (k + 1) hr
        have hh : (Shape.node l r).height = 1 + r.height := by
          subst hl
          simp [Shape.height]
        refine ⟨l.depths (k + 1) ++ D, Shape.node l S', ?_, ?_⟩
        · rw [hh]
          simp only [Shape.depths]
          have e : k + 1 + r.height = k + (1 + r.height) := by omega
          rw [e] at h1
          refine (List.perm_append_comm).trans ((h1.append_right _).trans ?_)
          simp only [List.cons_append]
          exact ((List.perm_append_comm).cons _).cons _
        · rw [hh]
          simp only [Shape.depths]
          have e : k + 1 + r.height - 1 = k + (1 + r.height) - 1 := by omega
          rw [e] at h2
          refine (List.perm_append_comm).trans ((h2.append_right _).trans ?_)
          simp only [List.cons_append]
          exact (List.perm_append_comm).cons _
    · by_cases hge : r.height ≤ l.height
      · obtain ⟨D, S', h1, h2⟩ := ihl (k + 1) hl
        have hh : (Shape.node l r).height = 1 + l.height := by
          simp [Shape.height, hge]
        refine ⟨D ++ r.depths (k + 1), Shape.node S' r, ?_, ?_⟩
        · rw [hh]
          simp only [Shape.depths]
          have e : k + 1 + l.height = k + (1 + l.height) := by omega
          rw [e] at h1
          exact h1.append_right _
        · rw [hh]
          simp only [Shape.depths]
          have e : k + 1 + l.height - 1 = k + (1 + l.height) - 1 := by omega
          rw [e] at h2
          exact h2.append_right _
      · have hr : r ≠ Shape.leaf := by
          intro h
          subst h
          simp [Shape.height] at hge
        obtain ⟨D, S', h1, h2⟩ := ihr (k + 1) hr
        have hh : (Shape.node l r).height = 1 + r.height := by
          simp only [Shape.height]
          omega
        refine ⟨l.depths (k + 1) ++ D, Shape.node l S', ?_, ?_⟩
        · rw [hh]
          simp only [Shape.depths]
          have e : k + 1 + r.height = k + (1 + r.height) := by omega
          rw [e] at h1
          refine (List.perm_append_comm).trans ((h1.append_right _).trans ?_)
          simp only [List.cons_append]
          exact ((List.perm_append_comm).cons _).cons _
        · rw [hh]
          simp only [Shape.depths]
          have e : k + 1 + r.height - 1 = k + (1 + r.height) - 1 := by omega
          rw [e] at h2
          refine (List.perm_append_comm).trans ((h2.append_right _).trans ?_)
          simp only [List.cons_append]
          exact (List.perm_append_comm).cons _

theorem exists_perm_cons_of_mem {α : Type} {a : α} {l : List α} (h : a ∈ l) :
    ∃ l', l.Perm (a :: l') := by
  obtain ⟨s, t, rfl⟩ := List.append_of_mem h
  exact ⟨s ++ t, List.perm_middle⟩

/-- Moving a least weight to a greatest depth does not raise the cost. -/
theorem exchange_least (L : List (Int × Nat)) (a : Int) (R : List Int) (h : Nat)
    (D : List Nat) (hw : (L.map Prod.fst).Perm (a :: R)) (hd : (L.map Prod.snd).Perm (h :: D))
    (ha : ∀ r ∈ R, a ≤ r) (hh : ∀ e ∈ D, e ≤ h) :
    ∃ M : List (Int × Nat), (M.map Prod.fst).Perm R ∧ (M.map Prod.snd).Perm D ∧
      a * (h : Int) + pairCost M ≤ pairCost L := by
  have hmem : a ∈ L.map Prod.fst := hw.symm.subset (by simp)
  obtain ⟨e1, he1, hfst⟩ := List.mem_map.1 hmem
  obtain ⟨a', da⟩ := e1
  simp only at hfst
  subst hfst
  obtain ⟨L1, hp1⟩ := exists_perm_cons_of_mem he1
  have hw1 : (a' :: L1.map Prod.fst).Perm (a' :: R) := (hp1.map Prod.fst).symm.trans hw
  have hd1 : (da :: L1.map Prod.snd).Perm (h :: D) := (hp1.map Prod.snd).symm.trans hd
  have c1 : pairCost L = a' * (da : Int) + pairCost L1 := by
    rw [pairCost_perm hp1, pairCost_cons]
  by_cases hda : da = h
  · subst hda
    exact ⟨L1, hw1.cons_inv, hd1.cons_inv, by rw [c1]⟩
  · have hh1 : h ∈ L1.map Prod.snd := by
      have : h ∈ da :: L1.map Prod.snd := hd1.symm.subset (by simp)
      rcases List.mem_cons.1 this with h0 | h0
      · exact absurd h0.symm hda
      · exact h0
    obtain ⟨e2, he2, hsnd⟩ := List.mem_map.1 hh1
    obtain ⟨x, h'⟩ := e2
    simp only at hsnd
    subst hsnd
    obtain ⟨L2, hp2⟩ := exists_perm_cons_of_mem he2
    have hw2 : (x :: L2.map Prod.fst).Perm R := (hp2.map Prod.fst).symm.trans hw1.cons_inv
    have hd2 : (da :: L2.map Prod.snd).Perm D := by
      have h3 : (da :: h' :: L2.map Prod.snd).Perm (h' :: D) :=
        ((hp2.map Prod.snd).cons da).symm.trans hd1
      exact ((List.Perm.swap da h' _).trans h3).cons_inv
    refine ⟨(x, da) :: L2, hw2, hd2, ?_⟩
    have hax : a' ≤ x := ha x (hw2.subset (by simp))
    have hdh : da ≤ h' := hh da (hd2.subset (by simp))
    have c2 : pairCost L1 = x * (h' : Int) + pairCost L2 := by
      rw [pairCost_perm hp2, pairCost_cons]
    rw [c1, c2, pairCost_cons]
    simp only
    have hdh' : (da : Int) ≤ (h' : Int) := by exact_mod_cast hdh
    nlinarith [mul_nonneg (sub_nonneg.2 hax) (sub_nonneg.2 hdh')]

/-- The greedy cost is a lower bound for the cost of every assignment of the weights to the
leaf depths of a shape. -/
theorem greedy_le_pairCost {W : List Int} {c : Int} (hg : Greedy W c) :
    ∀ (L : List (Int × Nat)) (S : Shape), (L.map Prod.fst).Perm W →
      (S.depths 0).Perm (L.map Prod.snd) → c ≤ pairCost L := by
  induction hg with
  | single w =>
    intro L S hw hd
    have hlen : (S.depths 0).length = 1 := by
      have h1 := hd.length_eq
      have h2 := hw.length_eq
      simp at h1 h2
      omega
    cases S with
    | leaf =>
      have hL : L.length = 1 := by simpa using hw.length_eq
      obtain ⟨e, rfl⟩ := List.length_eq_one.1 hL
      have : e.2 = 0 := by
        have := hd.symm
        simp [Shape.depths] at this
        exact this
      simp [pairCost, this]
    | node l r =>
      exfalso
      simp only [Shape.depths, List.length_append, Nat.zero_add] at hlen
      have h1 := List.length_pos.2 (Shape.depths_ne_nil l 1)
      have h2 := List.length_pos.2 (Shape.depths_ne_nil r 1)
      omega
  | @step W W' R a b c hperm hab hb hperm' _ ih =>
    intro L S hw hd
    have hS : S ≠ Shape.leaf := by
      intro h
      subst h
      have h1 := hd.length_eq
      have h2 := (hw.trans hperm).length_eq
      simp [Shape.depths] at h1 h2
      omega
    obtain ⟨D, S', h1, h2⟩ := Shape.join_deepest S 0 hS
    simp only [Nat.zero_add] at h1 h2
    have hle : ∀ e ∈ S.depths 0, e ≤ S.height := by
      intro e he
      simpa using Shape.depths_le S 0 e he
    have hpos : 1 ≤ S.height := by
      cases S with
      | leaf => exact absurd rfl hS
      | node l r => simp [Shape.height]
    have hD : ∀ e ∈ S.height :: D, e ≤ S.height := by
      intro e he
      exact hle e (h1.symm.subset (List.mem_cons_of_mem _ he))
    obtain ⟨M1, hw1, hd1, hc1⟩ := exchange_least L a (b :: R) S.height (S.height :: D)
      (hw.trans hperm) (hd.symm.trans h1)
      (by
        intro r hr
        rcases List.mem_cons.1 hr with rfl | hr
        · exact hab
        · exact le_trans hab (hb r hr))
      hD
    obtain ⟨M2, hw2, hd2, hc2⟩ := exchange_least M1 b R S.height D hw1 hd1 hb
      (fun e he => hD e (List.mem_cons_of_mem _ he))
    have hih := ih ((a + b, S.height - 1) :: M2) S'
      (by simpa using (hw2.cons (a + b)).trans hperm'.symm)
      (by simpa using h2.trans (hd2.symm.cons _))
    rw [pairCost_cons] at hih
    simp only at hih
    have hcast : ((S.height - 1 : Nat) : Int) = (S.height : Int) - 1 := by
      rw [Nat.cast_sub hpos]
      simp
    rw [hcast] at hih
    nlinarith

/-! ## The built tree attains the greedy cost -/

theorem Shape.depths_succ (S : Shape) : ∀ k, S.depths (k + 1) = (S.depths k).map (· + 1) := by
  induction S with
  | leaf => intro k; rfl
  | node l r ihl ihr =>
    intro k
    simp only [Shape.depths, List.map_append, ihl (k + 1), ihr (k + 1)]

theorem pairCost_append (L M : List (Int × Nat)) :
    pairCost (L ++ M) = pairCost L + pairCost M := by
  simp [pairCost]

theorem pairCost_zip_succ (ws : List Int) (hws : ∀ w ∈ ws, 0 ≤ w) :
    ∀ ds : List Nat, pairCost (List.zip ws ds) ≤ pairCost (List.zip ws (ds.map (· + 1))) := by
  induction ws with
  | nil => intro ds; simp [pairCost]
  | cons w ws ih =>
    intro ds
    cases ds with
    | nil => simp [pairCost]
    | cons d ds =>
      have h0 : 0 ≤ w := hws w (by simp)
      have h1 := ih (fun x hx => hws x (List.mem_cons_of_mem _ hx)) ds
      simp only [List.zip_cons_cons, List.map_cons, pairCost_cons]
      push_cast
      nlinarith

/-- Every tree, whatever the shape of its internal nodes, costs at least as much as some
assignment of its leaf counts to the leaf depths of a shape with two children per internal
node (nodes with one child are contracted). -/
theorem node.shape_le_wplAt (u : node) : u.isNull = false → (∀ e ∈ u.entries, 0 ≤ e.2) →
    ∀ k, ∃ S : Shape, (S.depths k).length = u.entries.length ∧
      pairCost (List.zip (u.entries.map Prod.snd) (S.depths k)) ≤ u.wplAt k := by
  induction u with
  | null => intro h; simp [node.isNull] at h
  | mk k0 s l r ihl ihr =>
    intro _ hpos k
    cases hl : l.isNull with
    | true =>
      cases hr : r.isNull with
      | true =>
        refine ⟨Shape.leaf, by simp [Shape.depths, node.entries, hl, hr], ?_⟩
        simp [Shape.depths, node.entries, node.wplAt, hl, hr, pairCost]
      | false =>
        have hnl : l = node.null := by
          cases l with
          | null => rfl
          | mk _ _ _ _ => simp [node.isNull] at hl
        subst hnl
        have he : (node.mk k0 s node.null r).entries = r.entries := by
          simp [node.entries, hr, hl]
        have hw : (node.mk k0 s node.null r).wplAt k = r.wplAt (k + 1) := by
          simp [node.wplAt, hr, hl]
        rw [he] at hpos ⊢
        rw [hw]
        obtain ⟨S, h1, h2⟩ := ihr hr hpos (k + 1)
        refine ⟨S, ?_, le_trans ?_ h2⟩
        · rw [← h1, Shape.depths_succ, List.length_map]
        · rw [Shape.depths_succ]
          exact pairCost_zip_succ _ (by
            intro w hw
            obtain ⟨e, he, rfl⟩ := List.mem_map.1 hw
            exact hpos e he) _
    | false =>
      cases hr : r.isNull with
      | true =>
        have hnr : r = node.null := by
          cases r with
          | null => rfl
          | mk _ _ _ _ => simp [node.isNull] at hr
        subst hnr
        have he : (node.mk k0 s l node.null).entries = l.entries := by
          simp [node.entries, hl]
        have hw : (node.mk k0 s l node.null).wplAt k = l.wplAt (k + 1) := by
          simp [node.wplAt, hl]
        rw [he] at hpos ⊢
        rw [hw]
        obtain ⟨S, h1, h2⟩ := ihl hl hpos (k + 1)
        refine ⟨S, ?_, le_trans ?_ h2⟩
        · rw [← h1, Shape.depths_succ, List.length_map]
        · rw [Shape.depths_succ]
          exact pairCost_zip_succ _ (by
            intro w hw
            obtain ⟨e, he, rfl⟩ := List.mem_map.1 hw
            exact hpos e he) _
      | false =>
        have he : (node.mk k0 s l r).entries = l.entries ++ r.entries := by
          simp [node.entries, hl]
        have hw : (node.mk k0 s l r).wplAt k = l.wplAt (k + 1) + r.wplAt (k + 1) := by
          simp [node.wplAt, hl]
        rw [he] at hpos ⊢
        rw [hw]
        obtain ⟨Sl, hl1, hl2⟩ := ihl hl (fun e he => hpos e (List.mem_append_left _ he)) (k + 1)
        obtain ⟨Sr, hr1, hr2⟩ := ihr hr (fun e he => hpos e (List.mem_append_right _ he)) (k + 1)
        refine ⟨Shape.node Sl Sr, ?_, ?_⟩
        · simp [Shape.depths, hl1, hr1]
        · simp only [Shape.depths, List.map_append]
          rw [List.zip_append (by rw [List.length_map, hl1]), pairCost_append]
          exact add_le_add hl2 hr2

theorem node.weight_mk_inner (k0 : Int) (s : Byte) (l r : node) (hl : l.isNull = false) :
    (node.mk k0 s l r).weight = l.weight + r.weight := by
  simp [node.weight, node.entries, hl]

theorem node.wplAt_succ (t : node) : ∀ d, t.wplAt (d + 1) = t.wplAt d + t.weight := by
  induction t with
  | null => intro d; simp [node.wplAt, node.weight, node.entries]
  | mk k0 s l r ihl ihr =>
    intro d
    cases hlr : (l.isNull && r.isNull) with
    | true =>
      simp only [node.wplAt, node.weight, node.entries, hlr, if_true, List.map_cons,
        List.map_nil, List.sum_cons, List.sum_nil]
      push_cast
      ring
    | false =>
      simp only [node.wplAt, node.weight, node.entries, hlr, Bool.false_eq_true, if_false,
        List.map_append, List.sum_append]
      rw [ihl, ihr]
      simp only [node.weight]
      ring

theorem node.wpl_new (n1 n2 : node) (h1 : n1.isNull = false) :
    (node.new n1 n2).wpl = n1.wpl + n2.wpl + n1.weight + n2.weight := by
  have e : (node.new n1 n2).wpl = n1.wplAt 1 + n2.wplAt 1 := by
    simp [node.new, node.wpl, node.wplAt, h1]
  rw [e]
  have a1 := node.wplAt_succ n1 0
  have a2 := node.wplAt_succ n2 0
  simp only [Nat.zero_add] at a1 a2
  rw [a1, a2]
  simp only [node.wpl]
  ring

theorem node.weight_new (n1 n2 : node) (h1 : n1.isNull = false) :
    (node.new n1 n2).weight = n1.weight + n2.weight := by
  simp [node.new, node.weight, node.entries, h1]

theorem node.count_new (n1 n2 : node) (h1 : n1.isNull = false) (h2 : n2.isNull = false) :
    (node.new n1 n2).count = wrapInt (n1.count + n2.count) := by
  simp [node.new, node.count, h1, h2]

theorem sum_nonneg_of_forall {q : List node} (h : ∀ t ∈ q, 0 ≤ t.weight) :
    0 ≤ (q.map node.weight).sum :=
  List.sum_nonneg (by
    intro x hx
    obtain ⟨t, ht, rfl⟩ := List.mem_map.1 hx
    exact h t ht)

/-- While no sum of counts leaves the range of `int`, the merge loop realises the greedy
strategy on the weights of the queued trees. -/
theorem Builds.cost {q : List node} {root : node} (hb : Builds q root)
    (hq : ∀ t ∈ q, t.isNull = false ∧ t.count = t.weight ∧ 0 ≤ t.weight)
    (hsum : (q.map node.weight).sum < 2147483648) :
    ∃ c, Greedy (q.map node.weight) c ∧ root.wpl = (q.map node.wpl).sum + c := by
  induction hb with
  | @last q n1 n2 hperm hle =>
    obtain ⟨hn1, hc1, _⟩ := hq n1 (hperm.symm.subset (by simp))
    obtain ⟨_, hc2, _⟩ := hq n2 (hperm.symm.subset (by simp))
    refine ⟨0 + n1.weight + n2.weight, ?_, ?_⟩
    · refine Greedy.step (hperm.map node.weight) ?_ (by simp) (List.Perm.refl _)
        (Greedy.single _)
      rw [← hc1, ← hc2]
      exact hle
    · rw [node.wpl_new n1 n2 hn1, (hperm.map node.wpl).sum_eq]
      simp
      ring
  | @step q q2 q' n1 n2 root hperm _ hle hmin hperm' _ ih =>
    obtain ⟨hn1, hc1, hw1⟩ := hq n1 (hperm.symm.subset (by simp))
    obtain ⟨hn2, hc2, hw2⟩ := hq n2 (hperm.symm.subset (by simp))
    have hq2 : ∀ t ∈ q2, t.isNull = false ∧ t.count = t.weight ∧ 0 ≤ t.weight :=
      fun t ht => hq t (hperm.symm.subset (by simp [ht]))
    have hsumq : (q.map node.weight).sum =
        n1.weight + n2.weight + (q2.map node.weight).sum := by
      rw [(hperm.map node.weight).sum_eq]
      simp
      ring
    have hs2 := sum_nonneg_of_forall (fun t ht => (hq2 t ht).2.2)
    have hnew : (node.new n1 n2).count = (node.new n1 n2).weight := by
      rw [node.count_new n1 n2 hn1 hn2, node.weight_new n1 n2 hn1, hc1, hc2]
      exact wrapInt_of_range _ (by omega) (by omega)
    have hq' : ∀ t ∈ q', t.isNull = false ∧ t.count = t.weight ∧ 0 ≤ t.weight := by
      intro t ht
      rcases List.mem_cons.1 (hperm'.subset ht) with rfl | h
      · refine ⟨by simp [node.new, node.isNull], hnew, ?_⟩
        rw [node.weight_new n1 n2 hn1]
        omega
      · exact hq2 t h
    have hsumq' : (q'.map node.weight).sum = (q.map node.weight).sum := by
      rw [(hperm'.map node.weight).sum_eq, hsumq]
      simp [node.weight_new n1 n2 hn1]
    obtain ⟨c', hg, hroot⟩ := ih hq' (by rw [hsumq']; exact hsum)
    refine ⟨c' + n1.weight + n2.weight, ?_, ?_⟩
    · refine Greedy.step (hperm.map node.weight) ?_ ?_ ?_ hg
      · rw [← hc1, ← hc2]
        exact hle
      · intro r hr
        obtain ⟨t, ht, rfl⟩ := List.mem_map.1 hr
        rw [← hc2, ← (hq2 t ht).2.1]
        exact hmin t ht
      · have := hperm'.map node.weight
        simpa [node.weight_new n1 n2 hn1] using this
    · rw [hroot, (hperm'.map node.wpl).sum_eq, (hperm.map node.wpl).sum_eq]
      simp only [List.map_cons, List.sum_cons, node.wpl_new n1 n2 hn1]
      ring

/-! ## Encoding followed by decoding, for any input -/

theorem flatMap_filter_of_nil {α β : Type} (f : α → List β) (p : α → Bool)
    (hf : ∀ a, p a = false → f a = []) (B : List α) :
    (B.filter p).flatMap f = B.flatMap f := by
  induction B with
  | nil => rfl
  | cons b B ih =>
    cases hp : p b with
    | true => simp [List.filter_cons, hp, ih]
    | false => simp [List.filter_cons, hp, ih, hf b hp]

theorem dropWhile_head (p : Byte → Bool) (B : List Byte) :
    B.dropWhile p = [] ∨ ∃ b rest, B.dropWhile p = b :: rest ∧ p b = false := by
  induction B with
  | nil => exact Or.inl rfl
  | cons b B ih =>
    cases hp : p b with
    | true =>
      rw [List.dropWhile_cons_of_pos hp]
      exact ih
    | false =>
      refine Or.inr ⟨b, B, ?_, hp⟩
      rw [List.dropWhile_cons_of_neg (by simp [hp])]

/-- The symbol `0` has no entry in the table of `createPath`, so `paths[0]` is the empty
string. -/
theorem pathOf_zero (root : node) (hws : root.wellShaped = true) :
    pathOf (createPath root [] []) 0 = [] := by
  have hnot : (0 : Byte) ∉ (root.labels []).map Prod.fst := by
    intro h
    obtain ⟨e, he, h0⟩ := List.mem_map.1 h
    rw [node.labels_eq_filter root hws] at he
    have := (List.mem_filter.1 he).2
    simp [h0] at this
  unfold pathOf
  rw [createPath_eq_foldl, lookup_foldl_of_not_mem _ 0 [] hnot]
  rfl

/-- The payload that `huff` writes is decoded to the input cut before its first byte `EOD`,
without its bytes `0`. -/
theorem decode_payload_general (root : node) (hws : root.wellShaped = true)
    (hleaf : root.isLeaf = false) (hnd : (root.entries.map Prod.fst).Nodup)
    (B : List Byte) (hB : ∀ b ∈ B, b ∈ root.entries.map Prod.fst)
    (hE : EOD ∈ root.entries.map Prod.fst) :
    (decodeLoop (createPathInv root [] [])
      (packBits ((B.flatMap (pathOf (createPath root [] [])) ++
        pathOf (createPath root [] []) EOD).map bitOf))
      { currPath := [], isEOD := false, out := [] }) =
      { currPath := [], isEOD := true,
        out := (B.takeWhile (fun b => decide (b ≠ EOD))).filter (fun b => decide (b ≠ 0)) } := by
  obtain ⟨hfree, hL, henc, hdec⟩ := code_tables root hws hleaf hnd
  have hEL := henc EOD (by decide) hE
  have h0 := pathOf_zero root hws
  have hchar : ∀ b ∈ B, ∀ ch ∈ pathOf (createPath root [] []) b, ch = '0' ∨ ch = '1' := by
    intro b hb ch hch
    by_cases hb0 : b = 0
    · rw [hb0, h0] at hch
      simp at hch
    · exact (hL _ (henc b hb0 (hB b hb))).2 ch hch
  have hchars : ∀ ch ∈ B.flatMap (pathOf (createPath root [] [])) ++
      pathOf (createPath root [] []) EOD, ch = '0' ∨ ch = '1' := by
    intro ch hch
    rcases List.mem_append.1 hch with h | h
    · obtain ⟨b, hb, hch2⟩ := List.mem_flatMap.1 h
      exact hchar b hb ch hch2
    · exact (hL _ hEL).2 ch h
  have hsplit : ∃ tail, B.flatMap (pathOf (createPath root [] [])) ++
      pathOf (createPath root [] []) EOD =
      ((B.takeWhile (fun b => decide (b ≠ EOD))).filter (fun b => decide (b ≠ 0))).flatMap
          (pathOf (createPath root [] [])) ++
        pathOf (createPath root [] []) EOD ++ tail := by
    rw [flatMap_filter_of_nil (pathOf (createPath root [] [])) (fun b => decide (b ≠ 0))
      (by
        intro a ha
        have : a = 0 := by simpa using ha
        rw [this, h0])]
    have hB2 : B = B.takeWhile (fun b => decide (b ≠ EOD)) ++
        B.dropWhile (fun b => decide (b ≠ EOD)) := (List.takeWhile_append_dropWhile _ _).symm
    rcases dropWhile_head (fun b => decide (b ≠ EOD)) B with hd | ⟨b, rest, hd, hp⟩
    · refine ⟨[], ?_⟩
      rw [hd, List.append_nil] at hB2
      rw [← hB2, List.append_nil]
    · have hb : b = EOD := by simpa using hp
      subst hb
      refine ⟨rest.flatMap (pathOf (createPath root [] [])) ++
        pathOf (createPath root [] []) EOD, ?_⟩
      conv_lhs => rw [hB2, hd]
      simp [List.flatMap_append, List.append_assoc]
  obtain ⟨tail, htail⟩ := hsplit
  have hBL : ∀ b ∈ (B.takeWhile (fun b => decide (b ≠ EOD))).filter (fun b => decide (b ≠ 0)),
      b ≠ EOD ∧ (b, pathOf (createPath root [] []) b) ∈ root.labels [] := by
    intro b hb
    obtain ⟨hb1, hb2⟩ := List.mem_filter.1 hb
    have hb0 : b ≠ 0 := by simpa using hb2
    have hbE : b ≠ EOD := by simpa using List.mem_takeWhile_imp hb1
    exact ⟨hbE, henc b hb0 (hB b ((List.takeWhile_sublist _).subset hb1))⟩
  rw [decodeLoop_eq]
  obtain ⟨k, hk⟩ := unpack_pack ((B.flatMap (pathOf (createPath root [] [])) ++
    pathOf (createPath root [] []) EOD).map bitOf)
  rw [hk, bitChar_bitOf _ hchars, htail]
  have := decode_message (root.labels []) (createPathInv root [] [])
    (pathOf (createPath root [] [])) hfree hdec (fun e he => (hL e he).1) hEL
    (tail ++ List.replicate k '0') _ [] hBL
  simpa [List.append_assoc] using this

/-- Every input that `huff` compresses and that has a byte other than `EOD` is written to a
container, which `unhuff` decodes to the input cut before its first byte `EOD`, without its
bytes `0`. -/
theorem huff_unhuff_general (H : HeapAlgorithms) (hH : H.Lawful) (B : List Byte)
    (hne : ∃ b ∈ B, b ≠ EOD)
    (hsize : compressedHeader (countFrequency B) < B.length) :
    ∃ container,
      huff H B = some { console := [], file := some container, status := 0 } ∧
      unhuff H container = some
        { console := []
          file := some ((B.takeWhile (fun b => decide (b ≠ EOD))).filter
            (fun b => decide (b ≠ 0)))
          status := 0 } := by
  obtain ⟨b0, hb0, hb0E⟩ := hne
  have hlen := countFrequency_length_ge B b0 hb0 hb0E
  obtain ⟨root, hroot, hws, hleaf, hperm⟩ :=
    createHuffmanTree_spec hH (countFrequency B) hlen
  have hF := countFrequency_isFrequencyMap B
  have hkeys : (root.entries.map Prod.fst).Perm ((countFrequency B).map Prod.fst) :=
    hperm.map _
  have hnd : (root.entries.map Prod.fst).Nodup := hkeys.nodup_iff.2 hF.nodup_keys
  refine ⟨_, huff_container H B root hsize hroot, ?_⟩
  rw [unhuff_header _ hF, hroot]
  simp only [Option.some_bind]
  rw [decode_payload_general root hws hleaf hnd B ?_ ?_]
  · intro b hb
    exact hkeys.symm.subset ((countFrequency_keys B b).2 (Or.inr hb))
  · exact hkeys.symm.subset ((countFrequency_keys B EOD).2 (Or.inl rfl))

theorem takeWhile_filter_id (B : List Byte) (hB : ∀ b ∈ B, b ≠ 0 ∧ b ≠ EOD) :
    (B.takeWhile (fun b => decide (b ≠ EOD))).filter (fun b => decide (b ≠ 0)) = B := by
  have h1 : B.takeWhile (fun b => decide (b ≠ EOD)) = B := by
    rw [List.takeWhile_eq_self_iff]
    intro b hb
    simpa using (hB b hb).2
  rw [h1, List.filter_eq_self]
  intro b hb
  simpa using (hB b hb).1

/-! ## The tables of paths, entry by entry -/

theorem labels_keys_nodup (root : node) (hws : root.wellShaped = true)
    (hnd : (root.entries.map Prod.fst).Nodup) : ((root.labels []).map Prod.fst).Nodup := by
  have hsub : (root.labels []).Sublist (root.leafPaths []) := by
    rw [node.labels_eq_filter root hws]
    exact List.filter_sublist _
  have h1 : ((root.labels []).map Prod.fst).Sublist ((root.leafPaths []).map Prod.fst) :=
    hsub.map _
  rw [node.leafPaths_fst] at h1
  exact hnd.sublist h1

theorem mem_labels_iff (root : node) (hws : root.wellShaped = true) (s : Byte)
    (p : List Char) : (s, p) ∈ root.labels [] ↔ (s, p) ∈ root.leafPaths [] ∧ s ≠ 0 := by
  rw [node.labels_eq_filter root hws, List.mem_filter]
  simp

theorem createPath_lookup_iff (root : node) (hws : root.wellShaped = true)
    (hnd : (root.entries.map Prod.fst).Nodup) (s : Byte) (p : List Char) :
    (createPath root [] []).lookup s = some p ↔ (s, p) ∈ root.labels [] := by
  have hkeys := labels_keys_nodup root hws hnd
  rw [createPath_eq_foldl]
  constructor
  · intro h
    obtain ⟨p', hp'⟩ := lookup_foldl_some _ s p h
    have h2 := lookup_foldl_of_mem _ s p' [] hkeys hp'
    rw [h] at h2
    rw [Option.some.inj h2]
    exact hp'
  · intro h
    exact lookup_foldl_of_mem _ s p [] hkeys h

theorem createHuffmanTree_empty (H : HeapAlgorithms) : createHuffmanTree H [] = none := rfl

/-! ## Counts of the nodes and number of iterations -/

theorem node.exactSums_new {n1 n2 : node} (h1 : n1.isNull = false) (h2 : n2.isNull = false)
    (e1 : n1.exactSums = true) (e2 : n2.exactSums = true)
    (hw : wrapInt (n1.count + n2.count) = n1.count + n2.count) :
    (node.new n1 n2).exactSums = true := by
  rw [node.new_eq h1 h2, hw]
  simp [node.exactSums, node.count, e1, e2]

/-- While no sum of counts leaves the range of `int`, every internal node of the tree carries
the exact sum of the counts of its children, and the root the sum of all counts. -/
theorem Builds.exact {q : List node} {root : node} (hb : Builds q root)
    (hq : ∀ t ∈ q, t.isNull = false ∧ t.exactSums = true ∧ t.count = t.weight ∧ 0 ≤ t.weight)
    (hsum : (q.map node.weight).sum < 2147483648) :
    root.exactSums = true ∧ root.count = (q.map node.weight).sum := by
  induction hb with
  | @last q n1 n2 hperm hle =>
    obtain ⟨hn1, he1, hc1, hw1⟩ := hq n1 (hperm.symm.subset (by simp))
    obtain ⟨hn2, he2, hc2, hw2⟩ := hq n2 (hperm.symm.subset (by simp))
    have hs : (q.map node.weight).sum = n1.weight + n2.weight := by
      rw [(hperm.map node.weight).sum_eq]
      simp
    have hw : wrapInt (n1.count + n2.count) = n1.count + n2.count :=
      wrapInt_of_range _ (by rw [hc1, hc2]; omega) (by rw [hc1, hc2]; omega)
    refine ⟨node.exactSums_new hn1 hn2 he1 he2 hw, ?_⟩
    rw [node.count_new n1 n2 hn1 hn2, hw, hc1, hc2, hs]
  | @step q q2 q' n1 n2 root hperm _ hle hmin hperm' _ ih =>
    obtain ⟨hn1, he1, hc1, hw1⟩ := hq n1 (hperm.symm.subset (by simp))
    obtain ⟨hn2, he2, hc2, hw2⟩ := hq n2 (hperm.symm.subset (by simp))
    have hq2 : ∀ t ∈ q2,
        t.isNull = false ∧ t.exactSums = true ∧ t.count = t.weight ∧ 0 ≤ t.weight :=
      fun t ht => hq t (hperm.symm.subset (by simp [ht]))
    have hsumq : (q.map node.weight).sum =
        n1.weight + n2.weight + (q2.map node.weight).sum := by
      rw [(hperm.map node.weight).sum_eq]
      simp
      ring
    have hs2 := sum_nonneg_of_forall (fun t ht => (hq2 t ht).2.2.2)
    have hw : wrapInt (n1.count + n2.count) = n1.count + n2.count :=
      wrapInt_of_range _ (by rw [hc1, hc2]; omega) (by rw [hc1, hc2]; omega)
    have hq' : ∀ t ∈ q',
        t.isNull = false ∧ t.exactSums = true ∧ t.count = t.weight ∧ 0 ≤ t.weight := by
      intro t ht
      rcases List.mem_cons.1 (hperm'.subset ht) with rfl | h
      · refine ⟨by simp [node.new, node.isNull], node.exactSums_new hn1 hn2 he1 he2 hw, ?_, ?_⟩
        · rw [node.count_new n1 n2 hn1 hn2, hw, node.weight_new n1 n2 hn1, hc1, hc2]
        · rw [node.weight_new n1 n2 hn1]
          omega
      · exact hq2 t h
    have hsumq' : (q'.map node.weight).sum = (q.map node.weight).sum := by
      rw [(hperm'.map node.weight).sum_eq, hsumq]
      simp [node.weight_new n1 n2 hn1]
    obtain ⟨ih1, ih2⟩ := ih hq' (by rw [hsumq']; exact hsum)
    exact ⟨ih1, by rw [ih2, hsumq']⟩

theorem node.internalCount_new {n1 n2 : node} (h1 : n1.isNull = false) :
    (node.new n1 n2).internalCount = 1 + n1.internalCount + n2.internalCount := by
  simp [node.new, node.internalCount, h1]

/-- Each merge adds one internal node. -/
theorem Builds.internalCount {q : List node} {root : node} (hb : Builds q root)
    (hq : ∀ t ∈ q, t.isNull = false) :
    root.internalCount + 1 = (q.map node.internalCount).sum + q.length := by
  induction hb with
  | @last q n1 n2 hperm _ =>
    have hn1 : n1.isNull = false := hq n1 (hperm.symm.subset (by simp))
    rw [node.internalCount_new hn1, (hperm.map node.internalCount).sum_eq, hperm.length_eq]
    simp
    omega
  | @step q q2 q' n1 n2 root hperm _ _ _ hperm' _ ih =>
    have hn1 : n1.isNull = false := hq n1 (hperm.symm.subset (by simp))
    have hq' : ∀ t ∈ q', t.isNull = false := by
      intro t ht
      rcases List.mem_cons.1 (hperm'.subset ht) with rfl | h
      · simp [node.new, node.isNull]
      · exact hq t (hperm.symm.subset (by simp [h]))
    rw [ih hq', (hperm'.map node.internalCount).sum_eq, hperm'.length_eq,
      (hperm.map node.internalCount).sum_eq, hperm.length_eq]
    simp [node.internalCount_new hn1]
    omega

/-- A bound smaller than the number of queued nodes is exhausted before the loop ends. -/
theorem merge_exhausted {H : HeapAlgorithms} (hH : H.Lawful) :
    ∀ (fuel : Nat) (q : List node) (p : Option node), priority_queue.Reachable H q →
      2 ≤ q.length → fuel < q.length → createHuffmanTree.merge H fuel q p = none := by
  intro fuel
  induction fuel with
  | zero => intro q p _ _ _; rfl
  | succ fuel ih =>
    intro q p hq h2 hf
    match q, hq, h2, hf with
    | [], _, h2, _ => simp at h2
    | n1 :: t, hq, h2, hf =>
      obtain ⟨q1, hpop1, hperm1, hr1⟩ := priority_queue.pop_cons hH hq
      match q1, hpop1, hperm1, hr1 with
      | [], _, hperm1, _ =>
        have := hperm1.length_eq
        simp at this h2
        omega
      | n2 :: t2, hpop1, hperm1, hr1 =>
        obtain ⟨q2, hpop2, hperm2, hr2⟩ := priority_queue.pop_cons hH hr1
        have hlen : t.length = q2.length + 1 := by
          have a := hperm1.length_eq
          have b := hperm2.length_eq
          simp at a
          omega
        by_cases he : q2 = []
        · subst he
          have hfuel : fuel = 0 := by simp at hf hlen; omega
          subst hfuel
          simp [createHuffmanTree.merge, priority_queue.top, hpop1, hpop2]
        · have hpush := priority_queue.push_perm hH hr2 (node.new n1 n2)
          have hr3 := priority_queue.Reachable.push (node.new n1 n2) hr2
          have hlen3 : (priority_queue.push H q2 (node.new n1 n2)).length = q2.length + 1 := by
            simpa using hpush.length_eq
          have hq2len : 1 ≤ q2.length := by
            cases q2 with
            | nil => exact absurd rfl he
            | cons _ _ => simp
          have hnone := ih (priority_queue.push H q2 (node.new n1 n2))
            (some (node.new n1 n2)) hr3 (by omega) (by simp at hf; omega)
          simp [createHuffmanTree.merge, priority_queue.top, hpop1, hpop2, he, hnone]

/-- A larger bound does not change the result of the loop. -/
theorem merge_fuel_succ (H : HeapAlgorithms) :
    ∀ (fuel : Nat) (q : List node) (p : Option node) (r : node),
      createHuffmanTree.merge H fuel q p = some r →
      createHuffmanTree.merge H (fuel + 1) q p = some r := by
  intro fuel
  induction fuel with
  | zero => intro q p r h; simp [createHuffmanTree.merge] at h
  | succ fuel ih =>
    intro q p r h
    rw [createHuffmanTree.merge] at h ⊢
    by_cases he : q.isEmpty = true
    · simpa [he] using h
    · simp only [he, if_false, Bool.false_eq_true] at h ⊢
      cases h1 : priority_queue.top q with
      | none => simp [h1] at h
      | some n1 =>
        cases h2 : priority_queue.pop H q with
        | none => simp [h1, h2] at h
        | some q1 =>
          cases h3 : priority_queue.top q1 with
          | none => simp [h1, h2, h3] at h
          | some n2 =>
            cases h4 : priority_queue.pop H q1 with
            | none => simp [h1, h2, h3, h4] at h
            | some q2 =>
              simp only [h1, h2, h3, h4, Option.bind_eq_bind, Option.some_bind] at h ⊢
              by_cases he2 : q2.isEmpty = true
              · simp only [he2, Bool.not_true, Bool.false_eq_true, if_false] at h ⊢
                exact ih _ _ _ h
              · simp only [he2, Bool.not_false, if_true] at h ⊢
                exact ih _ _ _ h

/-! ## More frequent symbols are not deeper -/

theorem Greedy.perm {W W2 : List Int} {c : Int} (hg : Greedy W c) (hp : W2.Perm W) :
    Greedy W2 c := by
  cases hg with
  | single w =>
    rw [List.perm_singleton.1 hp]
    exact Greedy.single w
  | step h1 h2 h3 h4 h5 => exact Greedy.step (hp.trans h1) h2 h3 h4 h5

/-- Without overflow the tree that is built attains the greedy cost of the counts. -/
theorem createHuffmanTree_greedy {H : HeapAlgorithms} (hH : H.Lawful) (F : List (Byte × Int))
    (hF : 2 ≤ F.length) (hpos : ∀ it ∈ F, 0 ≤ it.2)
    (hsum : (F.map Prod.snd).sum < 2147483648) :
    ∃ root, createHuffmanTree H F = some root ∧ root.wellShaped = true ∧
      root.entries.Perm F ∧ ∃ c, Greedy (F.map Prod.snd) c ∧ root.wpl = c := by
  obtain ⟨q, root, hperm, hroot, hb⟩ := createHuffmanTree_builds hH F hF
  have hleaf : ∀ t ∈ q, ∃ it ∈ F, t = leafNode it := by
    intro t ht
    obtain ⟨it, hit, rfl⟩ := List.mem_map.1 (hperm.subset ht)
    exact ⟨it, hit, rfl⟩
  have hweight : ∀ it : Byte × Int, (leafNode it).weight = it.2 := by
    intro it
    simp [leafNode, node.weight, node.entries, node.isNull]
  have hq : ∀ t ∈ q, t.isNull = false ∧ t.count = t.weight ∧ 0 ≤ t.weight := by
    intro t ht
    obtain ⟨it, hit, rfl⟩ := hleaf t ht
    refine ⟨rfl, ?_, ?_⟩
    · rw [hweight]
      rfl
    · rw [hweight]
      exact hpos it hit
  have hws : ∀ t ∈ q, t.wellShaped = true := by
    intro t ht
    obtain ⟨it, _, rfl⟩ := hleaf t ht
    simp [leafNode, node.wellShaped, node.isNull]
  have hW : (q.map node.weight).Perm (F.map Prod.snd) := by
    have h1 := hperm.map node.weight
    have h2 : (F.map leafNode).map node.weight = F.map Prod.snd := by
      rw [List.map_map]
      exact List.map_congr_left (fun it _ => hweight it)
    rw [h2] at h1
    exact h1
  have hwpl0 : (q.map node.wpl).sum = 0 := by
    apply List.sum_eq_zero
    intro x hx
    obtain ⟨t, ht, rfl⟩ := List.mem_map.1 hx
    obtain ⟨it, _, rfl⟩ := hleaf t ht
    simp [leafNode, node.wpl, node.wplAt, node.isNull]
  obtain ⟨c, hg, hcost⟩ := hb.cost hq (by rw [hW.sum_eq]; exact hsum)
  rw [hwpl0, zero_add] at hcost
  obtain ⟨hent, _⟩ := hb.entries_perm (fun t ht => (hq t ht).1)
  have hent2 : root.entries.Perm F := by
    have h1 := List.Perm.flatMap_right node.entries hperm
    rw [flatMap_entries_leafNode] at h1
    exact hent.trans h1
  exact ⟨root, hroot, (hb.all_wellShaped hws).1, hent2, c, hg.perm hW.symm, hcost⟩

theorem node.leafDepths_fst (t : node) :
    ∀ d, (t.leafDepths d).map Prod.fst = t.entries := by
  induction t with
  | null => intro d; rfl
  | mk k s l r ihl ihr =>
    intro d
    simp only [node.leafDepths, node.entries]
    split
    · rfl
    · simp [ihl, ihr]

theorem node.leafDepths_cost (t : node) :
    ∀ d, pairCost ((t.leafDepths d).map (fun r => (r.1.2, r.2))) = t.wplAt d := by
  induction t with
  | null => intro d; simp [node.leafDepths, node.wplAt, pairCost]
  | mk k s l r ihl ihr =>
    intro d
    simp only [node.leafDepths, node.wplAt]
    split
    · simp [pairCost]
    · rw [List.map_append, pairCost_append, ihl, ihr]

theorem node.leafDepths_shape (t : node) (ht : t.wellShaped = true) :
    ∀ d, ∃ S : Shape, S.depths d = (t.leafDepths d).map Prod.snd := by
  induction t with
  | null => simp [node.wellShaped] at ht
  | mk k s l r ihl ihr =>
    intro d
    simp only [node.wellShaped, Bool.or_eq_true, Bool.and_eq_true, decide_eq_true_eq] at ht
    rcases ht with ⟨hl, hr⟩ | ⟨⟨⟨hl, hr⟩, _⟩, _⟩
    · exact ⟨Shape.leaf, by simp [Shape.depths, node.leafDepths, hl, hr]⟩
    · obtain ⟨Sl, h1⟩ := ihl hl (d + 1)
      obtain ⟨Sr, h2⟩ := ihr hr (d + 1)
      have hln := node.wellShaped_not_null hl
      exact ⟨Shape.node Sl Sr, by simp [Shape.depths, node.leafDepths, hln, h1, h2]⟩

theorem node.leafPaths_depth (t : node) :
    ∀ (path : List Char) (s : Byte) (p : List Char), (s, p) ∈ t.leafPaths path →
      ∃ k, ((s, k), p.length) ∈ t.leafDepths path.length := by
  induction t with
  | null => intro path s p h; simp [node.leafPaths] at h
  | mk k0 s0 l r ihl ihr =>
    intro path s p h
    simp only [node.leafPaths] at h
    simp only [node.leafDepths]
    split at h
    · rename_i hc
      simp only [List.mem_singleton, Prod.mk.injEq] at h
      obtain ⟨rfl, rfl⟩ := h
      exact ⟨k0, by simp [hc]⟩
    · rename_i hc
      rw [if_neg hc]
      rcases List.mem_append.1 h with h1 | h1
      · obtain ⟨k, hk⟩ := ihl _ s p h1
        refine ⟨k, List.mem_append_left _ ?_⟩
        simpa using hk
      · obtain ⟨k, hk⟩ := ihr _ s p h1
        refine ⟨k, List.mem_append_right _ ?_⟩
        simpa using hk

/-- In an assignment of weights to depths that attains the greedy cost, a larger weight is
not deeper than a smaller one. -/
theorem greedy_monotone {W : List Int} {c : Int} (hg : Greedy W c)
    (L : List ((Byte × Int) × Nat)) (S : Shape)
    (hW : (L.map (fun r => r.1.2)).Perm W) (hS : S.depths 0 = L.map Prod.snd)
    (hc : pairCost (L.map (fun r => (r.1.2, r.2))) = c)
    (r1 r2 : (Byte × Int) × Nat) (h1 : r1 ∈ L) (h2 : r2 ∈ L) (hlt : r2.1.2 < r1.1.2) :
    r1.2 ≤ r2.2 := by
  by_contra hd
  have hd' : r2.2 < r1.2 := Nat.lt_of_not_le hd
  have hne : r2 ≠ r1 := by
    intro h
    rw [h] at hlt
    exact lt_irrefl _ hlt
  obtain ⟨L1, hp1⟩ := exists_perm_cons_of_mem h1
  have h2' : r2 ∈ L1 := by
    rcases List.mem_cons.1 (hp1.subset h2) with h | h
    · exact absurd h hne
    · exact h
  obtain ⟨L2, hp2⟩ := exists_perm_cons_of_mem h2'
  have hp : L.Perm (r1 :: r2 :: L2) := hp1.trans (hp2.cons r1)
  have hcost : pairCost (L.map (fun r => (r.1.2, r.2))) =
      r1.1.2 * (r1.2 : Int) + (r2.1.2 * (r2.2 : Int) +
        pairCost (L2.map (fun r => (r.1.2, r.2)))) := by
    rw [pairCost_perm (hp.map _)]
    simp [pairCost_cons]
  have hbound := greedy_le_pairCost hg
    ((r1.1.2, r2.2) :: (r2.1.2, r1.2) :: L2.map (fun r => (r.1.2, r.2))) S
    (by
      have := (hp.map (fun r => r.1.2)).symm.trans hW
      simpa [List.map_map, Function.comp_def] using this)
    (by
      rw [hS]
      have := hp.map Prod.snd
      refine this.trans ?_
      simpa [List.map_map, Function.comp_def] using List.Perm.swap r2.2 r1.2 (L2.map Prod.snd))
  rw [← hc, hcost, pairCost_cons, pairCost_cons] at hbound
  simp only at hbound
  have hd2 : (r2.2 : Int) < (r1.2 : Int) := by exact_mod_cast hd'
  nlinarith [mul_pos (sub_pos.2 hlt) (sub_pos.2 hd2)]

theorem eq_of_mem_of_nodup_keys {F : List (Byte × Int)} (hnd : (F.map Prod.fst).Nodup)
    {s : Byte} {k k' : Int} (h1 : (s, k) ∈ F) (h2 : (s, k') ∈ F) : k = k' := by
  have := List.inj_on_of_nodup_map hnd h1 h2 rfl
  exact (Prod.mk.inj this).2

/-! ## Round trip and prefix code -/

/-- C1, as amended: for every byte sequence `B` that contains neither the byte `0` nor the
byte `13` (`EOD`) and that `huff` compresses (the header size `8 + 5 * N` is smaller than the
length of `B`), `huff` writes a container and `unhuff` decodes that container to exactly `B`.
This includes every input made of one repeated byte value other than `0` and `13`. -/
theorem huff_unhuff_round_trip (H : HeapAlgorithms) (hH : H.Lawful) (B : List Byte)
    (hB : ∀ b ∈ B, b ≠ 0 ∧ b ≠ EOD)
    (hsize : compressedHeader (countFrequency B) < B.length) :
    ∃ container,
      huff H B = some { console := [], file := some container, status := 0 } ∧
      unhuff H container = some { console := [], file := some B, status := 0 } := by
  have hne : B ≠ [] := by
    intro h
    rw [h] at hsize
    simp at hsize
  obtain ⟨b0, hb0⟩ := List.exists_mem_of_ne_nil B hne
  have hlen := countFrequency_length_ge B b0 hb0 (hB b0 hb0).2
  obtain ⟨root, hroot, hws, hleaf, hperm⟩ :=
    createHuffmanTree_spec hH (countFrequency B) hlen
  have hF := countFrequency_isFrequencyMap B
  have hkeys : (root.entries.map Prod.fst).Perm ((countFrequency B).map Prod.fst) := hperm.map _
  have hnd : (root.entries.map Prod.fst).Nodup := hkeys.nodup_iff.2 hF.nodup_keys
  refine ⟨_, huff_container H B root hsize hroot, ?_⟩
  rw [unhuff_header _ hF, hroot]
  simp only [Option.some_bind]
  rw [decode_payload root hws hleaf hnd B ?_ ?_]
  · intro b hb
    exact ⟨(hB b hb).1, (hB b hb).2,
      hkeys.symm.subset ((countFrequency_keys B b).2 (Or.inr hb))⟩
  · exact hkeys.symm.subset ((countFrequency_keys B EOD).2 (Or.inl rfl))

set_option maxRecDepth 100000 in
/-- Witness of C1 (amended) on `sampleInput`, the text `aaab` repeated six times. -/
theorem huff_unhuff_round_trip_witness :
    (sortedHeap.Lawful ∧ (∀ b ∈ sampleInput, b ≠ 0 ∧ b ≠ EOD) ∧
      compressedHeader (countFrequency sampleInput) < sampleInput.length) ∧
    ∃ container,
      huff sortedHeap sampleInput =
        some { console := [], file := some container, status := 0 } ∧
      unhuff sortedHeap container =
        some { console := [], file := some sampleInput, status := 0 } :=
  ⟨⟨sortedHeap_lawful, by decide, by decide⟩,
    huff_unhuff_round_trip sortedHeap sortedHeap_lawful sampleInput (by decide) (by decide)⟩

set_option maxRecDepth 100000 in
/-- Counterexample to C1 as stated: nineteen bytes `a` followed by the byte `13` are
compressed (header 18 < 20), and decoding stops at that byte, so the last byte is lost;
twenty-four bytes `a` followed by the byte `0` are compressed (header 23 < 25), and the byte
`0` has no code, so it is lost. -/
theorem round_trip_counterexample :
    (compressedHeader (countFrequency (List.replicate 19 97 ++ [13])) <
        (List.replicate 19 (97 : Byte) ++ [13]).length ∧
      roundTrip sortedHeap (List.replicate 19 97 ++ [13]) = some (List.replicate 19 97) ∧
      roundTrip sortedHeap (List.replicate 19 97 ++ [13]) ≠
        some (List.replicate 19 97 ++ [13])) ∧
    (compressedHeader (countFrequency (List.replicate 24 97 ++ [0])) <
        (List.replicate 24 (97 : Byte) ++ [0]).length ∧
      roundTrip sortedHeap (List.replicate 24 97 ++ [0]) = some (List.replicate 24 97) ∧
      roundTrip sortedHeap (List.replicate 24 97 ++ [0]) ≠
        some (List.replicate 24 97 ++ [0])) := by
  decide

/-- C2: for every frequency table with at least two entries, `createHuffmanTree` returns a
tree, and in the symbol-to-path table that `createPath` produces on it the paths of two
distinct symbols are distinct, neither is an initial segment of the other, and no path is
empty. -/
theorem prefix_code_invariant (H : HeapAlgorithms) (hH : H.Lawful) (F : List (Byte × Int))
    (hF : 2 ≤ F.length) :
    ∃ root, createHuffmanTree H F = some root ∧
      ∀ s1 p1 s2 p2, (s1, p1) ∈ createPath root [] [] → (s2, p2) ∈ createPath root [] [] →
        s1 ≠ s2 → ¬ p1 <+: p2 ∧ ¬ p2 <+: p1 ∧ p1 ≠ p2 ∧ p1 ≠ [] := by
  obtain ⟨root, hroot, hws, hleaf, _⟩ := createHuffmanTree_spec hH F hF
  refine ⟨root, hroot, ?_⟩
  have hsub : (root.labels []).Sublist (root.leafPaths []) := by
    rw [node.labels_eq_filter root hws]
    exact List.filter_sublist _
  have hmem : ∀ e, e ∈ createPath root [] [] → e ∈ root.leafPaths [] := by
    intro e he
    rw [createPath_eq_foldl] at he
    rcases mem_foldl_pathAssign _ _ _ he with h | h
    · simp at h
    · exact hsub.subset h
  intro s1 p1 s2 p2 h1 h2 hne
  have hsym : Symmetric (fun a b : Byte × List Char => Unrelated a.2 b.2) :=
    fun _ _ h => h.symm
  have hun : Unrelated p1 p2 :=
    (node.leafPaths_pairwise root []).forall hsym (hmem _ h1) (hmem _ h2)
      (fun h => hne (Prod.mk.inj h).1)
  refine ⟨hun.1, hun.2, ?_, node.leafPaths_ne_nil root hleaf _ (hmem _ h1)⟩
  intro heq
  apply hun.1
  rw [heq]

/-- Witness of C2 on `sampleTable`, the table of the input `aaab`. -/
theorem prefix_code_invariant_witness :
    (sortedHeap.Lawful ∧ 2 ≤ sampleTable.length) ∧
    ∃ root, createHuffmanTree sortedHeap sampleTable = some root ∧
      ∀ s1 p1 s2 p2, (s1, p1) ∈ createPath root [] [] → (s2, p2) ∈ createPath root [] [] →
        s1 ≠ s2 → ¬ p1 <+: p2 ∧ ¬ p2 <+: p1 ∧ p1 ≠ p2 ∧ p1 ≠ [] :=
  ⟨⟨sortedHeap_lawful, by decide⟩,
    prefix_code_invariant sortedHeap sortedHeap_lawful sampleTable (by decide)⟩

/-! ## Skip decision, container size and format errors -/

/-- The skip decision of `huff`: the program prints "File will not compress" and opens no
output file exactly when the header is not smaller than the input. -/
theorem huff_skip_iff (H : HeapAlgorithms) (B : List Byte) :
    huff H B = some { console := ["File will not compress"], file := none, status := 0 } ↔
      ¬ (8 + 5 * (countFrequency B).length < B.length) := by
  have hh : compressedHeader (countFrequency B) = 8 + 5 * (countFrequency B).length := by
    unfold compressedHeader
    omega
  unfold huff
  simp only [Nat.mul_one, hh]
  by_cases h : 8 + 5 * (countFrequency B).length < B.length
  · simp only [h, if_true, not_true_eq_false, iff_false]
    cases createHuffmanTree H (countFrequency B) with
    | none => simp
    | some root => simp
  · simp [h]

theorem createHuffmanTree_single (H : HeapAlgorithms) (hH : H.Lawful) (it : Byte × Int) :
    createHuffmanTree H [it] = none := by
  obtain ⟨hr, hperm⟩ := leaves_spec hH [it]
  have hq : (createHuffmanTree.leaves H [it]).1 = [leafNode it] := by
    simpa using hperm
  simp only [createHuffmanTree]
  rw [hq] at hr ⊢
  obtain ⟨q1, hpop, hp1, _⟩ := priority_queue.pop_cons hH hr
  have : q1 = [] := by simpa using hp1
  subst this
  simp [createHuffmanTree.merge, priority_queue.top, hpop]

theorem countFrequency_replicate_EOD (n : Nat) :
    ∃ k, countFrequency (List.replicate n EOD) = [(EOD, k)] := by
  have hF := countFrequency_isFrequencyMap (List.replicate n EOD)
  have hk := countFrequency_keys (List.replicate n EOD)
  have hnd := hF.nodup_keys
  have hall : ∀ x ∈ (countFrequency (List.replicate n EOD)).map Prod.fst, x = EOD := by
    intro x hx
    rcases (hk x).1 hx with h | h
    · exact h
    · exact (List.mem_replicate.1 h).2
  have hmem : EOD ∈ (countFrequency (List.replicate n EOD)).map Prod.fst :=
    (hk EOD).2 (Or.inl rfl)
  match hc : countFrequency (List.replicate n EOD), hnd, hall, hmem with
  | [], _, _, hmem => simp at hmem
  | [(a, k)], _, hall, _ =>
    have : a = EOD := hall a (by simp)
    exact ⟨k, by rw [this]⟩
  | (a, _) :: (b, _) :: _, hnd, hall, _ =>
    have h1 : a = EOD := hall a (by simp)
    have h2 : b = EOD := hall b (by simp)
    simp [h1, h2] at hnd

/-- C4, the failing input: an input of `n` bytes all equal to `EOD` with `14 ≤ n` has a
one-entry table, so the header size 13 is smaller than the input and `huff` takes the
compression branch; `createHuffmanTree` then reads `top()` of the queue it has just emptied,
and no container is written. -/
theorem huff_all_EOD_undefined (H : HeapAlgorithms) (hH : H.Lawful) (n : Nat) (hn : 14 ≤ n) :
    8 + 5 * (countFrequency (List.replicate n EOD)).length < (List.replicate n EOD).length ∧
      huff H (List.replicate n EOD) = none := by
  obtain ⟨k, hk⟩ := countFrequency_replicate_EOD n
  constructor
  · rw [hk]
    simp
    omega
  · unfold huff
    rw [hk]
    have hsize : compressedHeader [(EOD, k)] < (List.replicate n EOD).length * 1 := by
      simp [compressedHeader]
      omega
    simp only [hsize, if_true, createHuffmanTree_single H hH]
    rfl

/-- Witness of `huff_all_EOD_undefined` on fourteen bytes `13`. -/
theorem huff_all_EOD_undefined_witness :
    (sortedHeap.Lawful ∧ 14 ≤ 14) ∧
    8 + 5 * (countFrequency (List.replicate 14 EOD)).length <
        (List.replicate 14 EOD).length ∧
      huff sortedHeap (List.replicate 14 EOD) = none :=
  ⟨⟨sortedHeap_lawful, le_refl _⟩, huff_all_EOD_undefined sortedHeap sortedHeap_lawful 14 (le_refl _)⟩

/-- C5, as amended: if `huff` writes a container, the container is the header of
`8 + 5 * N` bytes followed by the packed payload, and the header is strictly shorter than the
input. -/
theorem huff_header_smaller (H : HeapAlgorithms) (B : List Byte) (o : Outcome)
    (container : List Byte) (ho : huff H B = some o) (hfile : o.file = some container) :
    ∃ payload, container = (writeToBinary.new (countFrequency B)).out ++ payload ∧
      (writeToBinary.new (countFrequency B)).out.length = 8 + 5 * (countFrequency B).length ∧
      8 + 5 * (countFrequency B).length < B.length := by
  have hh : compressedHeader (countFrequency B) = 8 + 5 * (countFrequency B).length := by
    unfold compressedHeader
    omega
  by_cases hsize : compressedHeader (countFrequency B) < B.length
  · cases hroot : createHuffmanTree H (countFrequency B) with
    | none =>
      unfold huff at ho
      simp [hsize, hroot] at ho
    | some root =>
      rw [huff_container H B root hsize hroot] at ho
      have ho2 := Option.some.inj ho
      rw [← ho2] at hfile
      simp only [Option.some.injEq] at hfile
      exact ⟨_, hfile.symm, new_out_length _, by omega⟩
  · unfold huff at ho
    simp only [Nat.mul_one, hsize, if_false, Option.some.injEq] at ho
    rw [← ho] at hfile
    simp at hfile

set_option maxRecDepth 100000 in
/-- Witness of C5 (amended) on `sampleInput`, twenty-four bytes encoded in twenty-seven. -/
theorem huff_header_smaller_witness :
    (huff sortedHeap sampleInput =
        some { console := [], file := some sampleContainer, status := 0 } ∧
      (some sampleContainer : Option (List Byte)) = some sampleContainer) ∧
    ∃ payload,
      sampleContainer = (writeToBinary.new (countFrequency sampleInput)).out ++ payload ∧
      (writeToBinary.new (countFrequency sampleInput)).out.length =
        8 + 5 * (countFrequency sampleInput).length ∧
      8 + 5 * (countFrequency sampleInput).length < sampleInput.length :=
  ⟨⟨by decide, rfl⟩,
    huff_header_smaller sortedHeap sampleInput
      { console := [], file := some sampleContainer, status := 0 } sampleContainer
      (by decide) rfl⟩

set_option maxRecDepth 100000 in
/-- Counterexample to C5 as stated: nineteen bytes `a` are compressed (header 18 < 19) into
a container of 21 bytes, which is longer than the input. -/
theorem container_longer_counterexample :
    (huff sortedHeap (List.replicate 19 97)).map (fun o => o.file.map List.length) =
        some (some 21) ∧
      ¬ (21 < (List.replicate 19 (97 : Byte)).length) := by
  decide

theorem unhuff_wrong_magic (H : HeapAlgorithms) (file : List Byte) (hlen : 4 ≤ file.length)
    (hmagic : file.take 4 ≠ intBytes MAGIC_NUMBER) :
    unhuff H file =
      some { console := ["Input file was not Huffman Endoded."], file := none, status := 0 } := by
  match file, hlen, hmagic with
  | m0 :: m1 :: m2 :: m3 :: rest, _, hmagic =>
    have hne : ¬ readInt m0 m1 m2 m3 = MAGIC_NUMBER := by
      intro h
      apply hmagic
      simpa using (readInt_eq_magic m0 m1 m2 m3).1 h
    unfold unhuff
    simp only [hne, if_false]

/-- C6: for every input file of at least four bytes whose first four bytes are not the magic
number, `unhuff` prints the format error and stops: nothing after the first four bytes is
read (the outcome does not depend on it), no tree is built, and the output file is never
opened. -/
theorem unhuff_format_error (H : HeapAlgorithms) (file : List Byte) (hlen : 4 ≤ file.length)
    (hmagic : file.take 4 ≠ intBytes MAGIC_NUMBER) :
    unhuff H file =
      some { console := ["Input file was not Huffman Endoded."], file := none, status := 0 } :=
  unhuff_wrong_magic H file hlen hmagic

/-- Witness of C6 on a file that starts with four zero bytes. -/
theorem unhuff_format_error_witness :
    (4 ≤ ([0, 0, 0, 0, 1, 0, 0, 0, 97, 1, 0, 0, 0] : List Byte).length ∧
      ([0, 0, 0, 0, 1, 0, 0, 0, 97, 1, 0, 0, 0] : List Byte).take 4 ≠ intBytes MAGIC_NUMBER) ∧
    unhuff sortedHeap [0, 0, 0, 0, 1, 0, 0, 0, 97, 1, 0, 0, 0] =
      some { console := ["Input file was not Huffman Endoded."], file := none, status := 0 } :=
  ⟨⟨by decide, by decide⟩, unhuff_format_error sortedHeap _ (by decide) (by decide)⟩

/-- C7, as amended: for every input file that can be opened, has at least four bytes and
whose first four bytes are not the magic number, `main -unhuff` prints the format error and
returns the exit code `0`. -/
theorem main_unhuff_format_error_status (H : HeapAlgorithms) (file : List Byte)
    (hlen : 4 ≤ file.length) (hmagic : file.take 4 ≠ intBytes MAGIC_NUMBER) :
    ∃ o, main H "-unhuff" (some file) = some o ∧
      o.console = ["Input file was not Huffman Endoded."] ∧ o.status = 0 := by
  refine ⟨{ console := ["Input file was not Huffman Endoded."], file := none, status := 0 },
    ?_, rfl, rfl⟩
  unfold main
  rw [if_neg (by decide), if_pos rfl]
  exact unhuff_wrong_magic H file hlen hmagic

/-- Witness of C7 (amended) on a file of four zero bytes. -/
theorem main_unhuff_format_error_status_witness :
    (4 ≤ ([0, 0, 0, 0] : List Byte).length ∧
      ([0, 0, 0, 0] : List Byte).take 4 ≠ intBytes MAGIC_NUMBER) ∧
    ∃ o, main sortedHeap "-unhuff" (some [0, 0, 0, 0]) = some o ∧
      o.console = ["Input file was not Huffman Endoded."] ∧ o.status = 0 :=
  ⟨⟨by decide, by decide⟩,
    main_unhuff_format_error_status sortedHeap _ (by decide) (by decide)⟩

/-- Counterexample to C7 as stated: on a file of four zero bytes, whose magic number is
mismatched, `main -unhuff` returns `0`. -/
theorem main_unhuff_status_counterexample :
    main sortedHeap "-unhuff" (some [0, 0, 0, 0]) =
      some { console := ["Input file was not Huffman Endoded."], file := none, status := 0 } := by
  decide

/-! ## Bit writer, header and frequency table -/

theorem packBits_getElem? : ∀ (i : Nat) (s : List Bool),
    (packBits s)[i]? =
      if 8 * i < s.length then some (groupByte ((s.drop (8 * i)).take 8)) else none := by
  intro i
  induction i with
  | zero =>
    intro s
    cases s with
    | nil => simp [packBits_nil]
    | cons b bs => simp [packBits_cons]
  | succ i ih =>
    intro s
    cases s with
    | nil => simp [packBits_nil]
    | cons b bs =>
      rw [packBits_cons, List.getElem?_cons_succ, ih, List.length_drop, List.drop_drop]
      have h8 : 8 + 8 * i = 8 * (i + 1) := by ring
      rw [h8]
      by_cases h : 8 * (i + 1) < (b :: bs).length
      · rw [if_pos h, if_pos (by omega)]
      · rw [if_neg h, if_neg (by omega)]

/-- C9: after any sequence of paths has been written with `write` and the writer has been
finalised, the file holds the header followed by the payload, and the payload is the
concatenation of the bits of all paths split into groups of eight, each group stored in one
byte most significant bit first, the last partial group padded with zero bits on the
low-order side; for `n` bits it has exactly `⌈n / 8⌉` bytes (no padding byte when `n` is a
multiple of eight), the `i`-th of which stores the bits `8 * i` to `8 * i + 7`. -/
theorem bit_writer_packing (frequency : List (Byte × Int)) (paths : List (List Char)) :
    (paths.foldl writeToBinary.write (writeToBinary.new frequency)).close =
        (writeToBinary.new frequency).out ++ packBits (paths.flatten.map bitOf) ∧
      (packBits (paths.flatten.map bitOf)).length = (paths.flatten.length + 7) / 8 ∧
      ∀ i, 8 * i < paths.flatten.length →
        (packBits (paths.flatten.map bitOf))[i]? =
          some (groupByte (((paths.flatten.map bitOf).drop (8 * i)).take 8)) := by
  refine ⟨?_, ?_, ?_⟩
  · rw [foldl_write, new_write_close]
  · rw [packBits_length, List.length_map]
  · intro i hi
    rw [packBits_getElem?, if_pos (by rw [List.length_map]; exact hi)]

/-- C10: for every well-formed frequency table `F` (keys ascending, counts in the range of a
32 bit `int`) with `N` entries, the header written by the constructor of `writeToBinary` is
the four bytes of the magic number, the four bytes of `N`, and the `N` pairs (symbol: one
byte, count: four bytes) in the order of `F`, `8 + 5 * N` bytes in all; the loop of `unhuff`
that reads the pairs rebuilds exactly `F`, and `unhuff` builds its tree with
`createHuffmanTree` from `F`, as `huff` does. -/
theorem header_round_trip (H : HeapAlgorithms) (F : List (Byte × Int))
    (hF : IsFrequencyMap F) (payload : List Byte) :
    (writeToBinary.new F).out =
        intBytes MAGIC_NUMBER ++ intBytes (F.length : Int) ++
          F.flatMap (fun it => it.1 :: intBytes it.2) ∧
      (writeToBinary.new F).out.length = 8 + 5 * F.length ∧
      readPairs F.length (F.flatMap (fun it => it.1 :: intBytes it.2) ++ payload) [] =
        some (F, payload) ∧
      unhuff H ((writeToBinary.new F).out ++ payload) =
        (createHuffmanTree H F).bind (fun root =>
          some { console := [],
                 file := some (decodeLoop (createPathInv root [] []) payload
                   { currPath := [], isEOD := false, out := [] }).out,
                 status := 0 }) := by
  have hlen := hF.length_le
  have hw : wrapInt (F.length : Int) = F.length := wrapInt_of_range _ (by omega) (by omega)
  refine ⟨?_, new_out_length F, ?_, unhuff_header F hF payload⟩
  · rw [new_out, hw]
  · rw [readPairs_flatMap F hF.2 payload [], foldl_mapAssign_sorted F [] (by simpa using hF.1)]
    rfl

/-- Witness of C10 on `sampleTable`. -/
theorem header_round_trip_witness :
    IsFrequencyMap sampleTable ∧
    ((writeToBinary.new sampleTable).out =
        intBytes MAGIC_NUMBER ++ intBytes (sampleTable.length : Int) ++
          sampleTable.flatMap (fun it => it.1 :: intBytes it.2) ∧
      (writeToBinary.new sampleTable).out.length = 8 + 5 * sampleTable.length ∧
      readPairs sampleTable.length
          (sampleTable.flatMap (fun it => it.1 :: intBytes it.2) ++ [239, 123]) [] =
        some (sampleTable, [239, 123]) ∧
      unhuff sortedHeap ((writeToBinary.new sampleTable).out ++ [239, 123]) =
        (createHuffmanTree sortedHeap sampleTable).bind (fun root =>
          some { console := [],
                 file := some (decodeLoop (createPathInv root [] []) [239, 123]
                   { currPath := [], isEOD := false, out := [] }).out,
                 status := 0 })) :=
  have h : IsFrequencyMap sampleTable := by
    unfold IsFrequencyMap sampleTable
    constructor
    · decide
    · decide
  ⟨h, header_round_trip sortedHeap sampleTable h [239, 123]⟩

/-- C8, as amended: for every byte sequence `B` of at most `2^31 - 2` bytes, the table built
by `huff` has strictly ascending keys, which are exactly the distinct bytes of `B` together
with `EOD`; the count of every byte other than `EOD` is its number of occurrences in `B`, the
count of `EOD` is one more than the number of occurrences of the byte `13` in `B`, and the
counts sum to the length of `B` plus one. -/
theorem frequency_table_counts (B : List Byte) (hB : B.length + 1 < 2147483648) :
    IsFrequencyMap (countFrequency B) ∧
      (∀ b, b ∈ (countFrequency B).map Prod.fst ↔ b = EOD ∨ b ∈ B) ∧
      (∀ b, b ≠ EOD → b ∈ B → (countFrequency B).lookup b = some (B.count b : Int)) ∧
      (countFrequency B).lookup EOD = some ((B.count EOD : Int) + 1) ∧
      ((countFrequency B).map Prod.snd).sum = (B.length : Int) + 1 := by
  refine ⟨countFrequency_isFrequencyMap B, countFrequency_keys B, ?_, ?_, ?_⟩
  · intro b hb hmem
    have hpos : B.count b ≠ 0 := by
      have := List.count_pos_iff.2 hmem
      omega
    have hle : B.count b ≤ B.length := List.count_le_length _ _
    rw [lookup_countFrequency, if_neg hb, if_neg hpos,
      wrapInt_of_range _ (by omega) (by omega)]
  · have hle : B.count EOD ≤ B.length := List.count_le_length _ _
    rw [lookup_countFrequency, if_pos rfl, wrapInt_of_range _ (by omega) (by omega)]
  · obtain ⟨h1, h2⟩ := sum_foldl_mapIncr B [] (by simp) (by simp; omega)
    obtain ⟨h3, _⟩ := sum_mapIncr EOD _ (B.length : Int) h2 (by rw [h1]; simp) (by omega)
    unfold countFrequency
    rw [h3, h1]
    simp

/-- Witness of C8 (amended) on `sampleInput`. -/
theorem frequency_table_counts_witness :
    sampleInput.length + 1 < 2147483648 ∧
    (IsFrequencyMap (countFrequency sampleInput) ∧
      (∀ b, b ∈ (countFrequency sampleInput).map Prod.fst ↔ b = EOD ∨ b ∈ sampleInput) ∧
      (∀ b, b ≠ EOD → b ∈ sampleInput →
        (countFrequency sampleInput).lookup b = some (sampleInput.count b : Int)) ∧
      (countFrequency sampleInput).lookup EOD = some ((sampleInput.count EOD : Int) + 1) ∧
      ((countFrequency sampleInput).map Prod.snd).sum = (sampleInput.length : Int) + 1) :=
  ⟨by decide, frequency_table_counts sampleInput (by decide)⟩

/-- Counterexample to C8 as stated: on an input of `2^31` bytes `a` the `int` count of `a`
has wrapped around to `-2^31`, while `a` occurs `2^31` times. -/
theorem frequency_count_counterexample :
    (countFrequency (List.replicate 2147483648 (97 : Byte))).lookup 97 =
        some (-2147483648) ∧
      (List.replicate 2147483648 (97 : Byte)).count 97 = 2147483648 := by
  constructor
  · rw [lookup_countFrequency, if_neg (by decide), List.count_replicate_self,
      if_neg (by decide)]
    exact congrArg some (by decide)
  · exact List.count_replicate_self _ _

/-! ## Optimality of the tree -/

/-- C3, as amended: for every frequency table with at least two entries and non-negative
counts whose sum is at most `2^31 - 1`, `createHuffmanTree` returns a tree whose leaves are
exactly the entries of the table and whose weighted path length (sum over the leaves of count
times depth) is minimal: no tree whose leaves are exactly the entries of the table has a
smaller weighted path length. -/
theorem createHuffmanTree_optimal (H : HeapAlgorithms) (hH : H.Lawful) (F : List (Byte × Int))
    (hF : 2 ≤ F.length) (hpos : ∀ it ∈ F, 0 ≤ it.2)
    (hsum : (F.map Prod.snd).sum < 2147483648) :
    ∃ root, createHuffmanTree H F = some root ∧ root.entries.Perm F ∧
      ∀ u : node, u.entries.Perm F → root.wpl ≤ u.wpl := by
  obtain ⟨q, root, hperm, hroot, hb⟩ := createHuffmanTree_builds hH F hF
  have hleaf : ∀ t ∈ q, ∃ it ∈ F, t = leafNode it := by
    intro t ht
    obtain ⟨it, hit, rfl⟩ := List.mem_map.1 (hperm.subset ht)
    exact ⟨it, hit, rfl⟩
  have hweight : ∀ it : Byte × Int, (leafNode it).weight = it.2 := by
    intro it
    simp [leafNode, node.weight, node.entries, node.isNull]
  have hq : ∀ t ∈ q, t.isNull = false ∧ t.count = t.weight ∧ 0 ≤ t.weight := by
    intro t ht
    obtain ⟨it, hit, rfl⟩ := hleaf t ht
    refine ⟨rfl, ?_, ?_⟩
    · rw [hweight]
      rfl
    · rw [hweight]
      exact hpos it hit
  have hW : (q.map node.weight).Perm (F.map Prod.snd) := by
    have h1 := hperm.map node.weight
    have h2 : (F.map leafNode).map node.weight = F.map Prod.snd := by
      rw [List.map_map]
      exact List.map_congr_left (fun it _ => hweight it)
    rw [h2] at h1
    exact h1
  have hwpl0 : (q.map node.wpl).sum = 0 := by
    apply List.sum_eq_zero
    intro x hx
    obtain ⟨t, ht, rfl⟩ := List.mem_map.1 hx
    obtain ⟨it, _, rfl⟩ := hleaf t ht
    simp [leafNode, node.wpl, node.wplAt, node.isNull]
  obtain ⟨c, hg, hcost⟩ := hb.cost hq (by rw [hW.sum_eq]; exact hsum)
  rw [hwpl0, zero_add] at hcost
  obtain ⟨hent, _⟩ := hb.entries_perm (fun t ht => (hq t ht).1)
  have hent2 : root.entries.Perm F := by
    have h1 := List.Perm.flatMap_right node.entries hperm
    rw [flatMap_entries_leafNode] at h1
    exact hent.trans h1
  refine ⟨root, hroot, hent2, ?_⟩
  intro u hu
  have hunull : u.isNull = false := by
    cases u with
    | null =>
      have := hu.length_eq
      simp [node.entries] at this
      omega
    | mk _ _ _ _ => rfl
  obtain ⟨S, hlen, hle⟩ := node.shape_le_wplAt u hunull
    (fun e he => hpos e (hu.subset he)) 0
  have hfst : (List.zip (u.entries.map Prod.snd) (S.depths 0)).map Prod.fst =
      u.entries.map Prod.snd :=
    List.map_fst_zip _ _ (by rw [List.length_map, hlen])
  have hsnd : (List.zip (u.entries.map Prod.snd) (S.depths 0)).map Prod.snd = S.depths 0 :=
    List.map_snd_zip _ _ (by rw [List.length_map, hlen])
  have hbound := greedy_le_pairCost hg (List.zip (u.entries.map Prod.snd) (S.depths 0)) S
    (by rw [hfst]; exact (hu.map Prod.snd).trans hW.symm)
    (by rw [hsnd])
  rw [hcost]
  exact le_trans hbound hle

/-- Witness of C3 (amended) on `sampleTable`. -/
theorem createHuffmanTree_optimal_witness :
    (sortedHeap.Lawful ∧ 2 ≤ sampleTable.length ∧ (∀ it ∈ sampleTable, 0 ≤ it.2) ∧
      (sampleTable.map Prod.snd).sum < 2147483648) ∧
    ∃ root, createHuffmanTree sortedHeap sampleTable = some root ∧
      root.entries.Perm sampleTable ∧
      ∀ u : node, u.entries.Perm sampleTable → root.wpl ≤ u.wpl :=
  ⟨⟨sortedHeap_lawful, by decide, by decide, by decide⟩,
    createHuffmanTree_optimal sortedHeap sortedHeap_lawful sampleTable (by decide) (by decide)
      (by decide)⟩

/-- Counterexample to C3 as stated: the four counts of `overflowTable` are non-negative, but
the count of the first merged node, `2^30 + 2^30`, does not fit an `int` and wraps to a
negative number; that node is then taken first at every step, and the returned tree has
weighted path length `9 * 2^30`, more than the `8 * 2^30` of the balanced tree over the same
leaves. -/
theorem createHuffmanTree_overflow_counterexample :
    2 ≤ overflowTable.length ∧ (∀ it ∈ overflowTable, 0 ≤ it.2) ∧
      balancedTree.entries = overflowTable ∧
      (createHuffmanTree sortedHeap overflowTable).map node.wpl = some 9663676416 ∧
      balancedTree.wpl = 8589934592 ∧ balancedTree.wpl < 9663676416 := by
  decide

/-! ## Decoder, restricted round trip and characterisation -/

/-- C11: for every well-formed header (table `F`, tree `root`) and payload in which the
decoder has matched the `EOD` code within the first `n` bits, the decoded output is the
sequence of symbols matched within those bits, and it is the same for every other payload
that agrees on the first `n` bits: bits and bytes after the match, padding or trailing data,
are discarded. -/
theorem decoder_stops_at_EOD (H : HeapAlgorithms) (F : List (Byte × Int))
    (hF : IsFrequencyMap F) (root : node) (hroot : createHuffmanTree H F = some root)
    (payload payload' : List Byte) (n : Nat)
    (hsame : (payload'.flatMap byteChars).take n = (payload.flatMap byteChars).take n)
    (hE : (((payload.flatMap byteChars).take n).foldl (decodeStep (createPathInv root [] []))
      { currPath := [], isEOD := false, out := [] }).isEOD = true) :
    unhuff H ((writeToBinary.new F).out ++ payload) =
        some { console := []
               file := some (((payload.flatMap byteChars).take n).foldl
                 (decodeStep (createPathInv root [] []))
                 { currPath := [], isEOD := false, out := [] }).out
               status := 0 } ∧
      unhuff H ((writeToBinary.new F).out ++ payload') =
        unhuff H ((writeToBinary.new F).out ++ payload) := by
  have key : ∀ q : List Byte,
      (q.flatMap byteChars).take n = (payload.flatMap byteChars).take n →
      decodeLoop (createPathInv root [] []) q { currPath := [], isEOD := false, out := [] } =
        ((payload.flatMap byteChars).take n).foldl (decodeStep (createPathInv root [] []))
          { currPath := [], isEOD := false, out := [] } := by
    intro q hq
    rw [decodeLoop_eq]
    conv_lhs => rw [← List.take_append_drop n (q.flatMap byteChars)]
    rw [List.foldl_append, hq]
    exact foldl_decodeStep_stopped _ _ _ hE
  rw [unhuff_header F hF, unhuff_header F hF, hroot]
  simp only [Option.some_bind]
  rw [key payload rfl, key payload' hsame]
  exact ⟨rfl, rfl⟩

set_option maxRecDepth 100000 in
/-- Witness of C11 on `sampleTable`: the payload `[0]` starts with the code `00` of `EOD`,
and a payload with other bits and more bytes after the first two bits decodes alike. -/
theorem decoder_stops_at_EOD_witness :
    (IsFrequencyMap sampleTable ∧
      createHuffmanTree sortedHeap sampleTable =
        some (node.new (node.new (leafNode (13, 1)) (leafNode (98, 1))) (leafNode (97, 3))) ∧
      (([63, 255] : List Byte).flatMap byteChars).take 2 =
        (([0] : List Byte).flatMap byteChars).take 2 ∧
      (((([0] : List Byte).flatMap byteChars).take 2).foldl
        (decodeStep (createPathInv
          (node.new (node.new (leafNode (13, 1)) (leafNode (98, 1))) (leafNode (97, 3))) [] []))
        { currPath := [], isEOD := false, out := [] }).isEOD = true) ∧
    (unhuff sortedHeap ((writeToBinary.new sampleTable).out ++ [0]) =
        some { console := []
               file := some ((((([0] : List Byte).flatMap byteChars).take 2).foldl
                 (decodeStep (createPathInv
                   (node.new (node.new (leafNode (13, 1)) (leafNode (98, 1)))
                     (leafNode (97, 3))) [] []))
                 { currPath := [], isEOD := false, out := [] }).out)
               status := 0 } ∧
      unhuff sortedHeap ((writeToBinary.new sampleTable).out ++ [63, 255]) =
        unhuff sortedHeap ((writeToBinary.new sampleTable).out ++ [0])) :=
  have h : IsFrequencyMap sampleTable := by
    unfold IsFrequencyMap sampleTable
    constructor
    · decide
    · decide
  ⟨⟨h, by decide, by decide, by decide⟩,
    decoder_stops_at_EOD sortedHeap sampleTable h _ (by decide) [0] [63, 255] 2
      (by decide) (by decide)⟩

/-- C18: for every byte sequence `B` that contains no byte `0` and no byte `13` and
satisfies `8 + 5 * N < |B|`, where `N` is the number of entries of the frequency table,
decoding the container produced by encoding `B` yields exactly `B`. -/
theorem restricted_round_trip (H : HeapAlgorithms) (hH : H.Lawful) (B : List Byte)
    (h0 : ∀ b ∈ B, b ≠ 0) (h13 : ∀ b ∈ B, b ≠ 13)
    (hsize : 8 + 5 * (countFrequency B).length < B.length) :
    roundTrip H B = some B := by
  have hne : B ≠ [] := by
    intro h
    rw [h] at hsize
    simp at hsize
  obtain ⟨b0, hb0⟩ := List.exists_mem_of_ne_nil B hne
  have hs : compressedHeader (countFrequency B) < B.length := by
    unfold compressedHeader
    omega
  obtain ⟨container, h1, h2⟩ := huff_unhuff_general H hH B ⟨b0, hb0, h13 b0 hb0⟩ hs
  rw [takeWhile_filter_id B (fun b hb => ⟨h0 b hb, h13 b hb⟩)] at h2
  simp [roundTrip, h1, h2]

set_option maxRecDepth 100000 in
/-- Witness of C18 on `sampleInput`. -/
theorem restricted_round_trip_witness :
    (sortedHeap.Lawful ∧ (∀ b ∈ sampleInput, b ≠ 0) ∧ (∀ b ∈ sampleInput, b ≠ 13) ∧
      8 + 5 * (countFrequency sampleInput).length < sampleInput.length) ∧
    roundTrip sortedHeap sampleInput = some sampleInput :=
  ⟨⟨sortedHeap_lawful, by decide, by decide, by decide⟩,
    restricted_round_trip sortedHeap sortedHeap_lawful sampleInput (by decide) (by decide)
      (by decide)⟩

/-- C19: for every byte sequence `B` that is compressed (`8 + 5 * N < |B|`) and contains at
least one byte different from `13`, decoding the container produced by encoding `B` yields
the longest initial segment of `B` that contains no byte `13`, with every byte `0` removed
from it. -/
theorem decode_after_encode (H : HeapAlgorithms) (hH : H.Lawful) (B : List Byte)
    (hne : ∃ b ∈ B, b ≠ 13)
    (hsize : 8 + 5 * (countFrequency B).length < B.length) :
    roundTrip H B =
      some ((B.takeWhile (fun b => decide (b ≠ 13))).filter (fun b => decide (b ≠ 0))) := by
  have hs : compressedHeader (countFrequency B) < B.length := by
    unfold compressedHeader
    omega
  obtain ⟨container, h1, h2⟩ := huff_unhuff_general H hH B hne hs
  simp only [roundTrip, h1, h2, Option.bind_eq_bind, Option.some_bind]
  rfl

set_option maxRecDepth 100000 in
/-- Witness of C19 on `mixedInput`: the output is the three bytes `a` that precede the first
byte `13`, without the byte `0` between them. -/
theorem decode_after_encode_witness :
    (sortedHeap.Lawful ∧ (∃ b ∈ mixedInput, b ≠ 13) ∧
      8 + 5 * (countFrequency mixedInput).length < mixedInput.length) ∧
    roundTrip sortedHeap mixedInput =
      some ((mixedInput.takeWhile (fun b => decide (b ≠ 13))).filter
        (fun b => decide (b ≠ 0))) ∧
    (mixedInput.takeWhile (fun b => decide (b ≠ 13))).filter (fun b => decide (b ≠ 0)) =
      [97, 97, 97] :=
  ⟨⟨sortedHeap_lawful, by decide, by decide⟩,
    decode_after_encode sortedHeap sortedHeap_lawful mixedInput (by decide) (by decide),
    by decide⟩

/-! ## Code tables, single-entry and empty table -/

/-- C12, as amended: for every tree built by `createHuffmanTree` from a table with at least
two entries and distinct symbols, the leaves of the tree carry exactly the symbols of the
table, and `createPath` records, for each leaf whose symbol is not the byte `0`, the path
from the root to that leaf (`'0'` for a left step, `'1'` for a right step), and nothing else:
every symbol of the table other than `0` receives its path as its code, the symbol `0`
receives none. -/
theorem code_table_covers_leaves (H : HeapAlgorithms) (hH : H.Lawful)
    (F : List (Byte × Int)) (hF : 2 ≤ F.length) (hnd : (F.map Prod.fst).Nodup) :
    ∃ root, createHuffmanTree H F = some root ∧
      ((root.leafPaths []).map Prod.fst).Perm (F.map Prod.fst) ∧
      ∀ s p, (createPath root [] []).lookup s = some p ↔
        ((s, p) ∈ root.leafPaths [] ∧ s ≠ 0) := by
  obtain ⟨root, hroot, hws, _, hperm⟩ := createHuffmanTree_spec hH F hF
  have hkeys : (root.entries.map Prod.fst).Perm (F.map Prod.fst) := hperm.map _
  refine ⟨root, hroot, ?_, ?_⟩
  · rw [node.leafPaths_fst]
    exact hkeys
  · intro s p
    rw [createPath_lookup_iff root hws (hkeys.nodup_iff.2 hnd), mem_labels_iff root hws]

/-- Witness of C12 (amended) on `sampleTable`. -/
theorem code_table_covers_leaves_witness :
    (sortedHeap.Lawful ∧ 2 ≤ sampleTable.length ∧ (sampleTable.map Prod.fst).Nodup) ∧
    ∃ root, createHuffmanTree sortedHeap sampleTable = some root ∧
      ((root.leafPaths []).map Prod.fst).Perm (sampleTable.map Prod.fst) ∧
      ∀ s p, (createPath root [] []).lookup s = some p ↔
        ((s, p) ∈ root.leafPaths [] ∧ s ≠ 0) :=
  ⟨⟨sortedHeap_lawful, by decide, by decide⟩,
    code_table_covers_leaves sortedHeap sortedHeap_lawful sampleTable (by decide) (by decide)⟩

/-- Counterexample to C12 as stated: in the tree of `zeroTable` the symbol `0` is a leaf,
reached by the path `1`, and the table of `createPath` has no entry for it. -/
theorem code_table_zero_counterexample :
    2 ≤ zeroTable.length ∧
      (createHuffmanTree sortedHeap zeroTable).map (fun r => r.leafPaths []) =
        some [(13, ['0']), (0, ['1'])] ∧
      (createHuffmanTree sortedHeap zeroTable).map (fun r => createPath r [] []) =
        some [(13, ['0'])] := by
  decide

/-- C13: for every tree built by `createHuffmanTree` from a table with at least two entries
and distinct symbols, the symbol-to-path map of the first `createPath` overload and the
path-to-symbol map of the second overload are mutually inverse: the first maps `s` to `p` if
and only if the second maps `p` to `s`. -/
theorem code_tables_inverse (H : HeapAlgorithms) (hH : H.Lawful)
    (F : List (Byte × Int)) (hF : 2 ≤ F.length) (hnd : (F.map Prod.fst).Nodup) :
    ∃ root, createHuffmanTree H F = some root ∧
      ∀ s p, (createPath root [] []).lookup s = some p ↔
        (createPathInv root [] []).lookup p = some s := by
  obtain ⟨root, hroot, hws, hleaf, hperm⟩ := createHuffmanTree_spec hH F hF
  have hkeys : (root.entries.map Prod.fst).Perm (F.map Prod.fst) := hperm.map _
  have hnd' := hkeys.nodup_iff.2 hnd
  obtain ⟨_, _, _, hdec⟩ := code_tables root hws hleaf hnd'
  refine ⟨root, hroot, ?_⟩
  intro s p
  rw [createPath_lookup_iff root hws hnd', hdec]

/-- Witness of C13 on `sampleTable`. -/
theorem code_tables_inverse_witness :
    (sortedHeap.Lawful ∧ 2 ≤ sampleTable.length ∧ (sampleTable.map Prod.fst).Nodup) ∧
    ∃ root, createHuffmanTree sortedHeap sampleTable = some root ∧
      ∀ s p, (createPath root [] []).lookup s = some p ↔
        (createPathInv root [] []).lookup p = some s :=
  ⟨⟨sortedHeap_lawful, by decide, by decide⟩,
    code_tables_inverse sortedHeap sortedHeap_lawful sampleTable (by decide) (by decide)⟩

/-- C16, the failing input: on every table with exactly one entry `createHuffmanTree` takes
the only node out of the queue and then reads `top()` of the empty queue, so its result is
undefined: no tree and no code, of one bit or more, is defined for the entry.  Such a table
is the one `huff` builds for an input whose bytes all equal `EOD`. -/
theorem createHuffmanTree_single_entry (H : HeapAlgorithms) (hH : H.Lawful) :
    (∀ it : Byte × Int, createHuffmanTree H [it] = none) ∧
      ∀ n : Nat, ∃ k, countFrequency (List.replicate n EOD) = [(EOD, k)] ∧
        createHuffmanTree H (countFrequency (List.replicate n EOD)) = none := by
  refine ⟨fun it => createHuffmanTree_single H hH it, ?_⟩
  intro n
  obtain ⟨k, hk⟩ := countFrequency_replicate_EOD n
  exact ⟨k, hk, by rw [hk]; exact createHuffmanTree_single H hH _⟩

/-- Witness of `createHuffmanTree_single_entry` on the sorted vector queue. -/
theorem createHuffmanTree_single_entry_witness :
    sortedHeap.Lawful ∧
    ((∀ it : Byte × Int, createHuffmanTree sortedHeap [it] = none) ∧
      ∀ n : Nat, ∃ k, countFrequency (List.replicate n EOD) = [(EOD, k)] ∧
        createHuffmanTree sortedHeap (countFrequency (List.replicate n EOD)) = none) :=
  ⟨sortedHeap_lawful, createHuffmanTree_single_entry sortedHeap sortedHeap_lawful⟩

/-- C17, the failing input: the table that `huff` builds is never empty, but `unhuff`, given
a container with the magic number and the pair count `0`, passes the empty table to
`createHuffmanTree`, which returns its uninitialised pointer: the run is undefined, and no
error is reported before the tree builder is reached. -/
theorem unhuff_empty_table (H : HeapAlgorithms) (payload : List Byte) :
    (∀ B : List Byte, countFrequency B ≠ []) ∧
      readPairs 0 payload [] = some ([], payload) ∧
      createHuffmanTree H [] = none ∧
      unhuff H ([255, 255, 255, 255, 0, 0, 0, 0] ++ payload) = none := by
  refine ⟨?_, rfl, rfl, ?_⟩
  · intro B h
    have := (countFrequency_keys B EOD).2 (Or.inl rfl)
    rw [h] at this
    simp at this
  · have hm : readInt 255 255 255 255 = MAGIC_NUMBER := by decide
    have h0 : (readInt 0 0 0 0).toNat = 0 := by decide
    simp only [List.cons_append, List.nil_append]
    rw [unhuff_magic _ _ _ _ _ _ _ _ _ hm, h0]
    rfl

/-! ## Shape of the tree and totality of the builder -/

/-- C14, as amended: for every frequency table with at least two entries, every node of the
tree returned by `createHuffmanTree` is either a leaf (no children) or an internal node with
symbol `0` and exactly two children, whose count is the sum of its two children's counts
computed in 32 bit `int` arithmetic; when the counts of the table are non-negative and sum
to at most `2^31 - 1`, that count is the exact sum, and the root's count equals the sum of
all counts in the table. -/
theorem tree_shape_invariant (H : HeapAlgorithms) (hH : H.Lawful) (F : List (Byte × Int))
    (hF : 2 ≤ F.length) :
    ∃ root, createHuffmanTree H F = some root ∧ root.wellShaped = true ∧
      ((∀ it ∈ F, 0 ≤ it.2) → (F.map Prod.snd).sum < 2147483648 →
        root.exactSums = true ∧ root.count = (F.map Prod.snd).sum) := by
  obtain ⟨q, root, hperm, hroot, hb⟩ := createHuffmanTree_builds hH F hF
  have hleaf : ∀ t ∈ q, ∃ it ∈ F, t = leafNode it := by
    intro t ht
    obtain ⟨it, hit, rfl⟩ := List.mem_map.1 (hperm.subset ht)
    exact ⟨it, hit, rfl⟩
  have hws : ∀ t ∈ q, t.wellShaped = true := by
    intro t ht
    obtain ⟨it, _, rfl⟩ := hleaf t ht
    simp [leafNode, node.wellShaped, node.isNull]
  refine ⟨root, hroot, (hb.all_wellShaped hws).1, ?_⟩
  intro hpos hsum
  have hweight : ∀ it : Byte × Int, (leafNode it).weight = it.2 := by
    intro it
    simp [leafNode, node.weight, node.entries, node.isNull]
  have hW : (q.map node.weight).Perm (F.map Prod.snd) := by
    have h1 := hperm.map node.weight
    have h2 : (F.map leafNode).map node.weight = F.map Prod.snd := by
      rw [List.map_map]
      exact List.map_congr_left (fun it _ => hweight it)
    rw [h2] at h1
    exact h1
  have hq : ∀ t ∈ q,
      t.isNull = false ∧ t.exactSums = true ∧ t.count = t.weight ∧ 0 ≤ t.weight := by
    intro t ht
    obtain ⟨it, hit, rfl⟩ := hleaf t ht
    refine ⟨rfl, by simp [leafNode, node.exactSums, node.isNull], ?_, ?_⟩
    · rw [hweight]
      rfl
    · rw [hweight]
      exact hpos it hit
  obtain ⟨h1, h2⟩ := hb.exact hq (by rw [hW.sum_eq]; exact hsum)
  exact ⟨h1, by rw [h2, hW.sum_eq]⟩

/-- Witness of C14 (amended) on `sampleTable`: the root has the count `5`. -/
theorem tree_shape_invariant_witness :
    (sortedHeap.Lawful ∧ 2 ≤ sampleTable.length ∧ (∀ it ∈ sampleTable, 0 ≤ it.2) ∧
      (sampleTable.map Prod.snd).sum < 2147483648) ∧
    (∃ root, createHuffmanTree sortedHeap sampleTable = some root ∧ root.wellShaped = true ∧
      ((∀ it ∈ sampleTable, 0 ≤ it.2) → (sampleTable.map Prod.snd).sum < 2147483648 →
        root.exactSums = true ∧ root.count = (sampleTable.map Prod.snd).sum)) ∧
    (createHuffmanTree sortedHeap sampleTable).map
      (fun r => (r.wellShaped, r.exactSums, r.count)) = some (true, true, 5) :=
  ⟨⟨sortedHeap_lawful, by decide, by decide, by decide⟩,
    tree_shape_invariant sortedHeap sortedHeap_lawful sampleTable (by decide),
    by decide⟩

/-- Counterexample to C14 as stated: in the tree of `overflowTable` the node that joins the
first two leaves has the count `-2^31`, not the sum `2^31` of its children's counts, and the
root has the count `0`, while the counts of the table sum to `2^32`. -/
theorem tree_counts_counterexample :
    2 ≤ overflowTable.length ∧
      (createHuffmanTree sortedHeap overflowTable).map
          (fun r => (r.wellShaped, r.exactSums, r.count)) = some (true, false, 0) ∧
      (overflowTable.map Prod.snd).sum = 4294967296 := by
  decide

/-- C20: for every frequency table with `N ≥ 2` entries, the merge loop of
`createHuffmanTree` never reads or pops an empty queue (its result is defined), it ends after
exactly `N - 1` merges (a bound of `N` evaluations of the loop condition suffices, a bound of
`N - 1` does not, and the tree has `N - 1` internal nodes), and the returned tree has exactly
`N` leaves, whose symbol and count pairs are exactly the entries of the table, each once. -/
theorem createHuffmanTree_total (H : HeapAlgorithms) (hH : H.Lawful) (F : List (Byte × Int))
    (hF : 2 ≤ F.length) :
    ∃ root, createHuffmanTree H F = some root ∧
      createHuffmanTree.merge H F.length (createHuffmanTree.leaves H F).1
        (createHuffmanTree.leaves H F).2 = some root ∧
      createHuffmanTree.merge H (F.length - 1) (createHuffmanTree.leaves H F).1
        (createHuffmanTree.leaves H F).2 = none ∧
      root.internalCount = F.length - 1 ∧
      root.entries.length = F.length ∧ root.entries.Perm F := by
  obtain ⟨hr, hperm⟩ := leaves_spec hH F
  have hlen : (createHuffmanTree.leaves H F).1.length = F.length := by
    simpa using hperm.length_eq
  obtain ⟨root, hm, hb⟩ := merge_builds hH F.length _ (createHuffmanTree.leaves H F).2 hr
    (by omega) (by omega)
  have hnull : ∀ t ∈ (createHuffmanTree.leaves H F).1, t.isNull = false := by
    intro t ht
    obtain ⟨it, _, rfl⟩ := List.mem_map.1 (hperm.subset ht)
    rfl
  have hic0 : ((createHuffmanTree.leaves H F).1.map node.internalCount).sum = 0 := by
    apply List.sum_eq_zero
    intro x hx
    obtain ⟨t, ht, rfl⟩ := List.mem_map.1 hx
    obtain ⟨it, _, rfl⟩ := List.mem_map.1 (hperm.subset ht)
    simp [leafNode, node.internalCount, node.isNull]
  have hic := hb.internalCount hnull
  rw [hic0, hlen] at hic
  obtain ⟨hent, _⟩ := hb.entries_perm hnull
  have hent2 : root.entries.Perm F := by
    have h1 := List.Perm.flatMap_right node.entries hperm
    rw [flatMap_entries_leafNode] at h1
    exact hent.trans h1
  refine ⟨root, ?_, hm, ?_, by omega, hent2.length_eq, hent2⟩
  · exact merge_fuel_succ H _ _ _ _ hm
  · exact merge_exhausted hH _ _ _ hr (by omega) (by omega)

/-- Witness of C20 on `sampleTable`. -/
theorem createHuffmanTree_total_witness :
    (sortedHeap.Lawful ∧ 2 ≤ sampleTable.length) ∧
    ∃ root, createHuffmanTree sortedHeap sampleTable = some root ∧
      createHuffmanTree.merge sortedHeap sampleTable.length
        (createHuffmanTree.leaves sortedHeap sampleTable).1
        (createHuffmanTree.leaves sortedHeap sampleTable).2 = some root ∧
      createHuffmanTree.merge sortedHeap (sampleTable.length - 1)
        (createHuffmanTree.leaves sortedHeap sampleTable).1
        (createHuffmanTree.leaves sortedHeap sampleTable).2 = none ∧
      root.internalCount = sampleTable.length - 1 ∧
      root.entries.length = sampleTable.length ∧ root.entries.Perm sampleTable :=
  ⟨⟨sortedHeap_lawful, by decide⟩,
    createHuffmanTree_total sortedHeap sortedHeap_lawful sampleTable (by decide)⟩

/-! ## Code length and frequency -/

/-- C15, as amended: for every frequency table with at least two entries, distinct symbols
and non-negative counts whose sum is at most `2^31 - 1`, and any two symbols `s1`, `s2` of
the table with `count(s1) > count(s2)`, the depth of the leaf of `s1` in the tree from
`createHuffmanTree` (the length of its path, which is its code when the symbol is coded) is
less than or equal to that of `s2`. -/
theorem frequent_symbols_shallower (H : HeapAlgorithms) (hH : H.Lawful)
    (F : List (Byte × Int)) (hF : 2 ≤ F.length) (hnd : (F.map Prod.fst).Nodup)
    (hpos : ∀ it ∈ F, 0 ≤ it.2) (hsum : (F.map Prod.snd).sum < 2147483648) :
    ∃ root, createHuffmanTree H F = some root ∧
      ∀ s1 k1 s2 k2 p1 p2, (s1, k1) ∈ F → (s2, k2) ∈ F → k2 < k1 →
        (s1, p1) ∈ root.leafPaths [] → (s2, p2) ∈ root.leafPaths [] →
        p1.length ≤ p2.length := by
  obtain ⟨root, hroot, hws, hent, c, hg, hc⟩ := createHuffmanTree_greedy hH F hF hpos hsum
  refine ⟨root, hroot, ?_⟩
  intro s1 k1 s2 k2 p1 p2 hm1 hm2 hlt hp1 hp2
  obtain ⟨k1', hr1⟩ := node.leafPaths_depth root [] s1 p1 hp1
  obtain ⟨k2', hr2⟩ := node.leafPaths_depth root [] s2 p2 hp2
  simp only [List.length_nil] at hr1 hr2
  have he1 : (s1, k1') ∈ F := by
    apply hent.subset
    rw [← node.leafDepths_fst root 0]
    exact List.mem_map.2 ⟨_, hr1, rfl⟩
  have he2 : (s2, k2') ∈ F := by
    apply hent.subset
    rw [← node.leafDepths_fst root 0]
    exact List.mem_map.2 ⟨_, hr2, rfl⟩
  have e1 : k1' = k1 := eq_of_mem_of_nodup_keys hnd he1 hm1
  have e2 : k2' = k2 := eq_of_mem_of_nodup_keys hnd he2 hm2
  subst e1 e2
  obtain ⟨S, hS⟩ := node.leafDepths_shape root hws 0
  have hW : ((root.leafDepths 0).map (fun r => r.1.2)).Perm (F.map Prod.snd) := by
    have h1 : (root.leafDepths 0).map (fun r => r.1.2) =
        ((root.leafDepths 0).map Prod.fst).map Prod.snd := by
      rw [List.map_map]
      rfl
    rw [h1, node.leafDepths_fst]
    exact hent.map _
  have hcost : pairCost ((root.leafDepths 0).map (fun r => (r.1.2, r.2))) = c := by
    rw [node.leafDepths_cost]
    exact hc
  exact greedy_monotone hg (root.leafDepths 0) S hW hS hcost
    ((s1, k1'), p1.length) ((s2, k2'), p2.length) hr1 hr2 hlt

/-- Witness of C15 (amended) on `sampleTable`, the table of the input `aaab`: the code of
`a` has one bit, the codes of `b` and of `EOD` have two. -/
theorem frequent_symbols_shallower_witness :
    (sortedHeap.Lawful ∧ 2 ≤ sampleTable.length ∧ (sampleTable.map Prod.fst).Nodup ∧
      (∀ it ∈ sampleTable, 0 ≤ it.2) ∧ (sampleTable.map Prod.snd).sum < 2147483648) ∧
    (∃ root, createHuffmanTree sortedHeap sampleTable = some root ∧
      ∀ s1 k1 s2 k2 p1 p2, (s1, k1) ∈ sampleTable → (s2, k2) ∈ sampleTable → k2 < k1 →
        (s1, p1) ∈ root.leafPaths [] → (s2, p2) ∈ root.leafPaths [] →
        p1.length ≤ p2.length) ∧
    (createHuffmanTree sortedHeap sampleTable).map (fun r => createPath r [] []) =
      some [(13, ['0', '0']), (98, ['0', '1']), (97, ['1'])] :=
  ⟨⟨sortedHeap_lawful, by decide, by decide, by decide, by decide⟩,
    frequent_symbols_shallower sortedHeap sortedHeap_lawful sampleTable (by decide)
      (by decide) (by decide) (by decide),
    by decide⟩

/-- Counterexample to C15 as stated: the counts of `skewTable` are non-negative, the symbol
`99` has a larger count than the symbol `97`, and its code has three bits against two: the
sum `2^30 + 2^30` of the node that holds `99` has wrapped to a negative count, so that node
was merged again before the node that holds `97`. -/
theorem frequent_symbols_counterexample :
    2 ≤ skewTable.length ∧ (∀ it ∈ skewTable, 0 ≤ it.2) ∧
      (createHuffmanTree sortedHeap skewTable).map (fun r => createPath r [] []) =
        some [(99, ['0', '0', '0']), (100, ['0', '0', '1']), (101, ['0', '1']),
          (97, ['1', '0']), (98, ['1', '1'])] ∧
      ((99, 1073741824) ∈ skewTable ∧ (97, 1073741823) ∈ skewTable ∧
        (1073741823 : Int) < 1073741824) ∧
      ¬ (['0', '0', '0'].length ≤ ['1', '0'].length) := by
  decide

end Huffman
